import Mathlib

/-!
# An all-solutions SAT solver with a watch list: embedding and verification

The development follows the Go package `sat` (files `config.go`, `sortutil.go`,
`solver.go`).  Go slices are lists, Go maps are partial functions, `uint` values
are natural numbers, and a run-time panic (index out of range, or the explicit
`panic` of `componentLiteral`) is the outcome `Outcome.panic`.  The two unbounded
loops of the package (`for len(...) > 0` in `updateWatchList`, `for` in `solve`)
are iterated under an explicit budget; `Outcome.outOfFuel` marks an exhausted
budget and is shown never to occur on the inputs the theorems speak about.

Debug printing (`VerboseDebug`, `printAssignment`, `printWatchList`) has no effect
on the computed values and is not part of the embedding; the rendering of the
formula (`printableLiteral`, `printableClause`, `String`) is.  Shifts of a variable number (`v << 1`) are taken without
wrap-around: a variable number is an index into a slice of strings and stays far
below `2^63`.  The one subtraction that can wrap, `d -= 1`, is modelled with its
wrap-around.
-/

namespace Sat

/-! ## config.go -/

/-- The type `Variable` of config.go: a positive occurrence of a name. -/
structure Variable where
  name : String
deriving DecidableEq

/-- The type `NegatedVariable` of config.go. -/
structure NegatedVariable where
  name : String
deriving DecidableEq

/-- The interface `LiteralEncoder`, with its two implementations in the package. -/
inductive LiteralEncoder where
  | ofVariable : Variable → LiteralEncoder
  | ofNegatedVariable : NegatedVariable → LiteralEncoder
deriving DecidableEq

/-- Method `(*Variable).IsNegated`: `return 0`. -/
def Variable.IsNegated (_v : Variable) : Nat := 0

/-- Method `(*Variable).Name`. -/
def Variable.Name (v : Variable) : String := v.name

/-- Function `NewVariable`. -/
def NewVariable (name : String) : Variable := { name := name }

/-- Method `(*NegatedVariable).IsNegated`: `return 1`. -/
def NegatedVariable.IsNegated (_v : NegatedVariable) : Nat := 1

/-- Method `(*NegatedVariable).Name`. -/
def NegatedVariable.Name (v : NegatedVariable) : String := v.name

/-- Method `(*Variable).Not`: the negated occurrence of the same name. -/
def Variable.Not (v : Variable) : LiteralEncoder :=
  LiteralEncoder.ofNegatedVariable { name := v.name }

/-- Dynamic dispatch of `IsNegated` through the interface. -/
def LiteralEncoder.IsNegated : LiteralEncoder → Nat
  | LiteralEncoder.ofVariable v => v.IsNegated
  | LiteralEncoder.ofNegatedVariable v => v.IsNegated

/-- Dynamic dispatch of `Name` through the interface. -/
def LiteralEncoder.Name : LiteralEncoder → String
  | LiteralEncoder.ofVariable v => v.Name
  | LiteralEncoder.ofNegatedVariable v => v.Name

/-- The type `Solution` (`map[string]bool`): a partial function on names. -/
abbrev Solution := String → Option Bool

/-- Function `NewSolution`: the empty map. -/
def NewSolution : Solution := fun _ => none

/-- Method `Solution.Set`: `s[variable] = value`. -/
def Solution.Set (s : Solution) (key : String) (value : Bool) : Solution :=
  fun k => if k = key then some value else s k

/-- Method `Solution.Value`: `s[variable]`, the zero value `false` for a missing key. -/
def Solution.Value (s : Solution) (key : String) : Bool := (s key).getD false

/-! ## sortutil.go -/

/-- Method `UintSlice.Sort` (`sort.Sort` with `Less(i, j) = p[i] < p[j]`): the
ascending rearrangement of the slice.  Equal unsigned integers cannot be told
apart, so the result does not depend on the sorting algorithm. -/
def UintSlice.Sort (p : List Nat) : List Nat := p.insertionSort (fun a b => a ≤ b)

/-! ## solver.go -/

/-- Result of running a piece of the program. -/
inductive Outcome (α : Type) where
  | ok : α → Outcome α
  | panic : Outcome α
  | outOfFuel : Outcome α

/-- The map `watchList map[uint][][]uint`. -/
abbrev WatchList := Nat → Option (List (List Nat))

/-- Read `w[k]`: the nil (empty) slice for a missing key. -/
def WatchList.get (w : WatchList) (k : Nat) : List (List Nat) := (w k).getD []

/-- Write `w[k] = v`. -/
def WatchList.set (w : WatchList) (k : Nat) (v : List (List Nat)) : WatchList :=
  fun j => if j = k then some v else w j

/-- The builtin `delete(w, k)`. -/
def WatchList.delete (w : WatchList) (k : Nat) : WatchList :=
  fun j => if j = k then none else w j

/-- The struct `Solver` (without the debug flag and the mutex). -/
structure Solver where
  variableNames : List String
  variableNameToNumber : String → Option Nat
  variableNumberToName : Nat → Option String
  clauses : List (List Nat)
  watchList : WatchList

/-- Function `NewSolver`: empty tables, no clause, nil watch list. -/
def NewSolver : Solver :=
  { variableNames := []
    variableNameToNumber := fun _ => none
    variableNumberToName := fun _ => none
    clauses := []
    watchList := fun _ => none }

/-- The loop of `setUpWatchList` over `s.clauses`; `clause[0]` panics on an
empty clause. -/
def setUpWatchListLoop : List (List Nat) → WatchList → Outcome WatchList
  | [], w => Outcome.ok w
  | clause :: rest, w =>
    match clause with
    | [] => Outcome.panic
    | c0 :: _ => setUpWatchListLoop rest (w.set c0 (w.get c0 ++ [clause]))

/-- Method `setUpWatchList`: a fresh map, every clause appended to the list of
its first literal. -/
def setUpWatchList (s : Solver) : Outcome Solver :=
  match setUpWatchListLoop s.clauses (fun _ => none) with
  | Outcome.ok w => Outcome.ok { s with watchList := w }
  | Outcome.panic => Outcome.panic
  | Outcome.outOfFuel => Outcome.outOfFuel

/-- Method `componentLiteral`. -/
def componentLiteral (s : Solver) (literal : Nat) : Outcome (String × Bool) :=
  if literal % 2 = 0 then
    match s.variableNumberToName ((literal ||| 1) >>> 1) with
    | some varName => Outcome.ok (varName, false)
    | none => Outcome.panic
  else
    match s.variableNumberToName (literal >>> 1) with
    | some varName => Outcome.ok (varName, true)
    | none => Outcome.panic

/-- The constant `conjunction`. -/
def conjunction : String := " ∧ "

/-- The constant `disjunction`. -/
def disjunction : String := " ∨ "

/-- Method `printableLiteral`. -/
def printableLiteral (s : Solver) (literal : Nat) : Outcome String :=
  if literal % 2 = 0 then
    match s.variableNumberToName ((literal ||| 1) >>> 1) with
    | some varName => Outcome.ok ("¬" ++ varName)
    | none => Outcome.panic
  else
    match s.variableNumberToName (literal >>> 1) with
    | some varName => Outcome.ok varName
    | none => Outcome.panic

/-- The loop of `printableClause`: the printable form of each literal. -/
def printableLiterals (s : Solver) : List Nat → Outcome (List String)
  | [] => Outcome.ok []
  | literal :: rest =>
    match printableLiteral s literal with
    | Outcome.ok str =>
      match printableLiterals s rest with
      | Outcome.ok strs => Outcome.ok (str :: strs)
      | Outcome.panic => Outcome.panic
      | Outcome.outOfFuel => Outcome.outOfFuel
    | Outcome.panic => Outcome.panic
    | Outcome.outOfFuel => Outcome.outOfFuel

/-- Method `printableClause`: the literals joined by `disjunction`, in brackets. -/
def printableClause (s : Solver) (clause : List Nat) : Outcome String :=
  match printableLiterals s clause with
  | Outcome.ok literals => Outcome.ok ("(" ++ disjunction.intercalate literals ++ ")")
  | Outcome.panic => Outcome.panic
  | Outcome.outOfFuel => Outcome.outOfFuel

/-- The loop of `String`: the printable form of each clause. -/
def printableClauses (s : Solver) : List (List Nat) → Outcome (List String)
  | [] => Outcome.ok []
  | clause :: rest =>
    match printableClause s clause with
    | Outcome.ok str =>
      match printableClauses s rest with
      | Outcome.ok strs => Outcome.ok (str :: strs)
      | Outcome.panic => Outcome.panic
      | Outcome.outOfFuel => Outcome.outOfFuel
    | Outcome.panic => Outcome.panic
    | Outcome.outOfFuel => Outcome.outOfFuel

/-- Method `String` of the solver: the clauses joined by `conjunction`. -/
def Solver.String (s : Solver) : Outcome String :=
  match printableClauses s s.clauses with
  | Outcome.ok disjunctions => Outcome.ok (conjunction.intercalate disjunctions)
  | Outcome.panic => Outcome.panic
  | Outcome.outOfFuel => Outcome.outOfFuel

/-- The inner loop of `updateWatchList` (`for _, alternative := range clause`):
the first literal of the clause whose variable is unassigned or assigned the
value `a ^ 1`; `none` when the loop ends with `foundAlternative` false.  Reading
`assignment[v]` panics when `v` is out of range. -/
def findAlternative (assignment : List (Option Nat)) : List Nat → Outcome (Option Nat)
  | [] => Outcome.ok none
  | alternative :: rest =>
    match assignment[alternative >>> 1]? with
    | none => Outcome.panic
    | some none => Outcome.ok (some alternative)
    | some (some x) =>
      if x = (alternative &&& 1) ^^^ 1 then Outcome.ok (some alternative)
      else findAlternative assignment rest

/-- The outer loop of `updateWatchList`, at most `fuel` iterations. -/
def updateWatchListLoop :
    Nat → WatchList → Nat → List (Option Nat) → Outcome (Bool × WatchList)
  | 0, w, falseLiteral, _ =>
    if (w.get falseLiteral).length > 0 then Outcome.outOfFuel else Outcome.ok (true, w)
  | fuel + 1, w, falseLiteral, assignment =>
    match w.get falseLiteral with
    | [] => Outcome.ok (true, w)
    | clause :: rest =>
      match findAlternative assignment clause with
      | Outcome.panic => Outcome.panic
      | Outcome.outOfFuel => Outcome.outOfFuel
      | Outcome.ok none => Outcome.ok (false, w)
      | Outcome.ok (some alternative) =>
        let w1 := if (clause :: rest).length > 1 then w.set falseLiteral rest
                  else w.delete falseLiteral
        let w2 := w1.set alternative (w1.get alternative ++ [clause])
        updateWatchListLoop fuel w2 falseLiteral assignment

/-- Method `updateWatchList`, on the field `watchList` (the only field it reads
or writes).  The budget is the length of the list of `falseLiteral`, which is
enough whenever no clause is moved back to `falseLiteral` itself. -/
def updateWatchList (w : WatchList) (falseLiteral : Nat) (assignment : List (Option Nat)) :
    Outcome (Bool × WatchList) :=
  updateWatchListLoop (w.get falseLiteral).length w falseLiteral assignment

/-- Loop over the literals of `AddClause`: registers unseen names and packs each
literal as `varNumber<<1 | l.IsNegated()`. -/
def addLiterals : Solver → List LiteralEncoder → Solver × List Nat
  | s, [] => (s, [])
  | s, l :: ls =>
    match s.variableNameToNumber l.Name with
    | some varNumber =>
      let r := addLiterals s ls
      (r.1, (varNumber <<< 1 ||| l.IsNegated) :: r.2)
    | none =>
      let varNumber := (s.variableNames ++ [l.Name]).length - 1
      let s1 : Solver :=
        { s with
          variableNames := s.variableNames ++ [l.Name]
          variableNameToNumber := fun k => if k = l.Name then some varNumber
                                           else s.variableNameToNumber k
          variableNumberToName := fun k => if k = varNumber then some l.Name
                                           else s.variableNumberToName k }
      let r := addLiterals s1 ls
      (r.1, (varNumber <<< 1 ||| l.IsNegated) :: r.2)

/-- Method `AddClause`. -/
def AddClause (s : Solver) (literals : List LiteralEncoder) : Solver :=
  let r := addLiterals s literals
  { r.1 with clauses := r.1.clauses ++ [UintSlice.Sort r.2] }

/-- Local variables of `solve` together with the watch list. -/
structure SolveState where
  watchList : WatchList
  results : List (List (Option Nat))
  assignment : List (Option Nat)
  state : List Nat
  d : Nat

/-- The statement `d -= 1` on a `uint` (64 bits): wraps around at zero. -/
def uintDec (d : Nat) : Nat := if d = 0 then 2 ^ 64 - 1 else d - 1

/-- The loop `for _, a := range []uint{0, 1}` of `solve`; the boolean is the
local `tried`.  A successful `updateWatchList` ends the loop (`break`).  The
pointer `&a` stored in `assignment[d]` is either cleared before `a` changes or
kept after the `break`, when `a` no longer changes; the embedding stores the
value of `a`. -/
def tryPolarities : List Nat → Bool → SolveState → Outcome (Bool × SolveState)
  | [], tried, st => Outcome.ok (tried, st)
  | a :: rest, tried, st =>
    match st.state[st.d]? with
    | none => Outcome.panic
    | some sd =>
      if (sd >>> a) &&& 1 = 0 then
        if st.d < st.assignment.length then
          let assignment1 := st.assignment.set st.d (some a)
          match updateWatchList st.watchList (st.d <<< 1 ||| a) assignment1 with
          | Outcome.panic => Outcome.panic
          | Outcome.outOfFuel => Outcome.outOfFuel
          | Outcome.ok (false, w) =>
            tryPolarities rest true
              { st with
                watchList := w
                state := st.state.set st.d (sd ||| 1 <<< a)
                assignment := assignment1.set st.d none }
          | Outcome.ok (true, w) =>
            Outcome.ok (true,
              { st with
                watchList := w
                state := st.state.set st.d (sd ||| 1 <<< a)
                assignment := assignment1
                d := st.d + 1 })
        else Outcome.panic
      else tryPolarities rest tried st

/-- What one iteration of the loop `for` of `solve` does. -/
inductive StepResult where
  | next : SolveState → StepResult
  | done : Bool → List (List (Option Nat)) → WatchList → StepResult
  | panic : StepResult
  | outOfFuel : StepResult

/-- The rest of an iteration of `solve` after the loop over the polarities: the
test `if !tried`, with the `return` at `d == 0` and the backtracking step. -/
def afterPolarities : Outcome (Bool × SolveState) → StepResult
  | Outcome.panic => StepResult.panic
  | Outcome.outOfFuel => StepResult.outOfFuel
  | Outcome.ok (tried, st1) =>
    if tried then StepResult.next st1
    else if st1.d = 0 then
      StepResult.done (decide (st1.results.length > 0)) st1.results st1.watchList
    else if st1.d < st1.state.length ∧ st1.d < st1.assignment.length then
      StepResult.next
        { st1 with
          state := st1.state.set st1.d 0
          assignment := st1.assignment.set st1.d none
          d := uintDec st1.d }
    else StepResult.panic

/-- One iteration of the loop `for` of `solve`. -/
def solveStep (numberOfVariables : Nat) (st : SolveState) : StepResult :=
  if st.d = numberOfVariables then
    StepResult.next
      { st with results := st.results ++ [st.assignment], d := uintDec st.d }
  else afterPolarities (tryPolarities [0, 1] false st)

/-- The loop `for` of `solve`, at most `fuel` iterations. -/
def solveLoop (numberOfVariables : Nat) :
    Nat → SolveState → Outcome (Bool × List (List (Option Nat)) × WatchList)
  | 0, _ => Outcome.outOfFuel
  | fuel + 1, st =>
    match solveStep numberOfVariables st with
    | StepResult.next st1 => solveLoop numberOfVariables fuel st1
    | StepResult.done b rs w => Outcome.ok (b, rs, w)
    | StepResult.panic => Outcome.panic
    | StepResult.outOfFuel => Outcome.outOfFuel

/-- Budget of loop iterations given to `solve` for `n` variables. -/
def solveFuel (n : Nat) : Nat := 2 ^ (n + 2)

/-- The state of `solve` before its loop. -/
def solveInit (s : Solver) : SolveState :=
  { watchList := s.watchList
    results := []
    assignment := List.replicate s.variableNames.length none
    state := List.replicate s.variableNames.length 0
    d := 0 }

/-- Method `solve`: verdict, raw assignments and the watch list it leaves. -/
def solve (s : Solver) : Outcome (Bool × List (List (Option Nat)) × WatchList) :=
  solveLoop s.variableNames.length (solveFuel s.variableNames.length) (solveInit s)

/-- The loop `for i := range solution` of `Satisfiable`, from index `i`. -/
def translateFrom (s : Solver) : Nat → List (Option Nat) → Solution → Outcome Solution
  | _, [], so => Outcome.ok so
  | i, none :: rest, so => translateFrom s (i + 1) rest so
  | i, some x :: rest, so =>
    match componentLiteral s (x + 2 * i) with
    | Outcome.ok (name, value) => translateFrom s (i + 1) rest (so.Set name value)
    | Outcome.panic => Outcome.panic
    | Outcome.outOfFuel => Outcome.outOfFuel

/-- The loop `for _, solution := range solutions` of `Satisfiable`. -/
def translateAll (s : Solver) : List (List (Option Nat)) → Outcome (List Solution)
  | [] => Outcome.ok []
  | solution :: rest =>
    match translateFrom s 0 solution NewSolution with
    | Outcome.ok so =>
      match translateAll s rest with
      | Outcome.ok sos => Outcome.ok (so :: sos)
      | Outcome.panic => Outcome.panic
      | Outcome.outOfFuel => Outcome.outOfFuel
    | Outcome.panic => Outcome.panic
    | Outcome.outOfFuel => Outcome.outOfFuel

/-- Method `Satisfiable`: the solver after the call, the verdict and the
solutions. -/
def Satisfiable (s : Solver) : Outcome (Solver × Bool × List Solution) :=
  match setUpWatchList s with
  | Outcome.panic => Outcome.panic
  | Outcome.outOfFuel => Outcome.outOfFuel
  | Outcome.ok s1 =>
    match solve s1 with
    | Outcome.panic => Outcome.panic
    | Outcome.outOfFuel => Outcome.outOfFuel
    | Outcome.ok (satisfiable, solutions, w) =>
      match translateAll s1 solutions with
      | Outcome.panic => Outcome.panic
      | Outcome.outOfFuel => Outcome.outOfFuel
      | Outcome.ok result => Outcome.ok ({ s1 with watchList := w }, satisfiable, result)

/-- A solver after a sequence of `AddClause` calls on a new solver. -/
def buildSolver (calls : List (List LiteralEncoder)) : Solver :=
  calls.foldl AddClause NewSolver

/-! ## Specification vocabulary -/

/-- The test of `updateWatchList` on a literal: its variable is unassigned, or
assigned the value that makes the literal true. -/
def litOk (A : List (Option Nat)) (L : Nat) : Prop :=
  A[L / 2]? = some none ∨ A[L / 2]? = some (some (1 - L % 2))

/-- Every clause of the formula sits in the watch list of one of its literals that
passes the test `litOk`, and the watch lists hold clauses of the formula only. -/
def WatchInv (clauses : List (List Nat)) (w : WatchList) (A : List (Option Nat)) : Prop :=
  (∀ c ∈ clauses, ∃ L ∈ c, c ∈ w.get L ∧ litOk A L) ∧
  (∀ L c, c ∈ w.get L → c ∈ clauses)

/-- The invariant `WatchInv` while the list of the literal `fl` is being emptied. -/
def WatchInvAt (clauses : List (List Nat)) (fl : Nat) (w : WatchList)
    (A : List (Option Nat)) : Prop :=
  (∀ c ∈ clauses, ∃ L ∈ c, c ∈ w.get L ∧ (L = fl ∨ litOk A L)) ∧
  (∀ L c, c ∈ w.get L → c ∈ clauses)

/-- The packed literal `L` is true under the raw assignment `A`. -/
def litTrue (A : List (Option Nat)) (L : Nat) : Bool :=
  decide (A[L / 2]? = some (some (1 - L % 2)))

/-- Some literal of the clause is true under `A`. -/
def clauseTrue (A : List (Option Nat)) (c : List Nat) : Bool := c.any (litTrue A)

/-- Every clause is true under `A`. -/
def allTrue (clauses : List (List Nat)) (A : List (Option Nat)) : Bool :=
  clauses.all (clauseTrue A)

/-- All ways to fill the last `m` of the `n` entries of `A` with `0` or `1`, the
value `0` first, earlier entries varying slowest. -/
def completions (n : Nat) : Nat → List (Option Nat) → List (List (Option Nat))
  | 0, A => [A]
  | m + 1, A =>
    completions n m (A.set (n - (m + 1)) (some 0)) ++
      completions n m (A.set (n - (m + 1)) (some 1))

/-- The completions of `A` under which every clause is true. -/
def models (clauses : List (List Nat)) (n m : Nat) (A : List (Option Nat)) :
    List (List (Option Nat)) :=
  (completions n m A).filter (allTrue clauses)

/-- The rest of `solveLoop` once the loop over the polarities has run. -/
def contLoop (n fuel : Nat) (r : Outcome (Bool × SolveState)) :
    Outcome (Bool × List (List (Option Nat)) × WatchList) :=
  match afterPolarities r with
  | StepResult.next st1 => solveLoop n fuel st1
  | StepResult.done b rs w => Outcome.ok (b, rs, w)
  | StepResult.panic => Outcome.panic
  | StepResult.outOfFuel => Outcome.outOfFuel

/-- The shape of the local arrays of `solve` when the subtree of variable `d` is
entered: variables below `d` are assigned `0` or `1`, the others are unassigned
and have no polarity marked as tried. -/
structure Shape (n d : Nat) (A : List (Option Nat)) (S : List Nat) : Prop where
  hd : d ≤ n
  lenA : A.length = n
  lenS : S.length = n
  assigned : ∀ j, j < d → ∃ x, x < 2 ∧ A[j]? = some (some x)
  free : ∀ j, d ≤ j → j < n → A[j]? = some none
  fresh : ∀ j, d ≤ j → j < n → S[j]? = some 0

/-- Every literal of every clause belongs to one of the `n` variables. -/
def InRange (clauses : List (List Nat)) (n : Nat) : Prop :=
  ∀ c ∈ clauses, ∀ L ∈ c, L / 2 < n

/-- Where `solveLoop` stands once the subtree of variable `d` is exhausted: the
`return` for `d = 0`, the loop at `d - 1` otherwise. -/
def finish (n fuel : Nat) (w : WatchList) (r : List (List (Option Nat)))
    (A : List (Option Nat)) (S : List Nat) (d : Nat) :
    Outcome (Bool × List (List (Option Nat)) × WatchList) :=
  if d = 0 then Outcome.ok (decide (r.length > 0), r, w)
  else solveLoop n fuel (SolveState.mk w r A S (d - 1))

/-- The two tables of the solver agree with the slice of names. -/
structure TablesOK (s : Solver) : Prop where
  toNumber : ∀ k i, s.variableNameToNumber k = some i ↔ s.variableNames[i]? = some k
  toName : ∀ i k, s.variableNumberToName i = some k ↔ s.variableNames[i]? = some k

/-- Every name registered in `s` keeps its number in `t`. -/
def Extends (s t : Solver) : Prop :=
  ∀ k i, s.variableNameToNumber k = some i → t.variableNameToNumber k = some i

/-- The stored clause `cl` holds the packed literals of the call `c`. -/
def ClauseOf (s : Solver) (cl : List Nat) (c : List LiteralEncoder) : Prop :=
  (∀ l ∈ c, ∃ i, s.variableNameToNumber l.Name = some i) ∧
  ∀ L, L ∈ cl ↔
    ∃ l ∈ c, s.variableNameToNumber l.Name = some (L / 2) ∧ L % 2 = l.IsNegated

/-- What the calls `calls` of `AddClause` leave in the solver. -/
def BuildInv (s : Solver) (calls : List (List LiteralEncoder)) : Prop :=
  TablesOK s ∧ List.Forall₂ (ClauseOf s) s.clauses calls

/-- The literal is true in the solution: a literal from `NewVariable(name)` when
the name maps to true, a literal from `Not()` when the name maps to false. -/
def Solution.holds (so : Solution) : LiteralEncoder → Bool
  | LiteralEncoder.ofVariable v => decide (so v.name = some true)
  | LiteralEncoder.ofNegatedVariable v => decide (so v.name = some false)

/-- Every added clause has a literal that is true in the solution. -/
def Solution.satisfies (so : Solution) (calls : List (List LiteralEncoder)) : Bool :=
  calls.all (fun c => c.any so.holds)

/-- The keys of the solution are exactly the given names. -/
def Solution.total (so : Solution) (names : List String) : Prop :=
  ∀ k, so k ≠ none ↔ k ∈ names

/-- The values of the solution on the names, in the order of the names. -/
def Solution.vector (so : Solution) (names : List String) : List Bool :=
  names.map so.Value

/-- The assignment that gives the `i`-th name the `i`-th boolean. -/
def Solution.ofVector : List String → List Bool → Solution
  | k :: ks, b :: bs => fun q => if q = k then some b else Solution.ofVector ks bs q
  | _, _ => NewSolution

/-- All `2 ^ n` vectors of `n` booleans in lexicographic order, `false` first. -/
def allVectors : Nat → List (List Bool)
  | 0 => [[]]
  | m + 1 => (allVectors m).map (fun v => false :: v) ++ (allVectors m).map (fun v => true :: v)

/-- The raw assignment array of a vector of booleans. -/
def encode (v : List Bool) : List (Option Nat) :=
  v.map (fun b => some (if b then 1 else 0))

/-- The solution that `Satisfiable` builds from a raw assignment. -/
def decode (s : Solver) (B : List (Option Nat)) : Solution := fun k =>
  match s.variableNameToNumber k with
  | none => none
  | some i =>
    match B[i]? with
    | some (some x) => some (decide (x = 1))
    | _ => none

/-- The vectors of booleans, in lexicographic order, whose assignment of the
names satisfies every added clause. -/
def satisfyingVectors (names : List String) (calls : List (List LiteralEncoder)) :
    List (List Bool) :=
  (allVectors names.length).filter (fun v => (Solution.ofVector names v).satisfies calls)

/-- The satisfying total assignments of the names, in lexicographic order. -/
def expectedSolutions (names : List String) (calls : List (List LiteralEncoder)) :
    List Solution :=
  (satisfyingVectors names calls).map (Solution.ofVector names)

/-! ## The formulas of the package tests -/

/-- The literal `NewVariable(name)`. -/
def pos (name : String) : LiteralEncoder := LiteralEncoder.ofVariable (NewVariable name)

/-- The literal `NewVariable(name).Not()`. -/
def neg (name : String) : LiteralEncoder := (NewVariable name).Not

/-- The calls of `ExampleSimpleSatisfiableSolutions`: the clause `{A, ¬A}`. -/
def callsTautology : List (List LiteralEncoder) := [[pos "A", neg "A"]]

/-- The calls of `ExampleSimpleSatisfiableSolutionsOr`: the clause `{A, B}`. -/
def callsOr : List (List LiteralEncoder) := [[pos "A", pos "B"]]

/-- The calls of `ExampleSimpleSatisfiableDependency`. -/
def callsDependency : List (List LiteralEncoder) :=
  [[pos "A"], [neg "A", pos "B1", pos "B2", pos "B3"], [neg "B1", neg "B2"],
    [neg "B1", neg "B3"], [neg "B2", neg "B3"]]

/-- The calls of `ExampleSimpleNonSatisfiable`: the clauses `{A}`, `{¬A}`. -/
def callsContradiction : List (List LiteralEncoder) := [[pos "A"], [neg "A"]]

/-! ## Vocabulary for clause ingestion and the variable tables -/

/-- The packed literal `L` is `2 * i + l.IsNegated()` for the number `i` that the
solver gives the name of the handle `l`. -/
def PackedAs (s : Solver) (l : LiteralEncoder) (L : Nat) : Prop :=
  ∃ i, s.variableNameToNumber l.Name = some i ∧ L = 2 * i + l.IsNegated

/-- The names of `names` not yet in `acc`, appended to `acc` in the order of their
first occurrence. -/
def firstSeenFrom : List String → List String → List String
  | acc, [] => acc
  | acc, k :: ks => firstSeenFrom (if k ∈ acc then acc else acc ++ [k]) ks

/-- The distinct names of a list in the order of their first occurrence. -/
def firstSeen (names : List String) : List String := firstSeenFrom [] names

/-- The names of the handles of all calls, call after call, left to right. -/
def namesOf (calls : List (List LiteralEncoder)) : List String :=
  calls.flatten.map LiteralEncoder.Name

/-- The stored clauses are the sorted packed literals of the calls. -/
def PackedInv (s : Solver) (calls : List (List LiteralEncoder)) : Prop :=
  List.Forall₂
    (fun cl c => ∃ packed, cl = UintSlice.Sort packed ∧ List.Forall₂ (PackedAs s) c packed)
    s.clauses calls

/-! ## Vocabulary for the propagation check and the search states -/

/-- The test of `updateWatchList` on a literal, as a boolean. -/
def litOkB (A : List (Option Nat)) (L : Nat) : Bool :=
  decide (A[L / 2]? = some none ∨ A[L / 2]? = some (some (1 - L % 2)))

/-- The first literal of the clause that is unassigned or true under `A`. -/
def firstOk (A : List (Option Nat)) (c : List Nat) : Option Nat := c.find? (litOkB A)

/-- The clause has a literal that is unassigned or true under `A`. -/
def hasOk (A : List (Option Nat)) (c : List Nat) : Bool := (firstOk A c).isSome

/-- The state of `solve` at the start of iteration `k` (counted from `0`) of its
loop, when the loop gets that far. -/
def stateAt (n : Nat) : Nat → SolveState → Option SolveState
  | 0, st => some st
  | k + 1, st =>
    match solveStep n st with
    | StepResult.next st1 => stateAt n k st1
    | _ => none

/-- How many times the clause `c` is held in the watch lists of the literals of
`n` variables. -/
def holdCount (n : Nat) (w : WatchList) (c : List Nat) : Nat :=
  Finset.sum (Finset.range (2 * n)) (fun L => (w.get L).count c)

/-- Every entry of a watch list is a clause of the formula, kept under a literal of
the clause that passes the test `litOk` (or is `fl`, when given), and every clause
is held as many times as it occurs in the formula. -/
def WatchAll (clauses : List (List Nat)) (n : Nat) (fl : Option Nat) (w : WatchList)
    (A : List (Option Nat)) : Prop :=
  (∀ L c, c ∈ w.get L → c ∈ clauses ∧ L ∈ c ∧ (some L = fl ∨ litOk A L)) ∧
  (∀ c, holdCount n w c = clauses.count c)

/-- The shape of the assignment array at the start of an iteration of `solve`:
variables below the cursor are assigned `0` or `1`, variables above it are
unassigned. -/
structure SearchInv (n : Nat) (st : SolveState) : Prop where
  lenA : st.assignment.length = n
  lenS : st.state.length = n
  hd : st.d ≤ n
  below : ∀ v, v < st.d → ∃ x, x < 2 ∧ st.assignment[v]? = some (some x)
  above : ∀ v, st.d < v → v < n → st.assignment[v]? = some none

theorem shiftRight_one_eq (L : Nat) : L >>> 1 = L / 2 := by
  simp [Nat.shiftRight_eq_div_pow]

theorem and_one_xor_one (L : Nat) : (L &&& 1) ^^^ 1 = 1 - L % 2 := by
  rw [Nat.and_one_is_mod]
  rcases Nat.mod_two_eq_zero_or_one L with h | h <;> rw [h] <;> rfl

theorem shiftLeft_one_or (d a : Nat) (ha : a < 2) : d <<< 1 ||| a = 2 * d + a := by
  have h1 : d <<< 1 = 2 ^ 1 * d := by rw [Nat.shiftLeft_eq, Nat.mul_comm]
  have h2 := Nat.mul_add_lt_is_or (i := 1) (b := a) (by simpa using ha) d
  rw [h1, ← h2]

theorem or_one_shiftRight (L : Nat) : (L ||| 1) >>> 1 = L / 2 := by
  rw [shiftRight_one_eq]
  have h : L = 2 ^ 1 * (L / 2) + L % 2 := by rw [pow_one]; exact (Nat.div_add_mod L 2).symm
  rcases Nat.mod_two_eq_zero_or_one L with h0 | h0
  · rw [h0] at h
    have h2 := Nat.mul_add_lt_is_or (i := 1) (b := 1) (by norm_num) (L / 2)
    have h3 : L ||| 1 = 2 ^ 1 * (L / 2) + 1 := by
      rw [h2]; congr 1
    rw [h3]; omega
  · have h3 : L ||| 1 = L := by
      apply Nat.eq_of_testBit_eq
      intro i
      rw [Nat.testBit_or]
      cases i with
      | zero => simp [Nat.testBit_zero, h0]
      | succ i => simp [Nat.testBit_succ]
    rw [h3]

theorem findAlternative_spec (A : List (Option Nat)) (c : List Nat)
    (hr : ∀ L ∈ c, L / 2 < A.length) :
    (findAlternative A c = Outcome.ok none ∧ ∀ L ∈ c, ¬ litOk A L) ∨
    (∃ alt, findAlternative A c = Outcome.ok (some alt) ∧ alt ∈ c ∧ litOk A alt) := by
  induction c with
  | nil => left; simp [findAlternative]
  | cons L rest ih =>
    have hL : L / 2 < A.length := hr L (List.mem_cons_self _ _)
    have hrest : ∀ L ∈ rest, L / 2 < A.length := fun L h => hr L (List.mem_cons_of_mem _ h)
    unfold findAlternative
    rw [shiftRight_one_eq, and_one_xor_one]
    have hget : A[L / 2]? = some A[L / 2] := List.getElem?_eq_getElem hL
    rw [hget]
    cases hx : A[L / 2] with
    | none =>
      right
      exact ⟨L, rfl, List.mem_cons_self _ _, Or.inl (by rw [hget, hx])⟩
    | some x =>
      by_cases hxa : x = 1 - L % 2
      · right
        refine ⟨L, by simp [hxa], List.mem_cons_self _ _, Or.inr ?_⟩
        rw [hget, hx, hxa]
      · simp only [hxa, if_false]
        rcases ih hrest with ⟨h1, h2⟩ | ⟨alt, h1, h2, h3⟩
        · left
          refine ⟨h1, ?_⟩
          intro L1 hL1
          rcases List.mem_cons.mp hL1 with rfl | hm
          · intro hok
            rcases hok with hok | hok
            · rw [hget, hx] at hok; simp at hok
            · rw [hget, hx] at hok
              simp at hok
              exact hxa hok
          · exact h2 L1 hm
        · right
          exact ⟨alt, h1, List.mem_cons_of_mem _ h2, h3⟩

theorem WatchList.get_set (w : WatchList) (k : Nat) (v : List (List Nat)) (j : Nat) :
    (w.set k v).get j = if j = k then v else w.get j := by
  unfold WatchList.get WatchList.set
  by_cases h : j = k <;> simp [h]

theorem WatchList.get_delete (w : WatchList) (k j : Nat) :
    (w.delete k).get j = if j = k then [] else w.get j := by
  unfold WatchList.get WatchList.delete
  by_cases h : j = k <;> simp [h]

/-- Reading the watch list after one clause has been moved from `fl` to `alt`. -/
theorem moved_get (w : WatchList) (fl alt : Nat) (clause : List Nat)
    (rest : List (List Nat)) (hne : alt ≠ fl) (hw : w.get fl = clause :: rest) (j : Nat) :
    let w1 := if (clause :: rest).length > 1 then w.set fl rest else w.delete fl
    (w1.set alt (w1.get alt ++ [clause])).get j =
      if j = alt then w.get alt ++ [clause] else if j = fl then rest else w.get j := by
  intro w1
  have h1 : ∀ i, w1.get i = if i = fl then rest else w.get i := by
    intro i
    by_cases hlen : (clause :: rest).length > 1
    · simp only [w1, hlen, if_true, WatchList.get_set]
    · simp only [w1, hlen, if_false, WatchList.get_delete]
      have : rest = [] := by
        cases rest with
        | nil => rfl
        | cons a b => simp at hlen
      rw [this]
  rw [WatchList.get_set, h1, h1]
  simp [hne]

theorem updateWatchListLoop_spec (clauses : List (List Nat)) (fl : Nat)
    (A : List (Option Nat)) (hr : ∀ c ∈ clauses, ∀ L ∈ c, L / 2 < A.length)
    (hfl : ¬ litOk A fl) :
    ∀ (fuel : Nat) (w : WatchList), (w.get fl).length ≤ fuel → WatchInvAt clauses fl w A →
      ∃ b w1, updateWatchListLoop fuel w fl A = Outcome.ok (b, w1) ∧
        (b = true → WatchInv clauses w1 A) ∧
        (b = false → WatchInvAt clauses fl w1 A ∧ ∃ c ∈ clauses, ∀ L ∈ c, ¬ litOk A L) := by
  have hdone : ∀ w : WatchList, w.get fl = [] → WatchInvAt clauses fl w A →
      WatchInv clauses w A := by
    intro w hw hinv
    refine ⟨?_, hinv.2⟩
    intro c hc
    obtain ⟨L, hL, hmem, hor⟩ := hinv.1 c hc
    rcases hor with rfl | hok
    · rw [hw] at hmem; simp at hmem
    · exact ⟨L, hL, hmem, hok⟩
  intro fuel
  induction fuel with
  | zero =>
    intro w hlen hinv
    have hw : w.get fl = [] := List.length_eq_zero.mp (Nat.le_zero.mp hlen)
    refine ⟨true, w, ?_, fun _ => hdone w hw hinv, fun h => by simp at h⟩
    simp [updateWatchListLoop, hw]
  | succ fuel ih =>
    intro w hlen hinv
    cases hw : w.get fl with
    | nil =>
      refine ⟨true, w, ?_, fun _ => hdone w hw hinv, fun h => by simp at h⟩
      simp [updateWatchListLoop, hw]
    | cons clause rest =>
      have hcl : clause ∈ clauses := hinv.2 fl clause (by rw [hw]; exact List.mem_cons_self _ _)
      rcases findAlternative_spec A clause (hr clause hcl) with ⟨h1, h2⟩ | ⟨alt, h1, h2, h3⟩
      · refine ⟨false, w, ?_, fun h => by simp at h, fun _ => ⟨hinv, clause, hcl, h2⟩⟩
        simp [updateWatchListLoop, hw, h1]
      · have hne : alt ≠ fl := fun h => hfl (h ▸ h3)
        have hget := moved_get w fl alt clause rest hne hw
        simp only at hget
        have hstep : updateWatchListLoop (fuel + 1) w fl A =
            updateWatchListLoop fuel
              ((if (clause :: rest).length > 1 then w.set fl rest else w.delete fl).set alt
                ((if (clause :: rest).length > 1 then w.set fl rest else w.delete fl).get alt
                  ++ [clause])) fl A := by
          simp [updateWatchListLoop, hw, h1]
        rw [hstep]
        apply ih
        · rw [hget]
          simp only [Ne.symm hne, if_false, if_true]
          rw [hw] at hlen
          simp at hlen
          exact hlen
        · constructor
          · intro c hc
            obtain ⟨L, hL, hmem, hor⟩ := hinv.1 c hc
            by_cases hLfl : L = fl
            · subst hLfl
              rw [hw] at hmem
              rcases List.mem_cons.mp hmem with rfl | hm
              · refine ⟨alt, h2, ?_, Or.inr h3⟩
                rw [hget]; simp
              · refine ⟨L, hL, ?_, Or.inl rfl⟩
                rw [hget]; simp [Ne.symm hne, hm]
            · refine ⟨L, hL, ?_, hor⟩
              rw [hget]
              by_cases hLa : L = alt
              · simp [hLa]; left; rw [← hLa]; exact hmem
              · simp [hLa, hLfl, hmem]
          · intro L c hmem
            rw [hget] at hmem
            by_cases hLa : L = alt
            · simp [hLa] at hmem
              rcases hmem with hm | rfl
              · exact hinv.2 alt c hm
              · exact hcl
            · by_cases hLfl : L = fl
              · simp [hLa, hLfl, Ne.symm hne] at hmem
                exact hinv.2 fl c (by rw [hw]; exact List.mem_cons_of_mem _ hmem)
              · simp [hLa, hLfl] at hmem
                exact hinv.2 L c hmem

theorem litOk_set_none (A : List (Option Nat)) (d L : Nat) (hd : d < A.length)
    (h : litOk A L) : litOk (A.set d none) L := by
  by_cases hL : L / 2 = d
  · left; rw [hL]; simp [hd]
  · unfold litOk at *
    rw [List.getElem?_set_ne (Ne.symm hL)]
    exact h

theorem WatchInv_set_none (clauses : List (List Nat)) (w : WatchList)
    (A : List (Option Nat)) (d : Nat) (hd : d < A.length) (h : WatchInv clauses w A) :
    WatchInv clauses w (A.set d none) := by
  refine ⟨?_, h.2⟩
  intro c hc
  obtain ⟨L, hL, hm, hok⟩ := h.1 c hc
  exact ⟨L, hL, hm, litOk_set_none A d L hd hok⟩

theorem updateWatchList_spec (clauses : List (List Nat)) (w : WatchList)
    (A0 : List (Option Nat)) (d a : Nat) (hd : d < A0.length) (ha : a < 2)
    (hr : InRange clauses A0.length) (hinv : WatchInv clauses w A0) :
    ∃ b w1, updateWatchList w (d <<< 1 ||| a) (A0.set d (some a)) = Outcome.ok (b, w1) ∧
      (b = true → WatchInv clauses w1 (A0.set d (some a))) ∧
      (b = false → WatchInv clauses w1 (A0.set d none) ∧
        ∃ c ∈ clauses, ∀ L ∈ c, ¬ litOk (A0.set d (some a)) L) := by
  rw [shiftLeft_one_or d a ha]
  have hdiv : (2 * d + a) / 2 = d := by omega
  have hmod : (2 * d + a) % 2 = a := by omega
  have hfl : ¬ litOk (A0.set d (some a)) (2 * d + a) := by
    unfold litOk
    rw [hdiv, hmod]
    simp [hd]
    omega
  have hat : WatchInvAt clauses (2 * d + a) w (A0.set d (some a)) := by
    refine ⟨?_, hinv.2⟩
    intro c hc
    obtain ⟨L, hL, hm, hok⟩ := hinv.1 c hc
    refine ⟨L, hL, hm, ?_⟩
    by_cases hLd : L / 2 = d
    · by_cases hLa : L % 2 = a
      · left; omega
      · right; right
        rw [hLd]
        have : 1 - L % 2 = a := by omega
        rw [this]
        simp [hd]
    · right
      unfold litOk at *
      rw [List.getElem?_set_ne (Ne.symm hLd)]
      exact hok
  have hr1 : ∀ c ∈ clauses, ∀ L ∈ c, L / 2 < (A0.set d (some a)).length := by
    intro c hc L hL
    rw [List.length_set]
    exact hr c hc L hL
  obtain ⟨b, w1, h1, h2, h3⟩ :=
    updateWatchListLoop_spec clauses (2 * d + a) (A0.set d (some a)) hr1 hfl
      (w.get (2 * d + a)).length w (Nat.le_refl _) hat
  refine ⟨b, w1, h1, h2, ?_⟩
  intro hb
  obtain ⟨h4, h5⟩ := h3 hb
  refine ⟨⟨?_, h4.2⟩, h5⟩
  intro c hc
  obtain ⟨L, hL, hm, hor⟩ := h4.1 c hc
  refine ⟨L, hL, hm, ?_⟩
  rcases hor with rfl | hok
  · left; rw [hdiv]; simp [hd]
  · have := litOk_set_none (A0.set d (some a)) d L (by rw [List.length_set]; exact hd) hok
    rw [List.set_set] at this
    exact this

theorem completions_agree (n : Nat) : ∀ (m : Nat) (A B : List (Option Nat)),
    B ∈ completions n m A → ∀ j, j < n - m → B[j]? = A[j]? := by
  intro m
  induction m with
  | zero =>
    intro A B hB j _
    simp [completions] at hB
    rw [hB]
  | succ m ih =>
    intro A B hB j hj
    simp only [completions, List.mem_append] at hB
    have hne : n - (m + 1) ≠ j := by omega
    rcases hB with hB | hB
    · rw [ih _ B hB j (by omega), List.getElem?_set_ne hne]
    · rw [ih _ B hB j (by omega), List.getElem?_set_ne hne]

theorem clauseTrue_false_of (B : List (Option Nat)) (c : List Nat)
    (h : ∀ L ∈ c, B[L / 2]? ≠ some (some (1 - L % 2))) : clauseTrue B c = false := by
  unfold clauseTrue
  rw [List.any_eq_false]
  intro L hL
  simp [litTrue, h L hL]

/-- A clause whose literals all fail the test under a partial assignment stays
false under every completion. -/
theorem models_eq_nil (clauses : List (List Nat)) (n m d : Nat) (A : List (Option Nat))
    (S : List Nat) (hdm : d + m = n) (hs : Shape n d A S)
    (hc : ∃ c ∈ clauses, ∀ L ∈ c, ¬ litOk A L) (hr : InRange clauses n) :
    models clauses n m A = [] := by
  obtain ⟨c, hcm, hcl⟩ := hc
  unfold models
  rw [List.filter_eq_nil_iff]
  intro B hB
  have hB1 := completions_agree n m A B hB
  simp only [allTrue, List.all_eq_true, Bool.not_eq_true]
  intro hall
  have hct := hall c hcm
  rw [clauseTrue_false_of B c] at hct
  · exact Bool.false_ne_true hct
  · intro L hL
    have hLn : L / 2 < n := hr c hcm L hL
    have hnok := hcl L hL
    by_cases hLd : L / 2 < d
    · rw [hB1 (L / 2) (by omega)]
      intro heq
      exact hnok (Or.inr heq)
    · exfalso
      exact hnok (Or.inl (hs.free (L / 2) (by omega) hLn))

theorem models_leaf (clauses : List (List Nat)) (n : Nat) (w : WatchList)
    (A : List (Option Nat)) (S : List Nat) (hs : Shape n n A S)
    (hinv : WatchInv clauses w A) : models clauses n 0 A = [A] := by
  unfold models completions
  rw [List.filter_cons_of_pos]
  · rfl
  · simp only [allTrue, List.all_eq_true]
    intro c hc
    obtain ⟨L, hL, _, hok⟩ := hinv.1 c hc
    simp only [clauseTrue, List.any_eq_true]
    refine ⟨L, hL, ?_⟩
    rcases hok with hok | hok
    · have hlt : L / 2 < n := by
        by_contra hge
        have : A[L / 2]? = none := List.getElem?_eq_none (by rw [hs.lenA]; omega)
        rw [this] at hok
        exact Option.noConfusion hok
      obtain ⟨x, _, hx⟩ := hs.assigned (L / 2) hlt
      rw [hx] at hok
      simp at hok
    · simp [litTrue, hok]

theorem models_succ (clauses : List (List Nat)) (n m : Nat) (A : List (Option Nat)) :
    models clauses n (m + 1) A =
      models clauses n m (A.set (n - (m + 1)) (some 0)) ++
        models clauses n m (A.set (n - (m + 1)) (some 1)) := by
  simp [models, completions, List.filter_append]

theorem solveLoop_step (n fuel : Nat) (st : SolveState) (h : st.d ≠ n) :
    solveLoop n (fuel + 1) st = contLoop n fuel (tryPolarities [0, 1] false st) := by
  simp only [solveLoop, solveStep, h, if_false, contLoop]

theorem solveLoop_accept (n fuel : Nat) (hn : 0 < n) (w : WatchList)
    (r : List (List (Option Nat))) (A : List (Option Nat)) (S : List Nat) :
    solveLoop n (fuel + 1) (SolveState.mk w r A S n) =
      solveLoop n fuel (SolveState.mk w (r ++ [A]) A S (n - 1)) := by
  have : uintDec n = n - 1 := by
    unfold uintDec
    rw [if_neg (by omega)]
  simp only [solveLoop, solveStep, if_true, this]

theorem tryPolarities_skip (a : Nat) (rest : List Nat) (t : Bool) (st : SolveState)
    (sd : Nat) (h : st.state[st.d]? = some sd) (hb : (sd >>> a) &&& 1 ≠ 0) :
    tryPolarities (a :: rest) t st = tryPolarities rest t st := by
  rw [tryPolarities]
  simp only [h, hb, if_false]

theorem tryPolarities_try (a : Nat) (rest : List Nat) (t : Bool) (st : SolveState)
    (sd : Nat) (h : st.state[st.d]? = some sd) (hb : (sd >>> a) &&& 1 = 0)
    (hd : st.d < st.assignment.length) (b : Bool) (w1 : WatchList)
    (hu : updateWatchList st.watchList (st.d <<< 1 ||| a) (st.assignment.set st.d (some a))
      = Outcome.ok (b, w1)) :
    tryPolarities (a :: rest) t st =
      if b then
        Outcome.ok (true, SolveState.mk w1 st.results (st.assignment.set st.d (some a))
          (st.state.set st.d (sd ||| 1 <<< a)) (st.d + 1))
      else
        tryPolarities rest true (SolveState.mk w1 st.results
          ((st.assignment.set st.d (some a)).set st.d none)
          (st.state.set st.d (sd ||| 1 <<< a)) st.d) := by
  rw [tryPolarities]
  simp only [h, hb, if_true, hd, hu]
  cases b <;> simp

theorem set_self_of_getElem? {α : Type} (l : List α) (i : Nat) (x : α)
    (h : l[i]? = some x) : l.set i x = l := by
  apply List.ext_getElem?
  intro j
  by_cases hj : i = j
  · subst hj
    rw [h]
    have hlt : i < l.length := by
      by_contra hge
      rw [List.getElem?_eq_none (by omega)] at h
      exact Option.noConfusion h
    simp [hlt]
  · rw [List.getElem?_set_ne hj]

theorem final_step (n fuel : Nat) (w : WatchList) (r : List (List (Option Nat)))
    (A : List (Option Nat)) (S : List Nat) (d : Nat) (hd : d < n) (hA : A.length = n)
    (hS : S.length = n) :
    solveLoop n (fuel + 1) (SolveState.mk w r A (S.set d 3) d) =
      if d = 0 then Outcome.ok (decide (r.length > 0), r, w)
      else solveLoop n fuel (SolveState.mk w r (A.set d none) (S.set d 0) (d - 1)) := by
  have hst : (S.set d 3)[d]? = some 3 := by simp [hS, hd]
  rw [solveLoop_step n fuel _ (by simp; omega)]
  rw [tryPolarities_skip 0 [1] false _ 3 hst (by decide)]
  rw [tryPolarities_skip 1 [] false _ 3 hst (by decide)]
  simp only [tryPolarities, contLoop, afterPolarities]
  by_cases h0 : d = 0
  · simp [h0]
  · have : uintDec d = d - 1 := by
      unfold uintDec
      rw [if_neg h0]
    simp [h0, hS, hA, hd, this, List.set_set]

theorem Shape.step {n d : Nat} {A : List (Option Nat)} {S : List Nat}
    (hs : Shape n d A S) (hd : d < n) (a x : Nat) (ha : a < 2) :
    Shape n (d + 1) (A.set d (some a)) (S.set d x) := by
  refine ⟨by omega, by rw [List.length_set]; exact hs.lenA,
    by rw [List.length_set]; exact hs.lenS, ?_, ?_, ?_⟩
  · intro j hj
    by_cases hjd : j = d
    · subst hjd
      exact ⟨a, ha, by simp [hs.lenA, hd]⟩
    · rw [List.getElem?_set_ne (Ne.symm hjd)]
      exact hs.assigned j (by omega)
  · intro j hj hjn
    rw [List.getElem?_set_ne (by omega)]
    exact hs.free j (by omega) hjn
  · intro j hj hjn
    rw [List.getElem?_set_ne (by omega)]
    exact hs.fresh j (by omega) hjn

theorem phase1 (clauses : List (List Nat)) (n m d : Nat) (hdm : d + (m + 1) = n)
    (hr : InRange clauses n)
    (ih : ∀ (w : WatchList) (r : List (List (Option Nat))) (A : List (Option Nat))
      (S : List Nat), Shape n (d + 1) A S → WatchInv clauses w A →
      ∃ k w1, 0 < k ∧ k + 3 ≤ 2 ^ (m + 2) ∧ WatchInv clauses w1 A ∧
        ∀ fuel, solveLoop n (fuel + k) (SolveState.mk w r A S (d + 1)) =
          finish n fuel w1 (r ++ models clauses n m A) A S (d + 1))
    (w : WatchList) (r : List (List (Option Nat))) (A A1 : List (Option Nat))
    (S : List Nat) (t : Bool) (hs : Shape n d A S) (hA1 : A1.length = n)
    (hset : A1.set d (some 1) = A.set d (some 1)) (hinv : WatchInv clauses w A1) :
    ∃ k w1, 0 < k ∧ k + 2 ≤ 2 ^ (m + 2) ∧ WatchInv clauses w1 A ∧
      ∀ fuel, contLoop n (fuel + k)
          (tryPolarities [1] t (SolveState.mk w r A1 (S.set d 1) d)) =
        finish n fuel w1 (r ++ models clauses n m (A.set d (some 1))) A S d := by
  have hd : d < n := by omega
  have hAd : A[d]? = some none := hs.free d (Nat.le_refl _) hd
  have hSd : S[d]? = some 0 := hs.fresh d (Nat.le_refl _) hd
  have hAnone : A.set d none = A := set_self_of_getElem? A d none hAd
  have hS0 : S.set d 0 = S := set_self_of_getElem? S d 0 hSd
  have hA1none : A1.set d none = A := by
    have := congrArg (fun l => l.set d none) hset
    simp only [List.set_set] at this
    rw [this, hAnone]
  have hst : (S.set d 1)[d]? = some 1 := by simp [hs.lenS, hd]
  obtain ⟨b, w1, hu, ht, hf⟩ :=
    updateWatchList_spec clauses w A1 d 1 (by omega) (by omega) (by rw [hA1]; exact hr) hinv
  have htry := tryPolarities_try 1 [] t (SolveState.mk w r A1 (S.set d 1) d) 1 hst
    (by decide) (by simp; omega) b w1 hu
  simp only [List.set_set, hset] at htry
  have h3 : (1 ||| 1 <<< 1) = 3 := by decide
  rw [h3] at htry
  have hp2 : 8 ≤ 2 ^ (m + 2) + 2 ^ (m + 2) := by
    have : 4 ≤ 2 ^ (m + 2) := by
      have := Nat.pow_le_pow_right (n := 2) (by omega) (show 2 ≤ m + 2 by omega)
      simpa using this
    omega
  cases b with
  | false =>
    have hw1 : WatchInv clauses w1 A := by
      have := (hf rfl).1
      rw [hA1none] at this
      exact this
    have hnil : models clauses n m (A.set d (some 1)) = [] := by
      apply models_eq_nil clauses n m (d + 1) _ (S.set d 3) (by omega)
        (hs.step hd 1 3 (by omega)) _ hr
      have := (hf rfl).2
      rw [hset] at this
      exact this
    refine ⟨1, w1, by omega, by have := Nat.one_le_two_pow (n := m + 2); omega, hw1, ?_⟩
    intro fuel
    rw [htry]
    simp only [Bool.false_eq_true, if_false, tryPolarities, contLoop, afterPolarities, if_true]
    rw [hAnone, final_step n fuel w1 r A S d hd hs.lenA hs.lenS, hnil, List.append_nil]
    unfold finish
    rw [hAnone, hS0]
  | true =>
    have hs1 : Shape n (d + 1) (A.set d (some 1)) (S.set d 3) := hs.step hd 1 3 (by omega)
    have hw1 : WatchInv clauses w1 (A.set d (some 1)) := by
      have := ht rfl
      rw [hset] at this
      exact this
    obtain ⟨k1, w2, hk0, hk1, hw2, hrun⟩ := ih w1 r (A.set d (some 1)) (S.set d 3) hs1 hw1
    have hw2A : WatchInv clauses w2 A := by
      have := WatchInv_set_none clauses w2 (A.set d (some 1)) d
        (by rw [List.length_set, hs.lenA]; exact hd) hw2
      rw [List.set_set, hAnone] at this
      exact this
    refine ⟨k1 + 1, w2, by omega, by omega, hw2A, ?_⟩
    intro fuel
    rw [htry]
    simp only [if_true, contLoop, afterPolarities]
    have hfu : fuel + (k1 + 1) = (fuel + 1) + k1 := by omega
    rw [hfu, hrun (fuel + 1)]
    unfold finish
    simp only [Nat.add_sub_cancel, if_neg (Nat.succ_ne_zero d)]
    rw [final_step n fuel w2 _ (A.set d (some 1)) S d hd
      (by rw [List.length_set]; exact hs.lenA) hs.lenS]
    rw [List.set_set, hAnone, hS0]

theorem explore (clauses : List (List Nat)) (n : Nat) (hn : 0 < n)
    (hr : InRange clauses n) :
    ∀ (m d : Nat), d + m = n →
      ∀ (w : WatchList) (r : List (List (Option Nat))) (A : List (Option Nat))
        (S : List Nat), Shape n d A S → WatchInv clauses w A →
        ∃ k w1, 0 < k ∧ k + 3 ≤ 2 ^ (m + 2) ∧ WatchInv clauses w1 A ∧
          ∀ fuel, solveLoop n (fuel + k) (SolveState.mk w r A S d) =
            finish n fuel w1 (r ++ models clauses n m A) A S d := by
  intro m
  induction m with
  | zero =>
    intro d hdm w r A S hs hinv
    have hdn : d = n := by omega
    subst hdn
    refine ⟨1, w, by omega, by norm_num, hinv, ?_⟩
    intro fuel
    rw [solveLoop_accept d fuel hn, models_leaf clauses d w A S hs hinv]
    unfold finish
    rw [if_neg (by omega)]
  | succ m ih =>
    intro d hdm w r A S hs hinv
    have hd : d < n := by omega
    have hAd : A[d]? = some none := hs.free d (Nat.le_refl _) hd
    have hSd : S[d]? = some 0 := hs.fresh d (Nat.le_refl _) hd
    have hAnone : A.set d none = A := set_self_of_getElem? A d none hAd
    have hnd : n - (m + 1) = d := by omega
    have hpow : 2 ^ (m + 1 + 2) = 2 ^ (m + 2) + 2 ^ (m + 2) := by
      rw [show m + 1 + 2 = (m + 2) + 1 by omega, Nat.pow_succ]; omega
    obtain ⟨b, w1, hu, ht, hf⟩ :=
      updateWatchList_spec clauses w A d 0 (by rw [hs.lenA]; exact hd) (by omega)
        (by rw [hs.lenA]; exact hr) hinv
    have htry := tryPolarities_try 0 [1] false (SolveState.mk w r A S d) 0 hSd
      (by decide) (by simp [hs.lenA, hd]) b w1 hu
    simp only [List.set_set] at htry
    have h1 : (0 ||| 1 <<< 0) = 1 := by decide
    rw [h1] at htry
    have ihd := ih (d + 1) (by omega)
    cases b with
    | false =>
      have hw1 : WatchInv clauses w1 A := by
        have := (hf rfl).1
        rw [hAnone] at this
        exact this
      have hnil : models clauses n m (A.set d (some 0)) = [] :=
        models_eq_nil clauses n m (d + 1) _ (S.set d 1) (by omega)
          (hs.step hd 0 1 (by omega)) (hf rfl).2 hr
      obtain ⟨kp, w3, hkp0, hkp, hw3, hrun⟩ :=
        phase1 clauses n m d (by omega) hr ihd w1 r A A S true hs hs.lenA rfl hw1
      refine ⟨kp + 1, w3, by omega, by omega, hw3, ?_⟩
      intro fuel
      rw [show fuel + (kp + 1) = (fuel + kp) + 1 by omega,
        solveLoop_step n _ _ (by simp; omega), htry]
      simp only [Bool.false_eq_true, if_false]
      rw [hAnone, hrun fuel, models_succ, hnd, hnil, List.nil_append]
    | true =>
      have hs1 : Shape n (d + 1) (A.set d (some 0)) (S.set d 1) := hs.step hd 0 1 (by omega)
      obtain ⟨k1, w2, hk0, hk1, hw2, hrun1⟩ :=
        ihd w1 r (A.set d (some 0)) (S.set d 1) hs1 (ht rfl)
      obtain ⟨kp, w3, hkp0, hkp, hw3, hrun⟩ :=
        phase1 clauses n m d (by omega) hr ihd w2
          (r ++ models clauses n m (A.set d (some 0))) A (A.set d (some 0)) S false hs
          (by rw [List.length_set]; exact hs.lenA) (by rw [List.set_set]) hw2
      refine ⟨kp + 1 + k1 + 1, w3, by omega, by omega, hw3, ?_⟩
      intro fuel
      rw [show fuel + (kp + 1 + k1 + 1) = ((fuel + kp + 1) + k1) + 1 by omega,
        solveLoop_step n _ _ (by simp; omega), htry]
      simp only [if_true, contLoop, afterPolarities]
      rw [hrun1 (fuel + kp + 1)]
      unfold finish
      simp only [Nat.add_sub_cancel, if_neg (Nat.succ_ne_zero d)]
      rw [solveLoop_step n _ _ (by simp; omega)]
      have hst : (S.set d 1)[d]? = some 1 := by simp [hs.lenS, hd]
      rw [tryPolarities_skip 0 [1] false _ 1 hst (by decide), hrun fuel, models_succ, hnd,
        List.append_assoc]
      rfl

theorem setUpWatchListLoop_spec : ∀ (rest : List (List Nat)) (w : WatchList),
    (∀ c ∈ rest, c ≠ []) →
    ∃ w1, setUpWatchListLoop rest w = Outcome.ok w1 ∧
      ∀ L, w1.get L = w.get L ++ rest.filter (fun c => decide (c.head? = some L)) := by
  intro rest
  induction rest with
  | nil =>
    intro w _
    exact ⟨w, rfl, fun L => by simp⟩
  | cons clause rest ih =>
    intro w hne
    cases hcl : clause with
    | nil => exact absurd hcl (hne clause (List.mem_cons_self _ _))
    | cons c0 tl =>
      obtain ⟨w1, h1, h2⟩ := ih (w.set c0 (w.get c0 ++ [c0 :: tl]))
        (fun c hc => hne c (List.mem_cons_of_mem _ hc))
      refine ⟨w1, ?_, ?_⟩
      · simp only [setUpWatchListLoop]
        exact h1
      · intro L
        rw [h2 L, WatchList.get_set]
        by_cases hL : L = c0
        · subst hL
          simp [List.filter_cons]
        · have : ¬ c0 = L := fun h => hL h.symm
          simp [List.filter_cons, hL, this]

theorem setUpWatchList_spec (s : Solver) (hne : ∀ c ∈ s.clauses, c ≠ []) :
    ∃ w1, setUpWatchList s = Outcome.ok { s with watchList := w1 } ∧
      ∀ L, w1.get L = s.clauses.filter (fun c => decide (c.head? = some L)) := by
  obtain ⟨w1, h1, h2⟩ := setUpWatchListLoop_spec s.clauses (fun _ => none) hne
  refine ⟨w1, ?_, ?_⟩
  · simp only [setUpWatchList, h1]
  · intro L
    rw [h2 L]
    simp [WatchList.get]

theorem watchInv_init (clauses : List (List Nat)) (n : Nat) (w : WatchList)
    (hne : ∀ c ∈ clauses, c ≠ []) (hr : InRange clauses n)
    (hw : ∀ L, w.get L = clauses.filter (fun c => decide (c.head? = some L))) :
    WatchInv clauses w (List.replicate n none) := by
  constructor
  · intro c hc
    cases hcl : c with
    | nil => exact absurd hcl (hne c hc)
    | cons c0 tl =>
      subst hcl
      refine ⟨c0, List.mem_cons_self _ _, ?_, ?_⟩
      · rw [hw c0]
        simp [hc]
      · left
        have := hr _ hc c0 (List.mem_cons_self _ _)
        simp [List.getElem?_replicate, this]
  · intro L c hm
    rw [hw L] at hm
    exact (List.mem_filter.mp hm).1

theorem shape_init (n : Nat) : Shape n 0 (List.replicate n none) (List.replicate n 0) := by
  refine ⟨Nat.zero_le _, by simp, by simp, ?_, ?_, ?_⟩
  · intro j hj; omega
  · intro j _ hj; simp [List.getElem?_replicate, hj]
  · intro j _ hj; simp [List.getElem?_replicate, hj]

theorem solveLoop_spec (s : Solver) (hn : 0 < s.variableNames.length)
    (hr : InRange s.clauses s.variableNames.length)
    (hinv : WatchInv s.clauses s.watchList (List.replicate s.variableNames.length none)) :
    ∃ k w1, 0 < k ∧ k + 3 ≤ solveFuel s.variableNames.length ∧
      ∀ fuel, solveLoop s.variableNames.length (fuel + k) (solveInit s) =
        Outcome.ok
          (decide ((models s.clauses s.variableNames.length s.variableNames.length
              (List.replicate s.variableNames.length none)).length > 0),
            models s.clauses s.variableNames.length s.variableNames.length
              (List.replicate s.variableNames.length none), w1) := by
  obtain ⟨k, w1, hk0, hk, _, hrun⟩ :=
    explore s.clauses s.variableNames.length hn hr s.variableNames.length 0 (by omega)
      s.watchList [] _ _ (shape_init _) hinv
  refine ⟨k, w1, hk0, hk, ?_⟩
  intro fuel
  have := hrun fuel
  simp only [finish, if_true, List.nil_append] at this
  exact this

theorem solve_spec (s : Solver) (hn : 0 < s.variableNames.length)
    (hr : InRange s.clauses s.variableNames.length)
    (hinv : WatchInv s.clauses s.watchList (List.replicate s.variableNames.length none)) :
    ∃ w1, solve s =
        Outcome.ok
          (decide ((models s.clauses s.variableNames.length s.variableNames.length
              (List.replicate s.variableNames.length none)).length > 0),
            models s.clauses s.variableNames.length s.variableNames.length
              (List.replicate s.variableNames.length none), w1) := by
  obtain ⟨k, w1, _, hk, hrun⟩ := solveLoop_spec s hn hr hinv
  refine ⟨w1, ?_⟩
  have := hrun (solveFuel s.variableNames.length - k)
  rw [Nat.sub_add_cancel (by omega)] at this
  exact this

theorem IsNegated_lt (l : LiteralEncoder) : l.IsNegated < 2 := by
  cases l <;> simp [LiteralEncoder.IsNegated, Variable.IsNegated, NegatedVariable.IsNegated]

theorem TablesOK.lt {s : Solver} (h : TablesOK s) {k : String} {i : Nat}
    (hk : s.variableNameToNumber k = some i) : i < s.variableNames.length := by
  have := (h.toNumber k i).mp hk
  by_contra hge
  rw [List.getElem?_eq_none (by omega)] at this
  exact Option.noConfusion this

theorem TablesOK.register {s : Solver} (h : TablesOK s) (k : String)
    (hk : s.variableNameToNumber k = none) :
    TablesOK
      { s with
        variableNames := s.variableNames ++ [k]
        variableNameToNumber := fun q => if q = k then some ((s.variableNames ++ [k]).length - 1)
                                         else s.variableNameToNumber q
        variableNumberToName := fun q => if q = (s.variableNames ++ [k]).length - 1 then some k
                                         else s.variableNumberToName q } := by
  have hlen : (s.variableNames ++ [k]).length - 1 = s.variableNames.length := by simp
  have hfresh : ∀ i : Nat, s.variableNames[i]? ≠ some k := by
    intro i hi
    have := (h.toNumber k i).mpr hi
    rw [hk] at this
    exact Option.noConfusion this
  have hget : ∀ (i : Nat) (q : String), (s.variableNames ++ [k])[i]? = some q ↔
      (s.variableNames[i]? = some q ∨ (i = s.variableNames.length ∧ q = k)) := by
    intro i q
    rcases Nat.lt_trichotomy i s.variableNames.length with hlt | heq | hgt
    · rw [List.getElem?_append_left hlt]
      constructor
      · intro h1; exact Or.inl h1
      · rintro (h1 | ⟨h1, _⟩)
        · exact h1
        · omega
    · subst heq
      rw [List.getElem?_append_right (Nat.le_refl _)]
      simp
      constructor
      · intro h1; exact h1.symm
      · intro h1; exact h1.symm
    · rw [List.getElem?_append_right (by omega)]
      have h0 : s.variableNames[i]? = none := List.getElem?_eq_none (by omega)
      have h1 : [k][i - s.variableNames.length]? = none :=
        List.getElem?_eq_none (by simp; omega)
      rw [h0, h1]
      simp
      omega
  constructor
  · intro q i
    simp only [hlen]
    rw [hget]
    by_cases hq : q = k
    · subst hq
      simp only [if_true]
      constructor
      · intro h1
        right
        exact ⟨(Option.some.inj h1).symm, trivial⟩
      · rintro (h1 | ⟨h1, _⟩)
        · exact absurd h1 (hfresh i)
        · rw [h1]
    · simp only [hq, if_false]
      rw [h.toNumber]
      constructor
      · intro h1; exact Or.inl h1
      · rintro (h1 | ⟨_, h1⟩)
        · exact h1
        · exact h1.elim
  · intro i q
    simp only [hlen]
    rw [hget]
    by_cases hi : i = s.variableNames.length
    · simp only [hi, if_true]
      have h0 : s.variableNames[s.variableNames.length]? = none :=
        List.getElem?_eq_none (Nat.le_refl _)
      rw [h0]
      constructor
      · intro h1
        right
        exact ⟨trivial, (Option.some.inj h1).symm⟩
      · rintro (h1 | ⟨_, h1⟩)
        · exact Option.noConfusion h1
        · rw [h1]
    · simp only [hi, if_false]
      rw [h.toName]
      constructor
      · intro h1; exact Or.inl h1
      · rintro (h1 | ⟨h1, _⟩)
        · exact h1
        · exact h1.elim

theorem addLiterals_spec : ∀ (ls : List LiteralEncoder) (s : Solver), TablesOK s →
    TablesOK (addLiterals s ls).1 ∧ Extends s (addLiterals s ls).1 ∧
    (addLiterals s ls).1.clauses = s.clauses ∧
    (addLiterals s ls).1.watchList = s.watchList ∧
    (∀ l ∈ ls, ∃ i, (addLiterals s ls).1.variableNameToNumber l.Name = some i) ∧
    (∀ L, L ∈ (addLiterals s ls).2 ↔
      ∃ l ∈ ls, (addLiterals s ls).1.variableNameToNumber l.Name = some (L / 2) ∧
        L % 2 = l.IsNegated) := by
  intro ls
  induction ls with
  | nil =>
    intro s hs
    simp [addLiterals, Extends, hs]
  | cons l ls ih =>
    intro s hs
    have key : ∀ (s1 : Solver) (v : Nat), TablesOK s1 → Extends s s1 →
        s1.clauses = s.clauses → s1.watchList = s.watchList →
        s1.variableNameToNumber l.Name = some v →
        TablesOK (addLiterals s1 ls).1 ∧ Extends s (addLiterals s1 ls).1 ∧
        (addLiterals s1 ls).1.clauses = s.clauses ∧
        (addLiterals s1 ls).1.watchList = s.watchList ∧
        (∀ l1 ∈ l :: ls, ∃ i, (addLiterals s1 ls).1.variableNameToNumber l1.Name = some i) ∧
        (∀ L, L ∈ (v <<< 1 ||| l.IsNegated) :: (addLiterals s1 ls).2 ↔
          ∃ l1 ∈ l :: ls, (addLiterals s1 ls).1.variableNameToNumber l1.Name = some (L / 2) ∧
            L % 2 = l1.IsNegated) := by
      intro s1 v hs1 hext hcl hwl hv
      obtain ⟨h1, h2, h3, h4, h5, h6⟩ := ih s1 hs1
      have hv1 : (addLiterals s1 ls).1.variableNameToNumber l.Name = some v := h2 _ _ hv
      refine ⟨h1, fun k i hk => h2 k i (hext k i hk), h3.trans hcl, h4.trans hwl, ?_, ?_⟩
      · intro l1 hl1
        rcases List.mem_cons.mp hl1 with rfl | hm
        · exact ⟨v, hv1⟩
        · exact h5 l1 hm
      · intro L
        rw [shiftLeft_one_or v _ (IsNegated_lt l), List.mem_cons, h6 L]
        have hlt := IsNegated_lt l
        constructor
        · rintro (rfl | ⟨l1, hl1, hx⟩)
          · refine ⟨l, List.mem_cons_self _ _, ?_, ?_⟩
            · rw [hv1]; congr 1; omega
            · omega
          · exact ⟨l1, List.mem_cons_of_mem _ hl1, hx⟩
        · rintro ⟨l1, hl1, hn, hp⟩
          rcases List.mem_cons.mp hl1 with rfl | hm
          · left
            rw [hv1] at hn
            have := Option.some.inj hn
            omega
          · right
            exact ⟨l1, hm, hn, hp⟩
    cases hk : s.variableNameToNumber l.Name with
    | some v =>
      have := key s v hs (fun _ _ h => h) rfl rfl hk
      simpa only [addLiterals, hk] using this
    | none =>
      have hreg := hs.register l.Name hk
      have := key _ ((s.variableNames ++ [l.Name]).length - 1) hreg
        (by
          intro k i hki
          by_cases hkl : k = l.Name
          · rw [hkl, hk] at hki
            exact Option.noConfusion hki
          · simp only [hkl, if_false]
            exact hki)
        rfl rfl (by simp)
      simpa only [addLiterals, hk] using this

theorem ClauseOf.mono {s t : Solver} (h : Extends s t) {cl : List Nat}
    {c : List LiteralEncoder} (hc : ClauseOf s cl c) : ClauseOf t cl c := by
  refine ⟨fun l hl => ?_, fun L => ?_⟩
  · obtain ⟨i, hi⟩ := hc.1 l hl
    exact ⟨i, h _ _ hi⟩
  · rw [hc.2 L]
    constructor
    · rintro ⟨l, hl, hn, hp⟩
      exact ⟨l, hl, h _ _ hn, hp⟩
    · rintro ⟨l, hl, hn, hp⟩
      obtain ⟨i, hi⟩ := hc.1 l hl
      have := h _ _ hi
      rw [hn] at this
      exact ⟨l, hl, by rw [hi, this], hp⟩

theorem mem_Sort (p : List Nat) (L : Nat) : L ∈ UintSlice.Sort p ↔ L ∈ p :=
  (List.perm_insertionSort _ p).mem_iff

theorem AddClause_spec (s : Solver) (calls : List (List LiteralEncoder))
    (c : List LiteralEncoder) (h : BuildInv s calls) :
    BuildInv (AddClause s c) (calls ++ [c]) ∧ Extends s (AddClause s c) ∧
      (AddClause s c).clauses = s.clauses ++ [UintSlice.Sort (addLiterals s c).2] := by
  obtain ⟨h1, h2, h3, _, h5, h6⟩ := addLiterals_spec c s h.1
  refine ⟨⟨⟨h1.toNumber, h1.toName⟩, ?_⟩, h2, ?_⟩
  · show List.Forall₂ _ ((addLiterals s c).1.clauses ++ [UintSlice.Sort (addLiterals s c).2])
      (calls ++ [c])
    rw [h3]
    apply List.rel_append
    · exact h.2.imp (fun _ _ hc => ClauseOf.mono h2 hc)
    · refine List.Forall₂.cons ⟨h5, fun L => ?_⟩ List.Forall₂.nil
      rw [mem_Sort]
      exact h6 L
  · show (addLiterals s c).1.clauses ++ _ = _
    rw [h3]

theorem foldl_AddClause_spec : ∀ (calls : List (List LiteralEncoder)) (s : Solver)
    (done : List (List LiteralEncoder)), BuildInv s done →
    BuildInv (calls.foldl AddClause s) (done ++ calls) := by
  intro calls
  induction calls with
  | nil => intro s done h; simpa using h
  | cons c calls ih =>
    intro s done h
    have := ih (AddClause s c) (done ++ [c]) (AddClause_spec s done c h).1
    simpa using this

theorem buildSolver_inv (calls : List (List LiteralEncoder)) :
    BuildInv (buildSolver calls) calls := by
  have h0 : BuildInv NewSolver [] := by
    refine ⟨⟨?_, ?_⟩, List.Forall₂.nil⟩
    · intro k i; simp [NewSolver]
    · intro i k; simp [NewSolver]
  simpa using foldl_AddClause_spec calls NewSolver [] h0

theorem forall₂_left {α β : Type} {R : α → β → Prop} {l1 : List α} {l2 : List β}
    (h : List.Forall₂ R l1 l2) : ∀ a ∈ l1, ∃ b ∈ l2, R a b := by
  induction h with
  | nil => intro a ha; simp at ha
  | cons hab _ ih =>
    intro a ha
    rcases List.mem_cons.mp ha with rfl | hm
    · exact ⟨_, List.mem_cons_self _ _, hab⟩
    · obtain ⟨b, hb, hr⟩ := ih a hm
      exact ⟨b, List.mem_cons_of_mem _ hb, hr⟩

theorem BuildInv.inRange {s : Solver} {calls : List (List LiteralEncoder)}
    (h : BuildInv s calls) : InRange s.clauses s.variableNames.length := by
  intro cl hcl L hL
  obtain ⟨c, _, hc⟩ := forall₂_left h.2 cl hcl
  obtain ⟨l, _, hn, _⟩ := (hc.2 L).mp hL
  exact h.1.lt hn

theorem BuildInv.nonempty {s : Solver} {calls : List (List LiteralEncoder)}
    (h : BuildInv s calls) (hne : ∀ c ∈ calls, c ≠ []) : ∀ cl ∈ s.clauses, cl ≠ [] := by
  intro cl hcl
  obtain ⟨c, hcm, hc⟩ := forall₂_left h.2 cl hcl
  obtain ⟨l, hl⟩ := List.exists_mem_of_ne_nil c (hne c hcm)
  obtain ⟨i, hi⟩ := hc.1 l hl
  have hmem : 2 * i + l.IsNegated ∈ cl := by
    rw [hc.2]
    have := IsNegated_lt l
    refine ⟨l, hl, ?_, by omega⟩
    rw [hi]; congr 1; omega
  exact List.ne_nil_of_mem hmem

theorem BuildInv.pos {s : Solver} {calls : List (List LiteralEncoder)}
    (h : BuildInv s calls) (h0 : calls ≠ []) (hne : ∀ c ∈ calls, c ≠ []) :
    0 < s.variableNames.length := by
  obtain ⟨c, hc⟩ := List.exists_mem_of_ne_nil calls h0
  obtain ⟨l, hl⟩ := List.exists_mem_of_ne_nil c (hne c hc)
  have hlen := h.2.length_eq
  obtain ⟨cl, hcl⟩ := List.exists_mem_of_ne_nil s.clauses (by
    intro hnil
    rw [hnil] at hlen
    exact h0 (List.length_eq_zero.mp hlen.symm))
  obtain ⟨c1, _, hc1⟩ := forall₂_left h.2 cl hcl
  have hne1 := h.nonempty hne cl hcl
  obtain ⟨L, hL⟩ := List.exists_mem_of_ne_nil cl hne1
  have := h.inRange cl hcl L hL
  omega

theorem TablesOK.inj {s : Solver} (h : TablesOK s) {i j : Nat} {k : String}
    (hi : s.variableNames[i]? = some k) (hj : s.variableNames[j]? = some k) : i = j := by
  have h1 := (h.toNumber k i).mpr hi
  have h2 := (h.toNumber k j).mpr hj
  rw [h1] at h2
  exact Option.some.inj h2

theorem componentLiteral_spec (s : Solver) (h : TablesOK s) (i x : Nat) (k : String)
    (hk : s.variableNames[i]? = some k) (hx : x < 2) :
    componentLiteral s (x + 2 * i) = Outcome.ok (k, decide (x = 1)) := by
  have hname := (h.toName i k).mpr hk
  unfold componentLiteral
  rw [or_one_shiftRight, shiftRight_one_eq]
  have hdiv : (x + 2 * i) / 2 = i := by omega
  rw [hdiv, hname]
  interval_cases x
  · simp
  · simp

theorem translateFrom_spec (s : Solver) (h : TablesOK s) :
    ∀ (rest : List (Option Nat)) (i : Nat) (so : Solution),
      i + rest.length = s.variableNames.length →
      (∀ y ∈ rest, ∃ x, x < 2 ∧ y = some x) →
      ∃ so1, translateFrom s i rest so = Outcome.ok so1 ∧
        ∀ k, so1 k =
          match s.variableNameToNumber k with
          | some j =>
            if i ≤ j then
              match rest[j - i]? with
              | some (some x) => some (decide (x = 1))
              | _ => none
            else so k
          | none => so k := by
  intro rest
  induction rest with
  | nil =>
    intro i so hlen _
    refine ⟨so, rfl, ?_⟩
    intro k
    cases hk : s.variableNameToNumber k with
    | none => rfl
    | some j =>
      have := h.lt hk
      simp at hlen
      simp only
      rw [if_neg (by omega)]
  | cons y rest ih =>
    intro i so hlen htot
    obtain ⟨x, hx, rfl⟩ := htot y (List.mem_cons_self _ _)
    have hi : i < s.variableNames.length := by simp at hlen; omega
    have hki : s.variableNames[i]? = some s.variableNames[i] := List.getElem?_eq_getElem hi
    have hcomp := componentLiteral_spec s h i x _ hki hx
    obtain ⟨so1, h1, h2⟩ := ih (i + 1) (so.Set s.variableNames[i] (decide (x = 1)))
      (by simp at hlen ⊢; omega) (fun y hy => htot y (List.mem_cons_of_mem _ hy))
    refine ⟨so1, ?_, ?_⟩
    · simp only [translateFrom, hcomp]
      exact h1
    · intro k
      rw [h2 k]
      cases hk : s.variableNameToNumber k with
      | none =>
        simp only [Solution.Set]
        have : k ≠ s.variableNames[i] := by
          intro hkk
          have := (h.toNumber _ i).mpr hki
          rw [← hkk, hk] at this
          exact Option.noConfusion this
        rw [if_neg this]
      | some j =>
        have hkj := (h.toNumber k j).mp hk
        simp only
        by_cases hij : i + 1 ≤ j
        · rw [if_pos hij, if_pos (by omega)]
          have : j - i = (j - (i + 1)) + 1 := by omega
          rw [this, List.getElem?_cons_succ]
        · rw [if_neg hij]
          by_cases hji : j = i
          · subst hji
            rw [if_pos (Nat.le_refl _)]
            have : k = s.variableNames[j] := by
              rw [hki] at hkj
              exact (Option.some.inj hkj).symm
            simp [Solution.Set, this]
          · rw [if_neg (by omega)]
            have : k ≠ s.variableNames[i] := by
              intro hkk
              rw [hkk] at hkj
              exact hji (h.inj hkj hki)
            simp only [Solution.Set]
            rw [if_neg this]

theorem translate_eq_decode (s : Solver) (h : TablesOK s) (B : List (Option Nat))
    (hlen : B.length = s.variableNames.length)
    (htot : ∀ y ∈ B, ∃ x, x < 2 ∧ y = some x) :
    translateFrom s 0 B NewSolution = Outcome.ok (decode s B) := by
  obtain ⟨so1, h1, h2⟩ := translateFrom_spec s h B 0 NewSolution (by omega) htot
  rw [h1]
  congr 1
  funext k
  rw [h2 k]
  unfold decode
  cases hk : s.variableNameToNumber k with
  | none => rfl
  | some j =>
    rcases hB : B[j]? with _ | _ | x <;> simp [hB]

theorem translateAll_spec (s : Solver) (h : TablesOK s) :
    ∀ (ms : List (List (Option Nat))),
      (∀ B ∈ ms, B.length = s.variableNames.length ∧ ∀ y ∈ B, ∃ x, x < 2 ∧ y = some x) →
      translateAll s ms = Outcome.ok (ms.map (decode s)) := by
  intro ms
  induction ms with
  | nil => intro _; rfl
  | cons B ms ih =>
    intro hB
    have h1 := translate_eq_decode s h B (hB B (List.mem_cons_self _ _)).1
      (hB B (List.mem_cons_self _ _)).2
    have h2 := ih (fun B1 hB1 => hB B1 (List.mem_cons_of_mem _ hB1))
    simp only [translateAll, h1, h2, List.map_cons]

theorem mem_allVectors : ∀ (n : Nat) (v : List Bool), v ∈ allVectors n ↔ v.length = n := by
  intro n
  induction n with
  | zero =>
    intro v
    simp [allVectors]
  | succ n ih =>
    intro v
    simp only [allVectors, List.mem_append, List.mem_map]
    constructor
    · rintro (⟨u, hu, rfl⟩ | ⟨u, hu, rfl⟩) <;> simp [(ih u).mp hu]
    · intro hv
      cases v with
      | nil => simp at hv
      | cons b u =>
        have hu : u ∈ allVectors n := (ih u).mpr (by simpa using hv)
        cases b
        · left; exact ⟨u, hu, rfl⟩
        · right; exact ⟨u, hu, rfl⟩

theorem encode_length (v : List Bool) : (encode v).length = v.length := by
  simp [encode]

theorem encode_total (v : List Bool) : ∀ y ∈ encode v, ∃ x, x < 2 ∧ y = some x := by
  intro y hy
  simp only [encode, List.mem_map] at hy
  obtain ⟨b, _, rfl⟩ := hy
  cases b
  · exact ⟨0, by omega, rfl⟩
  · exact ⟨1, by omega, rfl⟩

theorem completions_eq (n : Nat) : ∀ (m : Nat) (A : List (Option Nat)),
    A.length = n → m ≤ n →
    completions n m A = (allVectors m).map (fun v => A.take (n - m) ++ encode v) := by
  intro m
  induction m with
  | zero =>
    intro A hA _
    simp [completions, allVectors, encode, ← hA]
  | succ m ih =>
    intro A hA hm
    have hd : n - (m + 1) < A.length := by omega
    have htake : ∀ x : Option Nat, (A.set (n - (m + 1)) x).take (n - m) =
        A.take (n - (m + 1)) ++ [x] := by
      intro x
      have h1 : n - m = (n - (m + 1)) + 1 := by omega
      rw [h1, List.take_succ, List.set_take,
        List.set_eq_of_length_le (by rw [List.length_take]; omega)]
      simp [hd]
    simp only [completions, allVectors, List.map_append, List.map_map]
    rw [ih _ (by rw [List.length_set]; exact hA) (by omega),
      ih _ (by rw [List.length_set]; exact hA) (by omega)]
    congr 1
    · apply List.map_congr_left
      intro v _
      simp [htake, encode]
    · apply List.map_congr_left
      intro v _
      simp [htake, encode]

theorem completions_top (n : Nat) :
    completions n n (List.replicate n none) = (allVectors n).map encode := by
  rw [completions_eq n n _ (by simp) (Nat.le_refl _)]
  simp

theorem TablesOK.nodup {s : Solver} (h : TablesOK s) : s.variableNames.Nodup := by
  rw [List.nodup_iff_injective_getElem]
  intro i j hij
  apply Fin.ext
  simp only at hij
  exact h.inj (List.getElem?_eq_getElem i.2) (by rw [hij]; exact List.getElem?_eq_getElem j.2)

theorem ofVector_get : ∀ (names : List String), names.Nodup →
    ∀ (v : List Bool) (i : Nat) (k : String) (b : Bool),
      names[i]? = some k → v[i]? = some b → Solution.ofVector names v k = some b := by
  intro names
  induction names with
  | nil => intro _ v i k b hk _; simp at hk
  | cons k0 ks ih =>
    intro hnd v i k b hk hb
    cases v with
    | nil => simp at hb
    | cons b0 bs =>
      cases i with
      | zero =>
        simp at hk hb
        simp [Solution.ofVector, hk, hb]
      | succ j =>
        simp at hk hb
        have hmem : k ∈ ks := List.mem_iff_getElem?.mpr ⟨j, hk⟩
        have hne : k ≠ k0 := by
          intro heq
          rw [heq] at hmem
          exact (List.nodup_cons.mp hnd).1 hmem
        simp only [Solution.ofVector, if_neg hne]
        exact ih (List.nodup_cons.mp hnd).2 bs j k b hk hb

theorem ofVector_none : ∀ (names : List String) (v : List Bool) (k : String),
    k ∉ names → Solution.ofVector names v k = none := by
  intro names
  induction names with
  | nil => intro v k _; cases v <;> rfl
  | cons k0 ks ih =>
    intro v k hk
    cases v with
    | nil => rfl
    | cons b0 bs =>
      have hne : k ≠ k0 := fun h => hk (h ▸ List.mem_cons_self _ _)
      simp only [Solution.ofVector, if_neg hne]
      exact ih bs k (fun h => hk (List.mem_cons_of_mem _ h))

theorem ofVector_total (names : List String) (hnd : names.Nodup) (v : List Bool)
    (hlen : v.length = names.length) : (Solution.ofVector names v).total names := by
  intro k
  constructor
  · intro hk
    by_contra hmem
    exact hk (ofVector_none names v k hmem)
  · intro hmem
    obtain ⟨i, hi⟩ := List.mem_iff_getElem?.mp hmem
    have hlt : i < names.length := by
      by_contra hge
      rw [List.getElem?_eq_none (by omega)] at hi
      exact Option.noConfusion hi
    have hb : v[i]? = some v[i] := List.getElem?_eq_getElem (by omega)
    rw [ofVector_get names hnd v i k _ hi hb]
    exact Option.noConfusion

theorem vector_ofVector (names : List String) (hnd : names.Nodup) (v : List Bool)
    (hlen : v.length = names.length) : (Solution.ofVector names v).vector names = v := by
  apply List.ext_getElem?
  intro i
  unfold Solution.vector
  rw [List.getElem?_map]
  by_cases hlt : i < names.length
  · have hk : names[i]? = some names[i] := List.getElem?_eq_getElem hlt
    have hb : v[i]? = some v[i] := List.getElem?_eq_getElem (by omega)
    rw [hk, hb]
    simp [Solution.Value, ofVector_get names hnd v i _ _ hk hb]
  · rw [List.getElem?_eq_none (by omega), List.getElem?_eq_none (by omega)]
    rfl

theorem encode_getElem? (v : List Bool) (i : Nat) (b : Bool) (h : v[i]? = some b) :
    (encode v)[i]? = some (some (if b then 1 else 0)) := by
  simp [encode, List.getElem?_map, h]

theorem decode_encode (s : Solver) (h : TablesOK s) (v : List Bool)
    (hlen : v.length = s.variableNames.length) :
    decode s (encode v) = Solution.ofVector s.variableNames v := by
  funext k
  unfold decode
  cases hk : s.variableNameToNumber k with
  | none =>
    have hmem : k ∉ s.variableNames := by
      intro hm
      obtain ⟨i, hi⟩ := List.mem_iff_getElem?.mp hm
      have := (h.toNumber k i).mpr hi
      rw [hk] at this
      exact Option.noConfusion this
    rw [ofVector_none _ v k hmem]
  | some i =>
    have hki := (h.toNumber k i).mp hk
    have hlt := h.lt hk
    have hb : v[i]? = some v[i] := List.getElem?_eq_getElem (by omega)
    rw [ofVector_get _ h.nodup v i k _ hki hb]
    simp only [encode_getElem? v i _ hb]
    cases v[i] <;> simp

theorem clauseTrue_eq (s : Solver) (h : TablesOK s) (cl : List Nat)
    (c : List LiteralEncoder) (hc : ClauseOf s cl c) (v : List Bool)
    (hlen : v.length = s.variableNames.length) :
    clauseTrue (encode v) cl = c.any (Solution.ofVector s.variableNames v).holds := by
  rw [← decode_encode s h v hlen, Bool.eq_iff_iff]
  simp only [clauseTrue, List.any_eq_true]
  constructor
  · rintro ⟨L, hL, ht⟩
    obtain ⟨l, hl, hn, hp⟩ := (hc.2 L).mp hL
    refine ⟨l, hl, ?_⟩
    simp only [litTrue, decide_eq_true_eq] at ht
    cases l with
    | ofVariable x =>
      simp only [LiteralEncoder.Name, Variable.Name, LiteralEncoder.IsNegated,
        Variable.IsNegated] at hn hp
      simp [Solution.holds, decode, hn, ht, hp]
    | ofNegatedVariable x =>
      simp only [LiteralEncoder.Name, NegatedVariable.Name, LiteralEncoder.IsNegated,
        NegatedVariable.IsNegated] at hn hp
      simp [Solution.holds, decode, hn, ht, hp]
  · rintro ⟨l, hl, ht⟩
    obtain ⟨i, hi⟩ := hc.1 l hl
    have hlt := h.lt hi
    have hneg := IsNegated_lt l
    have hb : v[i]? = some v[i] := List.getElem?_eq_getElem (by omega)
    have henc := encode_getElem? v i _ hb
    refine ⟨2 * i + l.IsNegated, ?_, ?_⟩
    · rw [hc.2]
      refine ⟨l, hl, ?_, by omega⟩
      rw [hi]; congr 1; omega
    · have hdiv : (2 * i + l.IsNegated) / 2 = i := by omega
      have hmod : (2 * i + l.IsNegated) % 2 = l.IsNegated := by omega
      simp only [litTrue, decide_eq_true_eq, hdiv, hmod, henc]
      cases l with
      | ofVariable x =>
        simp only [LiteralEncoder.Name, Variable.Name] at hi
        simp only [Solution.holds, decode, hi, henc, decide_eq_true_eq] at ht
        cases hv : v[i] <;> simp [hv, LiteralEncoder.IsNegated, Variable.IsNegated] at ht ⊢
      | ofNegatedVariable x =>
        simp only [LiteralEncoder.Name, NegatedVariable.Name] at hi
        simp only [Solution.holds, decode, hi, henc, decide_eq_true_eq] at ht
        cases hv : v[i] <;>
          simp [hv, LiteralEncoder.IsNegated, NegatedVariable.IsNegated] at ht ⊢

theorem allTrue_eq (s : Solver) (h : TablesOK s) (v : List Bool)
    (hlen : v.length = s.variableNames.length) :
    ∀ (cls : List (List Nat)) (calls : List (List LiteralEncoder)),
      List.Forall₂ (ClauseOf s) cls calls →
      allTrue cls (encode v) = (Solution.ofVector s.variableNames v).satisfies calls := by
  intro cls calls hf
  induction hf with
  | nil => rfl
  | cons hc _ ih =>
    simp only [allTrue, Solution.satisfies, List.all_cons] at ih ⊢
    rw [clauseTrue_eq s h _ _ hc v hlen, ih]

theorem models_top (s : Solver) (calls : List (List LiteralEncoder)) (h : BuildInv s calls) :
    models s.clauses s.variableNames.length s.variableNames.length
        (List.replicate s.variableNames.length none) =
      (satisfyingVectors s.variableNames calls).map encode := by
  unfold models satisfyingVectors
  rw [completions_top, List.filter_map]
  congr 1
  apply List.filter_congr
  intro v hv
  exact allTrue_eq s h.1 v ((mem_allVectors _ v).mp hv) _ _ h.2

theorem mem_satisfyingVectors (names : List String) (calls : List (List LiteralEncoder))
    (v : List Bool) : v ∈ satisfyingVectors names calls ↔
      v.length = names.length ∧ (Solution.ofVector names v).satisfies calls = true := by
  unfold satisfyingVectors
  rw [List.mem_filter, mem_allVectors]

/-- The closed form of `Satisfiable` on a solver built by `AddClause`. -/
theorem Satisfiable_closed (calls : List (List LiteralEncoder)) (h0 : calls ≠ [])
    (hne : ∀ c ∈ calls, c ≠ []) :
    ∃ w, Satisfiable (buildSolver calls) =
      Outcome.ok ({ buildSolver calls with watchList := w },
        decide ((expectedSolutions (buildSolver calls).variableNames calls).length > 0),
        expectedSolutions (buildSolver calls).variableNames calls) := by
  have hinv := buildSolver_inv calls
  obtain ⟨w1, hset, hw1⟩ := setUpWatchList_spec (buildSolver calls) (hinv.nonempty hne)
  have hwi := watchInv_init (buildSolver calls).clauses (buildSolver calls).variableNames.length
    w1 (hinv.nonempty hne) hinv.inRange hw1
  obtain ⟨w2, hsolve⟩ := solve_spec { buildSolver calls with watchList := w1 }
    (hinv.pos h0 hne) hinv.inRange hwi
  simp only at hsolve
  rw [models_top _ calls hinv] at hsolve
  have htr := translateAll_spec { buildSolver calls with watchList := w1 }
    ⟨hinv.1.toNumber, hinv.1.toName⟩
    ((satisfyingVectors (buildSolver calls).variableNames calls).map encode) (by
      intro B hB
      obtain ⟨v, hv, rfl⟩ := List.mem_map.mp hB
      have hlen := ((mem_satisfyingVectors _ _ v).mp hv).1
      exact ⟨by rw [encode_length]; exact hlen, encode_total v⟩)
  have hmap : ((satisfyingVectors (buildSolver calls).variableNames calls).map encode).map
      (decode { buildSolver calls with watchList := w1 }) =
      expectedSolutions (buildSolver calls).variableNames calls := by
    unfold expectedSolutions
    rw [List.map_map]
    apply List.map_congr_left
    intro v hv
    have hlen := ((mem_satisfyingVectors _ _ v).mp hv).1
    exact decode_encode { buildSolver calls with watchList := w1 }
      ⟨hinv.1.toNumber, hinv.1.toName⟩ v hlen
  rw [hmap] at htr
  refine ⟨w2, ?_⟩
  simp only [Satisfiable, hset, hsolve, htr, List.length_map, expectedSolutions]

theorem lex_irrefl : ∀ v : List Bool, ¬ List.Lex (fun x y : Bool => x < y) v v := by
  intro v
  induction v with
  | nil => intro h; cases h
  | cons b v ih =>
    intro h
    cases h with
    | cons h1 => exact ih h1
    | rel h1 => exact lt_irrefl _ h1

theorem allVectors_pairwise : ∀ n : Nat,
    (allVectors n).Pairwise (List.Lex (fun x y : Bool => x < y)) := by
  intro n
  induction n with
  | zero => simp [allVectors]
  | succ n ih =>
    simp only [allVectors]
    rw [List.pairwise_append]
    refine ⟨?_, ?_, ?_⟩
    · rw [List.pairwise_map]
      exact ih.imp (fun h => List.Lex.cons h)
    · rw [List.pairwise_map]
      exact ih.imp (fun h => List.Lex.cons h)
    · intro a ha b hb
      obtain ⟨u, _, rfl⟩ := List.mem_map.mp ha
      obtain ⟨v, _, rfl⟩ := List.mem_map.mp hb
      exact List.Lex.rel (by decide)

theorem satisfyingVectors_pairwise (names : List String) (calls : List (List LiteralEncoder)) :
    (satisfyingVectors names calls).Pairwise (List.Lex (fun x y : Bool => x < y)) :=
  (allVectors_pairwise names.length).sublist (List.filter_sublist _)

theorem expectedSolutions_vectors (names : List String) (hnd : names.Nodup)
    (calls : List (List LiteralEncoder)) :
    (expectedSolutions names calls).map (fun so => so.vector names) =
      satisfyingVectors names calls := by
  unfold expectedSolutions
  rw [List.map_map]
  conv_rhs => rw [← List.map_id (satisfyingVectors names calls)]
  apply List.map_congr_left
  intro v hv
  exact vector_ofVector names hnd v ((mem_satisfyingVectors _ _ v).mp hv).1

theorem expectedSolutions_nodup (names : List String) (hnd : names.Nodup)
    (calls : List (List LiteralEncoder)) : (expectedSolutions names calls).Nodup := by
  apply List.Nodup.of_map (fun so : Solution => so.vector names)
  rw [expectedSolutions_vectors names hnd calls]
  refine (satisfyingVectors_pairwise names calls).imp ?_
  intro a b h heq
  rw [heq] at h
  exact lex_irrefl b h

theorem ofVector_vector (names : List String) (hnd : names.Nodup) (so : Solution)
    (htot : so.total names) : Solution.ofVector names (so.vector names) = so := by
  funext k
  by_cases hk : k ∈ names
  · obtain ⟨i, hi⟩ := List.mem_iff_getElem?.mp hk
    have hv : (so.vector names)[i]? = some (so.Value k) := by
      simp [Solution.vector, List.getElem?_map, hi]
    rw [ofVector_get names hnd _ i k _ hi hv]
    have hne := (htot k).mpr hk
    cases hso : so k with
    | none => exact absurd hso hne
    | some b => simp [Solution.Value, hso]
  · rw [ofVector_none names _ k hk]
    by_contra hne
    exact hk ((htot k).mp (fun h => hne h.symm))

theorem mem_expectedSolutions (names : List String) (hnd : names.Nodup)
    (calls : List (List LiteralEncoder)) (so : Solution) :
    so ∈ expectedSolutions names calls ↔ so.total names ∧ so.satisfies calls = true := by
  unfold expectedSolutions
  rw [List.mem_map]
  constructor
  · rintro ⟨v, hv, rfl⟩
    obtain ⟨hlen, hsat⟩ := (mem_satisfyingVectors _ _ v).mp hv
    exact ⟨ofVector_total names hnd v hlen, hsat⟩
  · rintro ⟨htot, hsat⟩
    refine ⟨so.vector names, ?_, ofVector_vector names hnd so htot⟩
    rw [mem_satisfyingVectors]
    refine ⟨by simp [Solution.vector], ?_⟩
    rw [ofVector_vector names hnd so htot]
    exact hsat

theorem satisfies_iff (so : Solution) (calls : List (List LiteralEncoder)) :
    so.satisfies calls = true ↔
      ∀ c ∈ calls, ∃ l ∈ c,
        (∃ v : Variable, l = LiteralEncoder.ofVariable v ∧ so v.name = some true) ∨
        (∃ v : NegatedVariable, l = LiteralEncoder.ofNegatedVariable v ∧
          so v.name = some false) := by
  simp only [Solution.satisfies, List.all_eq_true, List.any_eq_true]
  constructor
  · intro h c hc
    obtain ⟨l, hl, hh⟩ := h c hc
    refine ⟨l, hl, ?_⟩
    cases l with
    | ofVariable v => left; exact ⟨v, rfl, by simpa [Solution.holds] using hh⟩
    | ofNegatedVariable v => right; exact ⟨v, rfl, by simpa [Solution.holds] using hh⟩
  · intro h c hc
    obtain ⟨l, hl, hh⟩ := h c hc
    refine ⟨l, hl, ?_⟩
    rcases hh with ⟨v, rfl, hv⟩ | ⟨v, rfl, hv⟩
    · simp [Solution.holds, hv]
    · simp [Solution.holds, hv]

theorem allVectors_length : ∀ n : Nat, (allVectors n).length = 2 ^ n := by
  intro n
  induction n with
  | zero => rfl
  | succ n ih => simp [allVectors, ih, Nat.pow_succ]; omega

/-- C1 (soundness).  On a solver built from `NewSolver` by one or more `AddClause`
calls, each with at least one literal, `Satisfiable` returns, and every returned
Solution satisfies every added clause: each clause contains a literal built by
`NewVariable(name)` whose name maps to true in the Solution, or a literal built by
`Not()` whose name maps to false. -/
theorem soundness (calls : List (List LiteralEncoder)) (h0 : calls ≠ [])
    (hne : ∀ c ∈ calls, c ≠ []) :
    ∃ s1 b sols, Satisfiable (buildSolver calls) = Outcome.ok (s1, b, sols) ∧
      ∀ so ∈ sols, ∀ c ∈ calls, ∃ l ∈ c,
        (∃ v : Variable, l = LiteralEncoder.ofVariable v ∧ so v.name = some true) ∨
        (∃ v : NegatedVariable, l = LiteralEncoder.ofNegatedVariable v ∧
          so v.name = some false) := by
  obtain ⟨w, hw⟩ := Satisfiable_closed calls h0 hne
  refine ⟨_, _, _, hw, ?_⟩
  intro so hso
  have hnd := (buildSolver_inv calls).1.nodup
  exact (satisfies_iff so calls).mp ((mem_expectedSolutions _ hnd calls so).mp hso).2

/-- Instance of `soundness` on the formula of `ExampleSimpleSatisfiableDependency`. -/
theorem soundness_witness :
    callsDependency ≠ [] ∧ (∀ c ∈ callsDependency, c ≠ []) ∧
    ∃ s1 b sols, Satisfiable (buildSolver callsDependency) = Outcome.ok (s1, b, sols) ∧
      ∀ so ∈ sols, ∀ c ∈ callsDependency, ∃ l ∈ c,
        (∃ v : Variable, l = LiteralEncoder.ofVariable v ∧ so v.name = some true) ∨
        (∃ v : NegatedVariable, l = LiteralEncoder.ofNegatedVariable v ∧
          so v.name = some false) :=
  ⟨by decide, by decide, soundness callsDependency (by decide) (by decide)⟩

/-- C2 (completeness).  On a solver built by one or more `AddClause` calls, each
with at least one literal, over `n` registered variables, the list returned by
`Satisfiable` has no duplicates, a Solution is in it exactly when it is a total
assignment of the registered names that satisfies every clause, and its length is
the number of the `2 ^ n` vectors of truth values whose assignment satisfies every
clause.  For the clauses `{A}`, `{¬A, B1, B2, B3}`, `{¬B1, ¬B2}`, `{¬B1, ¬B3}`,
`{¬B2, ¬B3}` the list has exactly three Solutions. -/
theorem completeness (calls : List (List LiteralEncoder)) (h0 : calls ≠ [])
    (hne : ∀ c ∈ calls, c ≠ []) :
    (∃ s1 b sols, Satisfiable (buildSolver calls) = Outcome.ok (s1, b, sols) ∧
      sols.Nodup ∧
      (∀ so : Solution, so ∈ sols ↔
        so.total (buildSolver calls).variableNames ∧ so.satisfies calls = true) ∧
      sols.length =
        (allVectors (buildSolver calls).variableNames.length).countP
          (fun v => (Solution.ofVector (buildSolver calls).variableNames v).satisfies calls) ∧
      (allVectors (buildSolver calls).variableNames.length).length =
        2 ^ (buildSolver calls).variableNames.length) ∧
    (∃ s1 b sols, Satisfiable (buildSolver callsDependency) = Outcome.ok (s1, b, sols) ∧
      sols.length = 3) := by
  obtain ⟨w, hw⟩ := Satisfiable_closed calls h0 hne
  have hnd := (buildSolver_inv calls).1.nodup
  refine ⟨⟨_, _, _, hw, expectedSolutions_nodup _ hnd calls,
    mem_expectedSolutions _ hnd calls, ?_, allVectors_length _⟩, ?_⟩
  · rw [List.countP_eq_length_filter]
    simp [expectedSolutions, satisfyingVectors]
  · obtain ⟨w1, hw1⟩ := Satisfiable_closed callsDependency (by decide) (by decide)
    refine ⟨_, _, _, hw1, ?_⟩
    have hnames : (buildSolver callsDependency).variableNames = ["A", "B1", "B2", "B3"] := by
      decide
    rw [hnames]
    simp only [expectedSolutions, List.length_map]
    decide

/-- Instance of `completeness` on the formula `{A, B}`. -/
theorem completeness_witness :
    callsOr ≠ [] ∧ (∀ c ∈ callsOr, c ≠ []) ∧
    ∃ s1 b sols, Satisfiable (buildSolver callsOr) = Outcome.ok (s1, b, sols) ∧
      sols.Nodup ∧
      (∀ so : Solution, so ∈ sols ↔
        so.total (buildSolver callsOr).variableNames ∧ so.satisfies callsOr = true) ∧
      sols.length =
        (allVectors (buildSolver callsOr).variableNames.length).countP
          (fun v => (Solution.ofVector (buildSolver callsOr).variableNames v).satisfies
            callsOr) ∧
      (allVectors (buildSolver callsOr).variableNames.length).length =
        2 ^ (buildSolver callsOr).variableNames.length :=
  ⟨by decide, by decide, (completeness callsOr (by decide) (by decide)).1⟩

/-- C3 (verdict).  On a solver built by one or more `AddClause` calls, each with at
least one literal, the boolean returned by `Satisfiable` is true exactly when the
returned list is not empty, and exactly when some total assignment of the
registered names satisfies every clause; when no such assignment exists the result
is `(false, [])`. -/
theorem verdict (calls : List (List LiteralEncoder)) (h0 : calls ≠ [])
    (hne : ∀ c ∈ calls, c ≠ []) :
    ∃ s1 b sols, Satisfiable (buildSolver calls) = Outcome.ok (s1, b, sols) ∧
      (b = true ↔ sols ≠ []) ∧
      (b = true ↔ ∃ so : Solution,
        so.total (buildSolver calls).variableNames ∧ so.satisfies calls = true) ∧
      ((¬ ∃ so : Solution,
          so.total (buildSolver calls).variableNames ∧ so.satisfies calls = true) →
        b = false ∧ sols = []) := by
  obtain ⟨w, hw⟩ := Satisfiable_closed calls h0 hne
  have hnd := (buildSolver_inv calls).1.nodup
  have hmem := mem_expectedSolutions _ hnd calls
  have h1 : decide ((expectedSolutions (buildSolver calls).variableNames calls).length > 0)
      = true ↔ expectedSolutions (buildSolver calls).variableNames calls ≠ [] := by
    rw [decide_eq_true_eq]
    exact List.length_pos
  have h2 : expectedSolutions (buildSolver calls).variableNames calls ≠ [] ↔
      ∃ so : Solution,
        so.total (buildSolver calls).variableNames ∧ so.satisfies calls = true := by
    constructor
    · intro hne1
      obtain ⟨so, hso⟩ := List.exists_mem_of_ne_nil _ hne1
      exact ⟨so, (hmem so).mp hso⟩
    · rintro ⟨so, hso⟩
      exact List.ne_nil_of_mem ((hmem so).mpr hso)
  refine ⟨_, _, _, hw, h1, h1.trans h2, ?_⟩
  intro hno
  have hnil : expectedSolutions (buildSolver calls).variableNames calls = [] := by
    by_contra hne1
    exact hno (h2.mp hne1)
  refine ⟨?_, hnil⟩
  rw [hnil]
  rfl

/-- Instance of `verdict` on the formula `{A}`, `{¬A}`. -/
theorem verdict_witness :
    callsContradiction ≠ [] ∧ (∀ c ∈ callsContradiction, c ≠ []) ∧
    ∃ s1 b sols, Satisfiable (buildSolver callsContradiction) = Outcome.ok (s1, b, sols) ∧
      (b = true ↔ sols ≠ []) ∧
      (b = true ↔ ∃ so : Solution,
        so.total (buildSolver callsContradiction).variableNames ∧
          so.satisfies callsContradiction = true) ∧
      ((¬ ∃ so : Solution,
          so.total (buildSolver callsContradiction).variableNames ∧
            so.satisfies callsContradiction = true) →
        b = false ∧ sols = []) :=
  ⟨by decide, by decide, verdict callsContradiction (by decide) (by decide)⟩

/-- C4 (solution order).  On a solver built by one or more `AddClause` calls, each
with at least one literal, the vectors of values of the returned Solutions, read
in the order of the variable indices, are in strictly increasing lexicographic
order with false before true; for the single clause `{A, B}` the list is exactly
`[A=false,B=true]`, `[A=true,B=false]`, `[A=true,B=true]`. -/
theorem solution_order (calls : List (List LiteralEncoder)) (h0 : calls ≠ [])
    (hne : ∀ c ∈ calls, c ≠ []) :
    (∃ s1 b sols, Satisfiable (buildSolver calls) = Outcome.ok (s1, b, sols) ∧
      (sols.map (fun so => so.vector (buildSolver calls).variableNames)).Pairwise
        (List.Lex (fun x y : Bool => x < y))) ∧
    (∃ s1, Satisfiable (buildSolver callsOr) = Outcome.ok (s1, true,
      [Solution.ofVector ["A", "B"] [false, true],
       Solution.ofVector ["A", "B"] [true, false],
       Solution.ofVector ["A", "B"] [true, true]])) := by
  obtain ⟨w, hw⟩ := Satisfiable_closed calls h0 hne
  have hnd := (buildSolver_inv calls).1.nodup
  refine ⟨⟨_, _, _, hw, ?_⟩, ?_⟩
  · rw [expectedSolutions_vectors _ hnd calls]
    exact satisfyingVectors_pairwise _ calls
  · obtain ⟨w1, hw1⟩ := Satisfiable_closed callsOr (by decide) (by decide)
    have hnames : (buildSolver callsOr).variableNames = ["A", "B"] := by decide
    have hvec : satisfyingVectors ["A", "B"] callsOr =
        [[false, true], [true, false], [true, true]] := by decide
    have hsol : expectedSolutions (buildSolver callsOr).variableNames callsOr =
        [Solution.ofVector ["A", "B"] [false, true],
         Solution.ofVector ["A", "B"] [true, false],
         Solution.ofVector ["A", "B"] [true, true]] := by
      rw [hnames]
      unfold expectedSolutions
      rw [hvec]
      rfl
    rw [hsol] at hw1
    exact ⟨_, hw1⟩

/-- Instance of `solution_order` on the formula of
`ExampleSimpleSatisfiableDependency`. -/
theorem solution_order_witness :
    callsDependency ≠ [] ∧ (∀ c ∈ callsDependency, c ≠ []) ∧
    ∃ s1 b sols, Satisfiable (buildSolver callsDependency) = Outcome.ok (s1, b, sols) ∧
      (sols.map (fun so => so.vector (buildSolver callsDependency).variableNames)).Pairwise
        (List.Lex (fun x y : Bool => x < y)) :=
  ⟨by decide, by decide, (solution_order callsDependency (by decide) (by decide)).1⟩

theorem tryPolarities_untried : ∀ (l : List Nat) (t : Bool) (st st1 : SolveState),
    tryPolarities l t st = Outcome.ok (false, st1) →
    t = false ∧ st1 = st ∧
      ∀ a ∈ l, ∃ sd, st.state[st.d]? = some sd ∧ (sd >>> a) &&& 1 ≠ 0 := by
  intro l
  induction l with
  | nil =>
    intro t st st1 h
    simp only [tryPolarities, Outcome.ok.injEq, Prod.mk.injEq] at h
    exact ⟨h.1, h.2.symm, fun a ha => by simp at ha⟩
  | cons a rest ih =>
    intro t st st1 h
    rw [tryPolarities] at h
    cases hs : st.state[st.d]? with
    | none => simp [hs] at h
    | some sd =>
      simp only [hs] at h
      by_cases hb : (sd >>> a) &&& 1 = 0
      · simp only [hb, if_true] at h
        by_cases hd : st.d < st.assignment.length
        · simp only [hd, if_true] at h
          cases hu : updateWatchList st.watchList (st.d <<< 1 ||| a)
              (st.assignment.set st.d (some a)) with
          | panic => simp [hu] at h
          | outOfFuel => simp [hu] at h
          | ok r =>
            obtain ⟨b, w⟩ := r
            cases b with
            | true => simp [hu] at h
            | false =>
              simp only [hu] at h
              have := (ih true _ st1 h).1
              exact absurd this (by decide)
        · simp [hd] at h
      · simp only [hb, if_false] at h
        obtain ⟨h1, h2, h3⟩ := ih t st st1 h
        refine ⟨h1, h2, ?_⟩
        intro a1 ha1
        rcases List.mem_cons.mp ha1 with rfl | hm
        · exact ⟨sd, rfl, hb⟩
        · obtain ⟨sd1, h4, h5⟩ := h3 a1 hm
          rw [hs] at h4
          exact ⟨sd1, h4, h5⟩

theorem solveStep_done (n : Nat) (st : SolveState) (b : Bool)
    (rs : List (List (Option Nat))) (w : WatchList)
    (h : solveStep n st = StepResult.done b rs w) :
    st.d = 0 ∧ ∃ sd, st.state[0]? = some sd ∧ (sd >>> 0) &&& 1 ≠ 0 ∧ (sd >>> 1) &&& 1 ≠ 0 := by
  unfold solveStep at h
  by_cases hd : st.d = n
  · simp [hd] at h
  · simp only [hd, if_false] at h
    cases ht : tryPolarities [0, 1] false st with
    | panic => simp [ht, afterPolarities] at h
    | outOfFuel => simp [ht, afterPolarities] at h
    | ok r =>
      obtain ⟨tried, st1⟩ := r
      cases tried with
      | true => simp [ht, afterPolarities] at h
      | false =>
        obtain ⟨_, h2, h3⟩ := tryPolarities_untried [0, 1] false st st1 ht
        subst h2
        by_cases h0 : st1.d = 0
        · refine ⟨h0, ?_⟩
          obtain ⟨sd, hsd, hb0⟩ := h3 0 (by simp)
          obtain ⟨sd1, hsd1, hb1⟩ := h3 1 (by simp)
          rw [hsd] at hsd1
          have := Option.some.inj hsd1
          subst this
          rw [h0] at hsd
          exact ⟨sd, hsd, hb0, hb1⟩
        · simp only [ht, afterPolarities, h0, if_false, Bool.false_eq_true] at h
          split at h <;> exact StepResult.noConfusion h

/-- C6 (zero variables), evaluated on the code.  On a solver fresh from `NewSolver`
the first iteration of `solve` records the empty assignment and wraps `d` to
`2 ^ 64 - 1`; the second iteration reads `state[d]` out of range, so `Satisfiable`
panics instead of returning `(true, [empty Solution])`. -/
theorem zero_variables_panic :
    Satisfiable NewSolver = Outcome.panic ∧
    solveStep 0 (solveInit NewSolver) =
      StepResult.next (SolveState.mk NewSolver.watchList [[]] [] [] (2 ^ 64 - 1)) ∧
    solveStep 0 (SolveState.mk NewSolver.watchList [[]] [] [] (2 ^ 64 - 1)) =
      StepResult.panic :=
  ⟨rfl, rfl, rfl⟩

theorem addLiterals_clauses : ∀ (ls : List LiteralEncoder) (s : Solver),
    (addLiterals s ls).1.clauses = s.clauses := by
  intro ls
  induction ls with
  | nil => intro s; rfl
  | cons l ls ih =>
    intro s
    cases hk : s.variableNameToNumber l.Name with
    | some v => simp only [addLiterals, hk]; exact ih s
    | none => simp only [addLiterals, hk]; exact ih _

theorem AddClause_keeps (s : Solver) (ls : List LiteralEncoder) (c : List Nat)
    (hc : c ∈ s.clauses) : c ∈ (AddClause s ls).clauses := by
  show c ∈ (addLiterals s ls).1.clauses ++ _
  rw [addLiterals_clauses]
  exact List.mem_append_left _ hc

theorem foldl_AddClause_keeps : ∀ (later : List (List LiteralEncoder)) (s : Solver)
    (c : List Nat), c ∈ s.clauses → c ∈ (later.foldl AddClause s).clauses := by
  intro later
  induction later with
  | nil => intro s c hc; exact hc
  | cons ls later ih =>
    intro s c hc
    exact ih (AddClause s ls) c (AddClause_keeps s ls c hc)

theorem setUpWatchListLoop_panic : ∀ (cls : List (List Nat)) (w : WatchList),
    [] ∈ cls → setUpWatchListLoop cls w = Outcome.panic := by
  intro cls
  induction cls with
  | nil => intro w h; simp at h
  | cons c cls ih =>
    intro w h
    cases c with
    | nil => rfl
    | cons c0 tl =>
      simp only [setUpWatchListLoop]
      apply ih
      rcases List.mem_cons.mp h with h1 | h1
      · exact List.noConfusion h1
      · exact h1

/-- C7 (empty clause), evaluated on the code.  `AddClause` with no literal is not
rejected: it appends the empty clause to the clause list; from then on, whatever
clauses are added later, `Satisfiable` panics in `setUpWatchList` (`clause[0]` out
of range) instead of returning `(false, [])`. -/
theorem empty_clause_panic (s : Solver) (later : List (List LiteralEncoder)) :
    (AddClause s []).clauses = s.clauses ++ [[]] ∧
    Satisfiable (later.foldl AddClause (AddClause s [])) = Outcome.panic := by
  have h1 : (AddClause s []).clauses = s.clauses ++ [[]] := rfl
  refine ⟨h1, ?_⟩
  have hmem : [] ∈ (later.foldl AddClause (AddClause s [])).clauses :=
    foldl_AddClause_keeps later _ [] (by rw [h1]; simp)
  simp only [Satisfiable, setUpWatchList, setUpWatchListLoop_panic _ _ hmem]

theorem Satisfiable_watchList (s : Solver) (w : WatchList) :
    Satisfiable { s with watchList := w } = Satisfiable s := rfl

/-- C9 (unsatisfiable by contradiction).  For every variable `x` and every formula
with non-empty clauses that contains both the singleton clause `{x}` and the
singleton clause `{¬x}`, `Satisfiable` returns `(false, [])`. -/
theorem unsat_by_contradiction (x : Variable) (calls : List (List LiteralEncoder))
    (hne : ∀ c ∈ calls, c ≠ []) (hx : [LiteralEncoder.ofVariable x] ∈ calls)
    (hnx : [x.Not] ∈ calls) :
    ∃ s1, Satisfiable (buildSolver calls) = Outcome.ok (s1, false, []) := by
  obtain ⟨w, hw⟩ := Satisfiable_closed calls (List.ne_nil_of_mem hx) hne
  have hnd := (buildSolver_inv calls).1.nodup
  have hnil : expectedSolutions (buildSolver calls).variableNames calls = [] := by
    rw [List.eq_nil_iff_forall_not_mem]
    intro so hso
    have hsat := (satisfies_iff so calls).mp ((mem_expectedSolutions _ hnd calls so).mp hso).2
    obtain ⟨l1, hl1, h1⟩ := hsat _ hx
    obtain ⟨l2, hl2, h2⟩ := hsat _ hnx
    rw [List.mem_singleton] at hl1 hl2
    subst hl1
    subst hl2
    have ht : so x.name = some true := by
      rcases h1 with ⟨v, hv, hs⟩ | ⟨v, hv, _⟩
      · cases hv; exact hs
      · cases hv
    have hf : so x.name = some false := by
      rcases h2 with ⟨v, hv, _⟩ | ⟨v, hv, hs⟩
      · cases hv
      · cases hv; exact hs
    rw [ht] at hf
    cases hf
  rw [hnil] at hw
  exact ⟨_, hw⟩

/-- Instance of `unsat_by_contradiction`: the two clauses `{A}`, `{¬A}`. -/
theorem unsat_by_contradiction_witness :
    (∀ c ∈ callsContradiction, c ≠ []) ∧
    [LiteralEncoder.ofVariable (NewVariable "A")] ∈ callsContradiction ∧
    [(NewVariable "A").Not] ∈ callsContradiction ∧
    ∃ s1, Satisfiable (buildSolver callsContradiction) = Outcome.ok (s1, false, []) :=
  ⟨by decide, by decide, by decide,
    unsat_by_contradiction (NewVariable "A") callsContradiction (by decide) (by decide)
      (by decide)⟩

theorem addLiterals_registered : ∀ (ls : List LiteralEncoder) (s : Solver),
    (∀ l ∈ ls, ∃ i, s.variableNameToNumber l.Name = some i) → (addLiterals s ls).1 = s := by
  intro ls
  induction ls with
  | nil => intro s _; rfl
  | cons l ls ih =>
    intro s h
    obtain ⟨i, hi⟩ := h l (List.mem_cons_self _ _)
    simp only [addLiterals, hi]
    exact ih s (fun l1 hl1 => h l1 (List.mem_cons_of_mem _ hl1))

theorem forall₂_right {α β : Type} {R : α → β → Prop} {l1 : List α} {l2 : List β}
    (h : List.Forall₂ R l1 l2) : ∀ b ∈ l2, ∃ a ∈ l1, R a b := by
  induction h with
  | nil => intro b hb; simp at hb
  | cons hab _ ih =>
    intro b hb
    rcases List.mem_cons.mp hb with rfl | hm
    · exact ⟨_, List.mem_cons_self _ _, hab⟩
    · obtain ⟨a, ha, hr⟩ := ih b hm
      exact ⟨a, List.mem_cons_of_mem _ ha, hr⟩

theorem BuildInv.registered {s : Solver} {calls : List (List LiteralEncoder)}
    (h : BuildInv s calls) (c : List LiteralEncoder) (hc : c ∈ calls) (l : LiteralEncoder)
    (hl : l ∈ c) : ∃ i, s.variableNameToNumber l.Name = some i := by
  obtain ⟨cl, _, hcl⟩ := forall₂_right h.2 c hc
  exact hcl.1 l hl

/-- C10 (a tautological clause is neutral).  For every formula `F` with at least
one clause, all clauses non-empty, and every clause `C` that contains both a
variable and its negation and mentions only variables occurring in `F`,
`Satisfiable` on `F` followed by `C` returns the same verdict and the same list of
Solutions as on `F` alone; and the single clause `{A, ¬A}` yields
`(true, [A=false, A=true])`. -/
theorem tautology_neutral (F : List (List LiteralEncoder)) (C : List LiteralEncoder)
    (x : Variable) (hF0 : F ≠ []) (hFne : ∀ c ∈ F, c ≠ [])
    (hx : LiteralEncoder.ofVariable x ∈ C) (hnx : x.Not ∈ C)
    (hC : ∀ l ∈ C, ∃ c ∈ F, ∃ l1 ∈ c, l1.Name = l.Name) :
    (∃ s1 s2 b sols, Satisfiable (buildSolver F) = Outcome.ok (s1, b, sols) ∧
      Satisfiable (buildSolver (F ++ [C])) = Outcome.ok (s2, b, sols)) ∧
    (∃ s1, Satisfiable (buildSolver callsTautology) = Outcome.ok (s1, true,
      [Solution.ofVector ["A"] [false], Solution.ofVector ["A"] [true]])) := by
  constructor
  · have hinv := buildSolver_inv F
    have hreg : ∀ l ∈ C, ∃ i, (buildSolver F).variableNameToNumber l.Name = some i := by
      intro l hl
      obtain ⟨c, hc, l1, hl1, hname⟩ := hC l hl
      rw [← hname]
      exact hinv.registered c hc l1 hl1
    have hnames : (buildSolver (F ++ [C])).variableNames = (buildSolver F).variableNames := by
      unfold buildSolver
      rw [List.foldl_append]
      show (addLiterals (List.foldl AddClause NewSolver F) C).1.variableNames = _
      have := addLiterals_registered C (buildSolver F) hreg
      unfold buildSolver at this
      rw [this]
    obtain ⟨w1, hw1⟩ := Satisfiable_closed F hF0 hFne
    obtain ⟨w2, hw2⟩ := Satisfiable_closed (F ++ [C]) (by simp) (by
      intro c hc
      rcases List.mem_append.mp hc with h | h
      · exact hFne c h
      · rw [List.mem_singleton] at h
        rw [h]
        exact List.ne_nil_of_mem hx)
    rw [hnames] at hw2
    have hxmem : x.name ∈ (buildSolver F).variableNames := by
      obtain ⟨i, hi⟩ := hreg _ hx
      exact List.mem_iff_getElem?.mpr ⟨i, (hinv.1.toNumber _ i).mp hi⟩
    have heq : expectedSolutions (buildSolver F).variableNames (F ++ [C]) =
        expectedSolutions (buildSolver F).variableNames F := by
      unfold expectedSolutions satisfyingVectors
      congr 1
      apply List.filter_congr
      intro v hv
      have hlen := (mem_allVectors _ v).mp hv
      have htot := ofVector_total _ hinv.1.nodup v hlen
      have hsome := (htot x.name).mpr hxmem
      have hCtrue : C.any (Solution.ofVector (buildSolver F).variableNames v).holds = true := by
        rw [List.any_eq_true]
        cases hval : Solution.ofVector (buildSolver F).variableNames v x.name with
        | none => exact absurd hval hsome
        | some b =>
          cases b with
          | true => exact ⟨_, hx, by simp [Solution.holds, hval]⟩
          | false => exact ⟨_, hnx, by simp [Variable.Not, Solution.holds, hval]⟩
      simp [Solution.satisfies, hCtrue]
    rw [heq] at hw2
    exact ⟨_, _, _, _, hw1, hw2⟩
  · obtain ⟨w1, hw1⟩ := Satisfiable_closed callsTautology (by decide) (by decide)
    have hnames : (buildSolver callsTautology).variableNames = ["A"] := by decide
    have hvec : satisfyingVectors ["A"] callsTautology = [[false], [true]] := by decide
    have hsol : expectedSolutions (buildSolver callsTautology).variableNames callsTautology =
        [Solution.ofVector ["A"] [false], Solution.ofVector ["A"] [true]] := by
      rw [hnames]
      unfold expectedSolutions
      rw [hvec]
      rfl
    rw [hsol] at hw1
    exact ⟨_, hw1⟩

/-- Instance of `tautology_neutral`: the clause `{B, ¬B}` added to the formula
`{A, B}`. -/
theorem tautology_neutral_witness :
    callsOr ≠ [] ∧ (∀ c ∈ callsOr, c ≠ []) ∧
    LiteralEncoder.ofVariable (NewVariable "B") ∈ [pos "B", neg "B"] ∧
    (NewVariable "B").Not ∈ [pos "B", neg "B"] ∧
    (∀ l ∈ [pos "B", neg "B"], ∃ c ∈ callsOr, ∃ l1 ∈ c, l1.Name = l.Name) ∧
    ∃ s1 s2 b sols, Satisfiable (buildSolver callsOr) = Outcome.ok (s1, b, sols) ∧
      Satisfiable (buildSolver (callsOr ++ [[pos "B", neg "B"]])) = Outcome.ok (s2, b, sols) :=
  ⟨by decide, by decide, by decide, by decide, by decide,
    (tautology_neutral callsOr [pos "B", neg "B"] (NewVariable "B") (by decide) (by decide)
      (by decide) (by decide) (by decide)).1⟩

theorem PackedAs_mono {s t : Solver} (h : Extends s t) {l : LiteralEncoder} {L : Nat}
    (hp : PackedAs s l L) : PackedAs t l L := by
  obtain ⟨i, hi, hL⟩ := hp
  exact ⟨i, h _ _ hi, hL⟩

theorem addLiterals_packed : ∀ (ls : List LiteralEncoder) (s : Solver), TablesOK s →
    List.Forall₂ (PackedAs (addLiterals s ls).1) ls (addLiterals s ls).2 := by
  intro ls
  induction ls with
  | nil => intro s _; exact List.Forall₂.nil
  | cons l ls ih =>
    intro s hs
    have key : ∀ (s1 : Solver) (v : Nat), TablesOK s1 →
        s1.variableNameToNumber l.Name = some v →
        List.Forall₂ (PackedAs (addLiterals s1 ls).1) (l :: ls)
          ((v <<< 1 ||| l.IsNegated) :: (addLiterals s1 ls).2) := by
      intro s1 v hs1 hv
      refine List.Forall₂.cons ⟨v, (addLiterals_spec ls s1 hs1).2.1 _ _ hv, ?_⟩ (ih s1 hs1)
      exact shiftLeft_one_or v _ (IsNegated_lt l)
    cases hk : s.variableNameToNumber l.Name with
    | some v =>
      have := key s v hs hk
      simpa only [addLiterals, hk] using this
    | none =>
      have := key _ ((s.variableNames ++ [l.Name]).length - 1) (hs.register l.Name hk)
        (by simp)
      simpa only [addLiterals, hk] using this

theorem AddClause_packed (s : Solver) (calls : List (List LiteralEncoder))
    (ls : List LiteralEncoder) (h : BuildInv s calls) (hp : PackedInv s calls) :
    PackedInv (AddClause s ls) (calls ++ [ls]) := by
  obtain ⟨_, h2, h3, _, _, _⟩ := addLiterals_spec ls s h.1
  show List.Forall₂ _ ((addLiterals s ls).1.clauses ++ [UintSlice.Sort (addLiterals s ls).2])
    (calls ++ [ls])
  rw [h3]
  apply List.rel_append
  · refine List.Forall₂.imp ?_ hp
    rintro cl c ⟨packed, hcl, hf⟩
    exact ⟨packed, hcl, hf.imp (fun _ _ hx => PackedAs_mono h2 hx)⟩
  · exact List.Forall₂.cons ⟨_, rfl, addLiterals_packed ls s h.1⟩ List.Forall₂.nil

theorem foldl_AddClause_packed : ∀ (calls : List (List LiteralEncoder)) (s : Solver)
    (done : List (List LiteralEncoder)), BuildInv s done → PackedInv s done →
    PackedInv (calls.foldl AddClause s) (done ++ calls) := by
  intro calls
  induction calls with
  | nil => intro s done _ h; simpa using h
  | cons c calls ih =>
    intro s done h hp
    have := ih (AddClause s c) (done ++ [c]) (AddClause_spec s done c h).1
      (AddClause_packed s done c h hp)
    simpa using this

theorem buildSolver_packed (calls : List (List LiteralEncoder)) :
    PackedInv (buildSolver calls) calls := by
  have h0 : BuildInv NewSolver [] := by
    simpa [buildSolver] using buildSolver_inv []
  have := foldl_AddClause_packed calls NewSolver [] h0 List.Forall₂.nil
  simpa using this

theorem Sort_perm (p : List Nat) : (UintSlice.Sort p).Perm p :=
  List.perm_insertionSort _ p

theorem Sort_sorted (p : List Nat) : (UintSlice.Sort p).Sorted (fun a b => a ≤ b) :=
  List.sorted_insertionSort _ p

/-- The clause that `AddClause` appends, for a solver built by `AddClause`. -/
theorem AddClause_clauses (calls : List (List LiteralEncoder)) (ls : List LiteralEncoder) :
    ∃ packed : List Nat,
      (AddClause (buildSolver calls) ls).clauses =
        (buildSolver calls).clauses ++ [UintSlice.Sort packed] ∧
      List.Forall₂ (PackedAs (AddClause (buildSolver calls) ls)) ls packed := by
  refine ⟨(addLiterals (buildSolver calls) ls).2, ?_, ?_⟩
  · exact (AddClause_spec _ calls ls (buildSolver_inv calls)).2.2
  · exact addLiterals_packed ls _ (buildSolver_inv calls).1

/-- C11 as stated fails on the code: the positive handle `NewVariable("A")`, whose
variable has index `0`, is stored as the packed literal `0`, not `2 * 0 + 1`, and
the negated handle is stored as `1`, not `2 * 0 + 0`. -/
theorem packing_polarity_counterexample :
    (AddClause NewSolver [pos "A"]).variableNameToNumber "A" = some 0 ∧
    (AddClause NewSolver [pos "A"]).clauses = [[0]] ∧ [(0 : Nat)] ≠ [2 * 0 + 1] ∧
    (AddClause NewSolver [neg "A"]).variableNameToNumber "A" = some 0 ∧
    (AddClause NewSolver [neg "A"]).clauses = [[1]] ∧ [(1 : Nat)] ≠ [2 * 0 + 0] := by
  refine ⟨by decide, by decide, by decide, by decide, by decide, by decide⟩

/-- C11, amended (literal packing).  A handle from `NewVariable` has `IsNegated() = 0`
and a handle from `Not()` has `IsNegated() = 1`; for every handle passed to
`AddClause` whose variable has index `i`, the packed literal put in the clause is
`2 * i + IsNegated()`, so that `lit >> 1 == i` and `lit & 1 == IsNegated()`: the low
bit is `1` for the negated occurrence and `0` for the positive one. -/
theorem packing_polarity (calls : List (List LiteralEncoder)) (ls : List LiteralEncoder) :
    (∀ name : String,
      (LiteralEncoder.ofVariable (NewVariable name)).IsNegated = 0 ∧
      ((NewVariable name).Not).IsNegated = 1) ∧
    ∃ packed : List Nat,
      (AddClause (buildSolver calls) ls).clauses =
        (buildSolver calls).clauses ++ [UintSlice.Sort packed] ∧
      List.Forall₂
        (fun l L => ∃ i,
          (AddClause (buildSolver calls) ls).variableNameToNumber l.Name = some i ∧
          L = 2 * i + l.IsNegated ∧ L >>> 1 = i ∧ L &&& 1 = l.IsNegated)
        ls packed := by
  refine ⟨fun name => ⟨rfl, rfl⟩, ?_⟩
  obtain ⟨packed, h1, h2⟩ := AddClause_clauses calls ls
  refine ⟨packed, h1, h2.imp ?_⟩
  rintro l L ⟨i, hi, hL⟩
  have hlt := IsNegated_lt l
  refine ⟨i, hi, hL, ?_, ?_⟩
  · rw [shiftRight_one_eq]; omega
  · rw [Nat.and_one_is_mod]; omega

/-- C12 (clause ingestion).  A call of `AddClause` appends exactly one clause to the
end of the clause list and leaves the earlier clauses as they were; the new clause
is the ascending sort of the packed literals of the handles of the call: it has
the same literals with the same multiplicities, in non-decreasing order. -/
theorem clause_ingestion (calls : List (List LiteralEncoder)) (ls : List LiteralEncoder) :
    ∃ packed : List Nat,
      List.Forall₂ (PackedAs (AddClause (buildSolver calls) ls)) ls packed ∧
      (AddClause (buildSolver calls) ls).clauses =
        (buildSolver calls).clauses ++ [UintSlice.Sort packed] ∧
      (UintSlice.Sort packed).Perm packed ∧
      (UintSlice.Sort packed).Sorted (fun a b => a ≤ b) := by
  obtain ⟨packed, h1, h2⟩ := AddClause_clauses calls ls
  exact ⟨packed, h2, h1, Sort_perm packed, Sort_sorted packed⟩

theorem LiteralEncoder.ext_of {l1 l2 : LiteralEncoder} (hn : l1.Name = l2.Name)
    (hp : l1.IsNegated = l2.IsNegated) : l1 = l2 := by
  cases l1 with
  | ofVariable v1 =>
    cases l2 with
    | ofVariable v2 =>
      cases v1; cases v2
      simp only [LiteralEncoder.Name, Variable.Name] at hn
      rw [hn]
    | ofNegatedVariable v2 =>
      simp [LiteralEncoder.IsNegated, Variable.IsNegated, NegatedVariable.IsNegated] at hp
  | ofNegatedVariable v1 =>
    cases l2 with
    | ofVariable v2 =>
      simp [LiteralEncoder.IsNegated, Variable.IsNegated, NegatedVariable.IsNegated] at hp
    | ofNegatedVariable v2 =>
      cases v1; cases v2
      simp only [LiteralEncoder.Name, NegatedVariable.Name] at hn
      rw [hn]

theorem PackedAs_inj {s : Solver} (h : TablesOK s) {l1 l2 : LiteralEncoder} {L : Nat}
    (h1 : PackedAs s l1 L) (h2 : PackedAs s l2 L) : l1 = l2 := by
  obtain ⟨i1, hi1, hL1⟩ := h1
  obtain ⟨i2, hi2, hL2⟩ := h2
  have hlt1 := IsNegated_lt l1
  have hlt2 := IsNegated_lt l2
  have hi : i1 = i2 := by omega
  subst hi
  have hk1 := (h.toNumber _ _).mp hi1
  have hk2 := (h.toNumber _ _).mp hi2
  rw [hk1] at hk2
  exact LiteralEncoder.ext_of (Option.some.inj hk2) (by omega)

theorem forall₂_nodup {α β : Type} {R : α → β → Prop} {l1 : List α} {l2 : List β}
    (hinj : ∀ a1 a2 b, R a1 b → R a2 b → a1 = a2) (h : List.Forall₂ R l1 l2)
    (hnd : l1.Nodup) : l2.Nodup := by
  induction h with
  | nil => exact List.nodup_nil
  | cons hab hrest ih =>
    rw [List.nodup_cons] at hnd ⊢
    refine ⟨?_, ih hnd.2⟩
    intro hb
    obtain ⟨a1, ha1, hr⟩ := forall₂_right hrest _ hb
    have := hinj _ _ _ hab hr
    rw [this] at hnd
    exact hnd.1 ha1

/-- C13 as stated fails on the code: a call that passes the literal `A` twice
stores the clause `[0, 0]`, which is not strictly increasing. -/
theorem clause_distinct_counterexample :
    (buildSolver [[pos "A", pos "A"]]).clauses = [[0, 0]] ∧
    ¬ ∀ cl ∈ (buildSolver [[pos "A", pos "A"]]).clauses, cl.Sorted (fun a b => a < b) := by
  have h : (buildSolver [[pos "A", pos "A"]]).clauses = [[0, 0]] := by decide
  refine ⟨h, ?_⟩
  rw [h]
  intro hall
  have := hall [0, 0] (List.mem_singleton.mpr rfl)
  simp [List.Sorted] at this

/-- C13, amended (clause distinctness).  After any sequence of `AddClause` calls none
of which passes the same literal (same name and same polarity) more than once,
every clause in the clause list is a strictly increasing sequence of packed
literals. -/
theorem clause_distinct (calls : List (List LiteralEncoder))
    (hnd : ∀ c ∈ calls, c.Nodup) :
    ∀ cl ∈ (buildSolver calls).clauses, cl.Sorted (fun a b => a < b) := by
  intro cl hcl
  obtain ⟨c, hc, packed, rfl, hf⟩ := forall₂_left (buildSolver_packed calls) cl hcl
  have hpn : packed.Nodup :=
    forall₂_nodup (R := PackedAs (buildSolver calls))
      (fun _ _ _ h1 h2 => PackedAs_inj (buildSolver_inv calls).1 h1 h2) hf (hnd c hc)
  exact (Sort_sorted packed).lt_of_le ((Sort_perm packed).nodup_iff.mpr hpn)

/-- Instance of `clause_distinct` on the formula of
`ExampleSimpleSatisfiableDependency`. -/
theorem clause_distinct_witness :
    (∀ c ∈ callsDependency, c.Nodup) ∧
    ∀ cl ∈ (buildSolver callsDependency).clauses, cl.Sorted (fun a b => a < b) :=
  ⟨by decide, clause_distinct callsDependency (by decide)⟩

theorem TablesOK.mem_iff {s : Solver} (h : TablesOK s) (k : String) :
    k ∈ s.variableNames ↔ s.variableNameToNumber k ≠ none := by
  constructor
  · intro hk
    obtain ⟨i, hi⟩ := List.mem_iff_getElem?.mp hk
    rw [(h.toNumber k i).mpr hi]
    exact Option.noConfusion
  · intro hk
    cases hn : s.variableNameToNumber k with
    | none => exact absurd hn hk
    | some i => exact List.mem_iff_getElem?.mpr ⟨i, (h.toNumber k i).mp hn⟩

theorem addLiterals_names : ∀ (ls : List LiteralEncoder) (s : Solver), TablesOK s →
    (addLiterals s ls).1.variableNames =
      firstSeenFrom s.variableNames (ls.map LiteralEncoder.Name) := by
  intro ls
  induction ls with
  | nil => intro s _; rfl
  | cons l ls ih =>
    intro s hs
    cases hk : s.variableNameToNumber l.Name with
    | some v =>
      have hmem : l.Name ∈ s.variableNames := (hs.mem_iff _).mpr (by rw [hk]; exact Option.noConfusion)
      simp only [addLiterals, hk, List.map_cons, firstSeenFrom, if_pos hmem]
      exact ih s hs
    | none =>
      have hmem : l.Name ∉ s.variableNames := fun hm => (hs.mem_iff _).mp hm hk
      simp only [addLiterals, hk, List.map_cons, firstSeenFrom, if_neg hmem]
      exact ih _ (hs.register l.Name hk)

theorem firstSeenFrom_append : ∀ (l1 l2 acc : List String),
    firstSeenFrom acc (l1 ++ l2) = firstSeenFrom (firstSeenFrom acc l1) l2 := by
  intro l1
  induction l1 with
  | nil => intro l2 acc; rfl
  | cons k ks ih =>
    intro l2 acc
    simp only [List.cons_append, firstSeenFrom]
    exact ih l2 _

theorem mem_firstSeenFrom : ∀ (l acc : List String) (k : String),
    k ∈ firstSeenFrom acc l ↔ k ∈ acc ∨ k ∈ l := by
  intro l
  induction l with
  | nil => intro acc k; simp [firstSeenFrom]
  | cons k0 ks ih =>
    intro acc k
    simp only [firstSeenFrom]
    rw [ih]
    by_cases h0 : k0 ∈ acc
    · simp only [if_pos h0, List.mem_cons]
      constructor
      · rintro (h | h)
        · exact Or.inl h
        · exact Or.inr (Or.inr h)
      · rintro (h | h | h)
        · exact Or.inl h
        · left; rw [h]; exact h0
        · exact Or.inr h
    · simp only [if_neg h0, List.mem_append, List.mem_cons, List.not_mem_nil, or_false]
      tauto

theorem foldl_AddClause_names : ∀ (calls : List (List LiteralEncoder)) (s : Solver)
    (done : List (List LiteralEncoder)), BuildInv s done →
    (calls.foldl AddClause s).variableNames = firstSeenFrom s.variableNames (namesOf calls) := by
  intro calls
  induction calls with
  | nil => intro s done _; rfl
  | cons c calls ih =>
    intro s done h
    rw [List.foldl_cons, ih (AddClause s c) (done ++ [c]) (AddClause_spec s done c h).1]
    have hn : (AddClause s c).variableNames = (addLiterals s c).1.variableNames := rfl
    rw [hn, addLiterals_names c s h.1]
    unfold namesOf
    rw [List.flatten_cons, List.map_append, firstSeenFrom_append]

theorem buildSolver_names (calls : List (List LiteralEncoder)) :
    (buildSolver calls).variableNames = firstSeen (namesOf calls) := by
  have h0 : BuildInv NewSolver [] := by
    simpa [buildSolver] using buildSolver_inv []
  exact foldl_AddClause_names calls NewSolver [] h0

/-- C14 (variable tables).  After any sequence of `AddClause` calls on a new solver,
the name-to-number and number-to-name tables are inverse to each other, the first
is defined exactly on the names seen in the calls and the second exactly on the
indices below the number of names, `variableNames[i]` is the name with number `i`,
the names are numbered in the order of their first occurrence (calls in order,
literals left to right), and a later `AddClause` keeps the number of every name
registered before it. -/
theorem variable_tables (calls : List (List LiteralEncoder)) :
    (∀ (k : String) (i : Nat), (buildSolver calls).variableNameToNumber k = some i ↔
      (buildSolver calls).variableNumberToName i = some k) ∧
    (∀ k : String, (buildSolver calls).variableNameToNumber k ≠ none ↔ k ∈ namesOf calls) ∧
    (∀ i : Nat, (buildSolver calls).variableNumberToName i ≠ none ↔
      i < (buildSolver calls).variableNames.length) ∧
    (∀ (i : Nat) (k : String), (buildSolver calls).variableNames[i]? = some k ↔
      (buildSolver calls).variableNameToNumber k = some i) ∧
    (buildSolver calls).variableNames = firstSeen (namesOf calls) ∧
    (∀ (ls : List LiteralEncoder) (k : String) (i : Nat),
      (buildSolver calls).variableNameToNumber k = some i →
      (AddClause (buildSolver calls) ls).variableNameToNumber k = some i ∧
      (AddClause (buildSolver calls) ls).variableNumberToName i = some k ∧
      (AddClause (buildSolver calls) ls).variableNames[i]? = some k) := by
  have hinv := buildSolver_inv calls
  have ht := hinv.1
  refine ⟨?_, ?_, ?_, ?_, buildSolver_names calls, ?_⟩
  · intro k i
    rw [ht.toNumber, ht.toName]
  · intro k
    rw [← ht.mem_iff, buildSolver_names]
    unfold firstSeen
    rw [mem_firstSeenFrom]
    simp
  · intro i
    constructor
    · intro hne
      cases hn : (buildSolver calls).variableNumberToName i with
      | none => exact absurd hn hne
      | some k =>
        have := (ht.toName i k).mp hn
        by_contra hge
        rw [List.getElem?_eq_none (by omega)] at this
        exact Option.noConfusion this
    · intro hlt
      rw [(ht.toName i _).mpr (List.getElem?_eq_getElem hlt)]
      exact Option.noConfusion
  · intro i k
    rw [ht.toNumber]
  · intro ls k i hk
    obtain ⟨h1, h2, _⟩ := AddClause_spec _ calls ls hinv
    have hk1 := h2 k i hk
    have hk2 := (h1.1.toNumber k i).mp hk1
    exact ⟨hk1, (h1.1.toName i k).mpr hk2, hk2⟩

/-- The three stages of `Satisfiable` on a solver built by `AddClause`. -/
theorem Satisfiable_stages (calls : List (List LiteralEncoder)) (h0 : calls ≠ [])
    (hne : ∀ c ∈ calls, c ≠ []) :
    ∃ w1 w2,
      setUpWatchList (buildSolver calls) =
        Outcome.ok { buildSolver calls with watchList := w1 } ∧
      (∀ L, w1.get L = (buildSolver calls).clauses.filter (fun c => decide (c.head? = some L))) ∧
      solve { buildSolver calls with watchList := w1 } =
        Outcome.ok
          (decide (((satisfyingVectors (buildSolver calls).variableNames calls).map
              encode).length > 0),
            (satisfyingVectors (buildSolver calls).variableNames calls).map encode, w2) ∧
      translateAll { buildSolver calls with watchList := w1 }
          ((satisfyingVectors (buildSolver calls).variableNames calls).map encode) =
        Outcome.ok
          (((satisfyingVectors (buildSolver calls).variableNames calls).map encode).map
            (decode { buildSolver calls with watchList := w1 })) := by
  have hinv := buildSolver_inv calls
  obtain ⟨w1, hset, hw1⟩ := setUpWatchList_spec (buildSolver calls) (hinv.nonempty hne)
  have hwi := watchInv_init (buildSolver calls).clauses (buildSolver calls).variableNames.length
    w1 (hinv.nonempty hne) hinv.inRange hw1
  obtain ⟨w2, hsolve⟩ := solve_spec { buildSolver calls with watchList := w1 }
    (hinv.pos h0 hne) hinv.inRange hwi
  simp only at hsolve
  rw [models_top _ calls hinv] at hsolve
  have htr := translateAll_spec { buildSolver calls with watchList := w1 }
    ⟨hinv.1.toNumber, hinv.1.toName⟩
    ((satisfyingVectors (buildSolver calls).variableNames calls).map encode) (by
      intro B hB
      obtain ⟨v, hv, rfl⟩ := List.mem_map.mp hB
      have hlen := ((mem_satisfyingVectors _ _ v).mp hv).1
      exact ⟨by rw [encode_length]; exact hlen, encode_total v⟩)
  exact ⟨w1, w2, hset, hw1, hsolve, htr⟩

/-- C15 (result translation is total).  On a solver built by one or more `AddClause`
calls, each with at least one literal, the three stages of `Satisfiable` return:
every call of `componentLiteral` made for a raw assignment returns a name and a
value (the fatal path is not taken), and each returned Solution, paired with its
raw assignment, has exactly the registered names as keys and gives the name of
index `i` the value true exactly when the raw assignment of variable `i` is `1`. -/
theorem translation_total (calls : List (List LiteralEncoder)) (h0 : calls ≠ [])
    (hne : ∀ c ∈ calls, c ≠ []) :
    ∃ s1 b raws w sols,
      setUpWatchList (buildSolver calls) = Outcome.ok s1 ∧
      solve s1 = Outcome.ok (b, raws, w) ∧
      translateAll s1 raws = Outcome.ok sols ∧
      Satisfiable (buildSolver calls) = Outcome.ok ({ s1 with watchList := w }, b, sols) ∧
      (∀ raw ∈ raws, ∀ (i x : Nat), raw[i]? = some (some x) →
        ∃ k v, componentLiteral s1 (x + 2 * i) = Outcome.ok (k, v)) ∧
      List.Forall₂
        (fun raw so =>
          Solution.total so (buildSolver calls).variableNames ∧
          ∀ (i : Nat) (k : String), (buildSolver calls).variableNames[i]? = some k →
            so k = some (decide (raw[i]? = some (some 1))))
        raws sols := by
  obtain ⟨w1, w2, hset, _, hsolve, htr⟩ := Satisfiable_stages calls h0 hne
  have hinv := buildSolver_inv calls
  have ht : TablesOK { buildSolver calls with watchList := w1 } :=
    ⟨hinv.1.toNumber, hinv.1.toName⟩
  refine ⟨_, _, _, _, _, hset, hsolve, htr, ?_, ?_, ?_⟩
  · simp only [Satisfiable, hset, hsolve, htr]
  · intro raw hraw i x hx
    obtain ⟨v, hv, rfl⟩ := List.mem_map.mp hraw
    have hlen := ((mem_satisfyingVectors _ _ v).mp hv).1
    have hi : i < (buildSolver calls).variableNames.length := by
      by_contra hge
      rw [List.getElem?_eq_none (by rw [encode_length]; omega)] at hx
      exact Option.noConfusion hx
    obtain ⟨x1, hx1, hx2⟩ := encode_total v _ (List.getElem?_mem hx)
    have hxx : x = x1 := Option.some.inj hx2
    subst hxx
    exact ⟨_, _, componentLiteral_spec _ ht i x _ (List.getElem?_eq_getElem hi) hx1⟩
  · rw [List.forall₂_map_right_iff, List.forall₂_same]
    intro raw hraw
    obtain ⟨v, hv, rfl⟩ := List.mem_map.mp hraw
    have hlen := ((mem_satisfyingVectors _ _ v).mp hv).1
    rw [decode_encode _ ht v hlen]
    refine ⟨ofVector_total _ hinv.1.nodup v hlen, ?_⟩
    intro i k hk
    have hi : i < (buildSolver calls).variableNames.length := by
      by_contra hge
      rw [List.getElem?_eq_none (by omega)] at hk
      exact Option.noConfusion hk
    have hb : v[i]? = some v[i] := List.getElem?_eq_getElem (by omega)
    show Solution.ofVector (buildSolver calls).variableNames v k = _
    rw [ofVector_get _ hinv.1.nodup v i k _ hk hb, encode_getElem? v i _ hb]
    cases v[i] <;> simp

/-- Instance of `translation_total` on the formula of
`ExampleSimpleSatisfiableDependency`. -/
theorem translation_total_witness :
    callsDependency ≠ [] ∧ (∀ c ∈ callsDependency, c ≠ []) ∧
    ∃ s1 b raws w sols,
      setUpWatchList (buildSolver callsDependency) = Outcome.ok s1 ∧
      solve s1 = Outcome.ok (b, raws, w) ∧
      translateAll s1 raws = Outcome.ok sols ∧
      Satisfiable (buildSolver callsDependency) =
        Outcome.ok ({ s1 with watchList := w }, b, sols) ∧
      (∀ raw ∈ raws, ∀ (i x : Nat), raw[i]? = some (some x) →
        ∃ k v, componentLiteral s1 (x + 2 * i) = Outcome.ok (k, v)) ∧
      List.Forall₂
        (fun raw so =>
          Solution.total so (buildSolver callsDependency).variableNames ∧
          ∀ (i : Nat) (k : String), (buildSolver callsDependency).variableNames[i]? = some k →
            so k = some (decide (raw[i]? = some (some 1))))
        raws sols :=
  ⟨by decide, by decide, translation_total callsDependency (by decide) (by decide)⟩

theorem setUpWatchListLoop_keys : ∀ (rest : List (List Nat)) (w w1 : WatchList),
    setUpWatchListLoop rest w = Outcome.ok w1 →
    ∀ L, w1 L = none ↔ (w L = none ∧ ∀ c ∈ rest, c.head? ≠ some L) := by
  intro rest
  induction rest with
  | nil =>
    intro w w1 h L
    simp only [setUpWatchListLoop, Outcome.ok.injEq] at h
    subst h
    simp
  | cons clause rest ih =>
    intro w w1 h L
    cases clause with
    | nil => simp [setUpWatchListLoop] at h
    | cons c0 tl =>
      simp only [setUpWatchListLoop] at h
      rw [ih _ w1 h L]
      by_cases hL : L = c0
      · subst hL
        simp [WatchList.set]
      · have hne : ¬ c0 = L := fun h => hL h.symm
        simp [WatchList.set, hL, hne]

/-- C19 (watch-list construction).  For every clause list whose clauses are all
non-empty, `setUpWatchList` returns, and afterwards the watch list of each literal
`L` is the sub-list, in insertion order, of the clauses whose first literal is `L`;
a literal that is first in no clause has no entry; every clause is in the watch
list of its first literal as many times as it occurs in the clause list and in no
other watch list; and the first literal of a sorted clause is its smallest. -/
theorem watch_list_construction (s : Solver) (hne : ∀ c ∈ s.clauses, c ≠ []) :
    ∃ w, setUpWatchList s = Outcome.ok { s with watchList := w } ∧
      (∀ L, w.get L = s.clauses.filter (fun c => decide (c.head? = some L))) ∧
      (∀ L, w L = none ↔ ∀ c ∈ s.clauses, c.head? ≠ some L) ∧
      (∀ c ∈ s.clauses, ∃ L0, c.head? = some L0 ∧
        (w.get L0).count c = s.clauses.count c ∧ ∀ L, L ≠ L0 → c ∉ w.get L) ∧
      (∀ c ∈ s.clauses, c.Sorted (fun a b => a ≤ b) →
        ∀ L0, c.head? = some L0 → ∀ L ∈ c, L0 ≤ L) := by
  obtain ⟨w, hw⟩ : ∃ w, setUpWatchListLoop s.clauses (fun _ => none) = Outcome.ok w := by
    obtain ⟨w1, h1, _⟩ := setUpWatchListLoop_spec s.clauses (fun _ => none) hne
    exact ⟨w1, h1⟩
  have hget : ∀ L, w.get L = s.clauses.filter (fun c => decide (c.head? = some L)) := by
    obtain ⟨w1, h1, h2⟩ := setUpWatchListLoop_spec s.clauses (fun _ => none) hne
    rw [hw] at h1
    have : w = w1 := Outcome.ok.inj h1
    subst this
    intro L
    rw [h2 L]
    simp [WatchList.get]
  refine ⟨w, ?_, hget, ?_, ?_, ?_⟩
  · simp only [setUpWatchList, hw]
  · intro L
    rw [setUpWatchListLoop_keys s.clauses _ w hw L]
    simp
  · intro c hc
    cases hcl : c with
    | nil => exact absurd hcl (hne c hc)
    | cons c0 tl =>
      refine ⟨c0, rfl, ?_, ?_⟩
      · rw [hget c0, List.count_filter]
        simp
      · intro L hL hmem
        rw [hget L, List.mem_filter] at hmem
        simp at hmem
        exact hL hmem.2.symm
  · intro c _ hsorted L0 hL0 L hL
    cases c with
    | nil => simp at hL
    | cons c0 tl =>
      simp only [List.head?_cons, Option.some.injEq] at hL0
      subst hL0
      rcases List.mem_cons.mp hL with rfl | hm
      · exact Nat.le_refl _
      · exact List.rel_of_sorted_cons hsorted L hm

/-- Instance of `watch_list_construction` on the solver of
`ExampleSimpleSatisfiableDependency`. -/
theorem watch_list_construction_witness :
    (∀ c ∈ (buildSolver callsDependency).clauses, c ≠ []) ∧
    ∃ w, setUpWatchList (buildSolver callsDependency) =
        Outcome.ok { buildSolver callsDependency with watchList := w } ∧
      (∀ L, w.get L =
        (buildSolver callsDependency).clauses.filter (fun c => decide (c.head? = some L))) ∧
      (∀ L, w L = none ↔ ∀ c ∈ (buildSolver callsDependency).clauses, c.head? ≠ some L) ∧
      (∀ c ∈ (buildSolver callsDependency).clauses, ∃ L0, c.head? = some L0 ∧
        (w.get L0).count c = (buildSolver callsDependency).clauses.count c ∧
        ∀ L, L ≠ L0 → c ∉ w.get L) ∧
      (∀ c ∈ (buildSolver callsDependency).clauses, c.Sorted (fun a b => a ≤ b) →
        ∀ L0, c.head? = some L0 → ∀ L ∈ c, L0 ≤ L) :=
  ⟨by decide, watch_list_construction (buildSolver callsDependency) (by decide)⟩

theorem litOkB_iff (A : List (Option Nat)) (L : Nat) : litOkB A L = true ↔ litOk A L := by
  simp [litOkB, litOk]

theorem findAlternative_exact (A : List (Option Nat)) : ∀ (c : List Nat),
    (∀ L ∈ c, L / 2 < A.length) → findAlternative A c = Outcome.ok (firstOk A c) := by
  intro c
  induction c with
  | nil => intro _; rfl
  | cons L rest ih =>
    intro hr
    have hL : L / 2 < A.length := hr L (List.mem_cons_self _ _)
    have hget : A[L / 2]? = some A[L / 2] := List.getElem?_eq_getElem hL
    unfold findAlternative firstOk
    rw [shiftRight_one_eq, and_one_xor_one, hget, List.find?_cons]
    cases hx : A[L / 2] with
    | none =>
      have : litOkB A L = true := by simp [litOkB, hget, hx]
      simp [this]
    | some x =>
      by_cases hxa : x = 1 - L % 2
      · have : litOkB A L = true := by simp [litOkB, hget, hx, hxa]
        simp [this, hxa]
      · have : litOkB A L = false := by simp [litOkB, hget, hx, hxa]
        simp only [this, hxa, if_false]
        exact ih (fun L1 h1 => hr L1 (List.mem_cons_of_mem _ h1))

theorem firstOk_some {A : List (Option Nat)} {c : List Nat} {L : Nat}
    (h : firstOk A c = some L) : L ∈ c ∧ litOk A L := by
  unfold firstOk at h
  exact ⟨List.mem_of_find?_eq_some h, (litOkB_iff A L).mp (List.find?_some h)⟩

theorem hasOk_iff (A : List (Option Nat)) (c : List Nat) :
    hasOk A c = true ↔ ∃ L ∈ c, litOk A L := by
  unfold hasOk firstOk
  rw [List.find?_isSome]
  constructor
  · rintro ⟨L, hL, h⟩
    exact ⟨L, hL, (litOkB_iff A L).mp h⟩
  · rintro ⟨L, hL, h⟩
    exact ⟨L, hL, (litOkB_iff A L).mpr h⟩

/-- The exact effect of the loop of `updateWatchList`: the clauses that have an
alternative are moved, in order, until the first clause without one. -/
theorem updateWatchListLoop_exact (fl : Nat) (A : List (Option Nat))
    (hfl : ¬ litOk A fl) :
    ∀ (fuel : Nat) (w : WatchList), (w.get fl).length ≤ fuel →
      (∀ c ∈ w.get fl, ∀ L ∈ c, L / 2 < A.length) →
      ∃ w1, updateWatchListLoop fuel w fl A =
          Outcome.ok (decide ((w.get fl).dropWhile (hasOk A) = []), w1) ∧
        w1.get fl = (w.get fl).dropWhile (hasOk A) ∧
        ∀ L, L ≠ fl → w1.get L =
          w.get L ++ ((w.get fl).takeWhile (hasOk A)).filter
            (fun c => decide (firstOk A c = some L)) := by
  intro fuel
  induction fuel with
  | zero =>
    intro w hlen _
    have hw : w.get fl = [] := List.length_eq_zero.mp (Nat.le_zero.mp hlen)
    refine ⟨w, ?_, ?_, ?_⟩
    · simp [updateWatchListLoop, hw]
    · simp [hw]
    · intro L _; simp [hw]
  | succ fuel ih =>
    intro w hlen hr
    cases hw : w.get fl with
    | nil =>
      refine ⟨w, ?_, ?_, ?_⟩
      · simp [updateWatchListLoop, hw]
      · simp [hw]
      · intro L _; simp
    | cons clause rest =>
      have hfind := findAlternative_exact A clause
        (hr clause (by rw [hw]; exact List.mem_cons_self _ _))
      cases hfo : firstOk A clause with
      | none =>
        have hno : hasOk A clause = false := by simp [hasOk, hfo]
        refine ⟨w, ?_, ?_, ?_⟩
        · rw [hfo] at hfind
          simp [updateWatchListLoop, hw, hfind, List.dropWhile_cons, hno]
        · rw [hw]; simp [List.dropWhile_cons, hno]
        · intro L _; simp [List.takeWhile_cons, hno]
      | some alt =>
        have hyes : hasOk A clause = true := by simp [hasOk, hfo]
        have hne : alt ≠ fl := fun h => hfl (h ▸ (firstOk_some hfo).2)
        have hget := moved_get w fl alt clause rest hne hw
        simp only at hget
        rw [hfo] at hfind
        have hstep : updateWatchListLoop (fuel + 1) w fl A =
            updateWatchListLoop fuel
              ((if (clause :: rest).length > 1 then w.set fl rest else w.delete fl).set alt
                ((if (clause :: rest).length > 1 then w.set fl rest else w.delete fl).get alt
                  ++ [clause])) fl A := by
          simp [updateWatchListLoop, hw, hfind]
        have hfl2 := hget fl
        simp only [Ne.symm hne, if_false, if_true] at hfl2
        obtain ⟨w1, h1, h2, h3⟩ := ih _ (by
            rw [hfl2]
            rw [hw] at hlen
            simpa using hlen) (by
            rw [hfl2]
            intro c hc
            exact hr c (by rw [hw]; exact List.mem_cons_of_mem _ hc))
        rw [hfl2] at h1 h2 h3
        refine ⟨w1, ?_, ?_, ?_⟩
        · rw [hstep, h1]
          simp [List.dropWhile_cons, hyes]
        · rw [h2]; simp [List.dropWhile_cons, hyes]
        · intro L hL
          rw [h3 L hL, hget L]
          simp only [hL, if_false, List.takeWhile_cons, hyes, if_true, List.filter_cons, hfo]
          by_cases hLa : L = alt
          · subst hLa
            simp
          · have : ¬ alt = L := fun h => hLa h.symm
            simp [hLa, this]

theorem dropWhile_nil_iff {α : Type} (p : α → Bool) (l : List α) :
    l.dropWhile p = [] ↔ ∀ x ∈ l, p x = true := by
  induction l with
  | nil => simp
  | cons a l ih =>
    by_cases ha : p a = true
    · simp [List.dropWhile_cons, ha, ih]
    · simp [List.dropWhile_cons, ha]

theorem takeWhile_of_all {α : Type} (p : α → Bool) (l : List α)
    (h : ∀ x ∈ l, p x = true) : l.takeWhile p = l := by
  induction l with
  | nil => rfl
  | cons a l ih =>
    have ha : p a = true := h a (List.mem_cons_self _ _)
    simp [List.takeWhile_cons, ha, ih (fun x hx => h x (List.mem_cons_of_mem _ hx))]

theorem head_dropWhile {α : Type} (p : α → Bool) (l : List α) (c : α) (rest : List α)
    (h : l.dropWhile p = c :: rest) : p c = false := by
  induction l with
  | nil => simp at h
  | cons a l ih =>
    by_cases ha : p a = true
    · simp only [List.dropWhile_cons, ha, if_true] at h
      exact ih h
    · simp only [List.dropWhile_cons, ha] at h
      simp only [Bool.false_eq_true, if_false, List.cons.injEq] at h
      rw [← h.1]
      simpa using ha

/-- C17 (propagation check).  For every watch list `w`, assignment array `A` that
covers the variables of the clauses watched at `falseLiteral`, and literal
`falseLiteral` whose variable is assigned the value that makes it false,
`updateWatchList` returns; it returns true exactly when every clause in the watch
list of `falseLiteral` has a literal that is unassigned or true.  When it returns
true that watch list is empty and every other watch list has received, in order,
the clauses whose first unassigned-or-true literal is its key.  When it returns
false the watch list of `falseLiteral` starts with a clause all of whose literals
are false, the clauses before it have been moved in the same way, and every clause
held before the call is still held. -/
theorem propagation_check (w : WatchList) (A : List (Option Nat)) (falseLiteral : Nat)
    (hcover : ∀ c ∈ w.get falseLiteral, ∀ L ∈ c, L / 2 < A.length)
    (hfalse : A[falseLiteral / 2]? = some (some (falseLiteral % 2))) :
    ∃ b w1, updateWatchList w falseLiteral A = Outcome.ok (b, w1) ∧
      (b = true ↔ ∀ c ∈ w.get falseLiteral, ∃ L ∈ c, litOk A L) ∧
      (b = true →
        w1.get falseLiteral = [] ∧
        ∀ L, L ≠ falseLiteral → w1.get L =
          w.get L ++ (w.get falseLiteral).filter (fun c => decide (firstOk A c = some L))) ∧
      (b = false →
        (∃ c rest, w1.get falseLiteral = c :: rest ∧ (∀ L ∈ c, ¬ litOk A L) ∧
          c :: rest = (w.get falseLiteral).dropWhile (hasOk A)) ∧
        (∀ L, L ≠ falseLiteral → w1.get L =
          w.get L ++ ((w.get falseLiteral).takeWhile (hasOk A)).filter
            (fun c => decide (firstOk A c = some L))) ∧
        (∀ L c, c ∈ w.get L → ∃ L1, c ∈ w1.get L1)) := by
  have hfl : ¬ litOk A falseLiteral := by
    unfold litOk
    rw [hfalse]
    have := Nat.mod_two_eq_zero_or_one falseLiteral
    simp
    omega
  obtain ⟨w1, h1, h2, h3⟩ := updateWatchListLoop_exact falseLiteral A hfl
    (w.get falseLiteral).length w (Nat.le_refl _) hcover
  have hall : (w.get falseLiteral).dropWhile (hasOk A) = [] ↔
      ∀ c ∈ w.get falseLiteral, ∃ L ∈ c, litOk A L := by
    rw [dropWhile_nil_iff]
    constructor
    · intro h c hc; exact (hasOk_iff A c).mp (h c hc)
    · intro h c hc; exact (hasOk_iff A c).mpr (h c hc)
  refine ⟨_, w1, h1, ?_, ?_, ?_⟩
  · rw [decide_eq_true_eq]
    exact hall
  · intro hb
    rw [decide_eq_true_eq] at hb
    refine ⟨by rw [h2, hb], ?_⟩
    intro L hL
    rw [h3 L hL, takeWhile_of_all _ _ ((dropWhile_nil_iff _ _).mp hb)]
  · intro hb
    rw [decide_eq_false_iff_not] at hb
    cases hd : (w.get falseLiteral).dropWhile (hasOk A) with
    | nil => exact absurd hd hb
    | cons c rest =>
      have hc : hasOk A c = false := head_dropWhile _ _ c rest hd
      refine ⟨⟨c, rest, by rw [h2, hd], ?_, rfl⟩, h3, ?_⟩
      · intro L hL hok
        have := (hasOk_iff A c).mpr ⟨L, hL, hok⟩
        rw [hc] at this
        exact Bool.false_ne_true this
      · intro L c1 hc1
        by_cases hL : L = falseLiteral
        · subst hL
          rw [← List.takeWhile_append_dropWhile (hasOk A) (w.get L), List.mem_append] at hc1
          rcases hc1 with ht | hdm
          · have hyes : hasOk A c1 = true := (List.mem_takeWhile_imp ht)
            cases hfo : firstOk A c1 with
            | none => simp [hasOk, hfo] at hyes
            | some alt =>
              have hne : alt ≠ L := fun h => hfl (h ▸ (firstOk_some hfo).2)
              refine ⟨alt, ?_⟩
              rw [h3 alt hne, List.mem_append]
              right
              rw [List.mem_filter]
              exact ⟨ht, by simp [hfo]⟩
          · exact ⟨L, by rw [h2]; exact hdm⟩
        · exact ⟨L, by rw [h3 L hL]; exact List.mem_append_left _ hc1⟩

/-- Instance of `propagation_check`: the clause `{A, B}` watched at the literal of
`A`, after the value that makes that literal false is given to `A`. -/
theorem propagation_check_witness :
    (∀ c ∈ (WatchList.set (fun _ => none) 0 [[0, 2]]).get 0, ∀ L ∈ c,
      L / 2 < [some 0, (none : Option Nat)].length) ∧
    [some 0, (none : Option Nat)][0 / 2]? = some (some (0 % 2)) ∧
    ∃ b w1, updateWatchList (WatchList.set (fun _ => none) 0 [[0, 2]]) 0 [some 0, none] =
        Outcome.ok (b, w1) ∧
      (b = true ↔ ∀ c ∈ (WatchList.set (fun _ => none) 0 [[0, 2]]).get 0,
        ∃ L ∈ c, litOk [some 0, none] L) ∧
      (b = true →
        w1.get 0 = [] ∧
        ∀ L, L ≠ 0 → w1.get L =
          (WatchList.set (fun _ => none) 0 [[0, 2]]).get L ++
            ((WatchList.set (fun _ => none) 0 [[0, 2]]).get 0).filter
              (fun c => decide (firstOk [some 0, none] c = some L))) ∧
      (b = false →
        (∃ c rest, w1.get 0 = c :: rest ∧ (∀ L ∈ c, ¬ litOk [some 0, none] L) ∧
          c :: rest =
            ((WatchList.set (fun _ => none) 0 [[0, 2]]).get 0).dropWhile
              (hasOk [some 0, none])) ∧
        (∀ L, L ≠ 0 → w1.get L =
          (WatchList.set (fun _ => none) 0 [[0, 2]]).get L ++
            (((WatchList.set (fun _ => none) 0 [[0, 2]]).get 0).takeWhile
              (hasOk [some 0, none])).filter
              (fun c => decide (firstOk [some 0, none] c = some L))) ∧
        (∀ L c, c ∈ (WatchList.set (fun _ => none) 0 [[0, 2]]).get L →
          ∃ L1, c ∈ w1.get L1)) :=
  ⟨by decide, by decide,
    propagation_check (WatchList.set (fun _ => none) 0 [[0, 2]]) [some 0, none] 0
      (by decide) (by decide)⟩

theorem SearchInv_tryPolarities {n : Nat} : ∀ (l : List Nat), (∀ a ∈ l, a < 2) →
    ∀ (t : Bool) (st : SolveState) (t1 : Bool) (st1 : SolveState),
      SearchInv n st → st.d < n → tryPolarities l t st = Outcome.ok (t1, st1) →
      SearchInv n st1 := by
  intro l
  induction l with
  | nil =>
    intro _ t st t1 st1 hinv _ h
    simp only [Sat.tryPolarities, Outcome.ok.injEq, Prod.mk.injEq] at h
    rw [← h.2]
    exact hinv
  | cons a rest ih =>
    intro ha t st t1 st1 hinv hd h
    have ha2 : a < 2 := ha a (List.mem_cons_self _ _)
    have hrest : ∀ a1 ∈ rest, a1 < 2 := fun a1 h1 => ha a1 (List.mem_cons_of_mem _ h1)
    rw [Sat.tryPolarities] at h
    cases hs : st.state[st.d]? with
    | none => simp [hs] at h
    | some sd =>
      simp only [hs] at h
      by_cases hb : (sd >>> a) &&& 1 = 0
      · simp only [hb, if_true] at h
        have hdA : st.d < st.assignment.length := by rw [hinv.lenA]; exact hd
        simp only [hdA, if_true] at h
        cases hu : updateWatchList st.watchList (st.d <<< 1 ||| a)
            (st.assignment.set st.d (some a)) with
        | panic => simp [hu] at h
        | outOfFuel => simp [hu] at h
        | ok r =>
          obtain ⟨b, w⟩ := r
          cases b with
          | true =>
            simp only [hu, Outcome.ok.injEq, Prod.mk.injEq] at h
            rw [← h.2]
            refine ⟨by simp [hinv.lenA], by simp [hinv.lenS], by simp; omega, ?_, ?_⟩
            · intro v hv
              simp only at hv ⊢
              by_cases hvd : v = st.d
              · subst hvd
                exact ⟨a, ha2, by simp [hdA]⟩
              · rw [List.getElem?_set_ne (Ne.symm hvd)]
                exact hinv.below v (by omega)
            · intro v hv hvn
              simp only at hv ⊢
              rw [List.getElem?_set_ne (by omega)]
              exact hinv.above v (by omega) hvn
          | false =>
            simp only [hu] at h
            refine ih hrest true (SolveState.mk w st.results
              ((st.assignment.set st.d (some a)).set st.d none)
              (st.state.set st.d (sd ||| 1 <<< a)) st.d) t1 st1 ?_ hd h
            refine ⟨by simp [hinv.lenA], by simp [hinv.lenS], hinv.hd, ?_, ?_⟩
            · intro v hv
              simp only at hv ⊢
              rw [List.set_set, List.getElem?_set_ne (by omega)]
              exact hinv.below v hv
            · intro v hv hvn
              simp only at hv ⊢
              rw [List.set_set, List.getElem?_set_ne (by omega)]
              exact hinv.above v hv hvn
      · simp only [hb, if_false] at h
        exact ih hrest t st t1 st1 hinv hd h

theorem SearchInv_step {n : Nat} (hn : 0 < n) {st st1 : SolveState} (hinv : SearchInv n st)
    (h : solveStep n st = StepResult.next st1) : SearchInv n st1 := by
  unfold solveStep at h
  by_cases hd : st.d = n
  · simp only [hd, if_true, StepResult.next.injEq] at h
    rw [← h]
    have hdec : uintDec n = n - 1 := by
      unfold uintDec
      rw [if_neg (by omega)]
    refine ⟨hinv.lenA, hinv.lenS, by simp [hdec], ?_, ?_⟩
    · intro v hv
      simp only [hdec] at hv
      exact hinv.below v (by omega)
    · intro v hv hvn
      simp only [hdec] at hv
      omega
  · simp only [hd, if_false] at h
    have hlt : st.d < n := lt_of_le_of_ne hinv.hd hd
    cases ht : Sat.tryPolarities [0, 1] false st with
    | panic => simp [ht, afterPolarities] at h
    | outOfFuel => simp [ht, afterPolarities] at h
    | ok r =>
      obtain ⟨tried, st2⟩ := r
      have hinv2 : SearchInv n st2 :=
        SearchInv_tryPolarities [0, 1] (by decide) false st tried st2 hinv hlt ht
      cases tried with
      | true =>
        simp only [ht, afterPolarities, if_true, StepResult.next.injEq] at h
        rw [← h]
        exact hinv2
      | false =>
        simp only [ht, afterPolarities, Bool.false_eq_true, if_false] at h
        by_cases h0 : st2.d = 0
        · simp [h0] at h
        · simp only [h0, if_false] at h
          by_cases hb : st2.d < st2.state.length ∧ st2.d < st2.assignment.length
          · simp only [hb, and_self, if_true, StepResult.next.injEq] at h
            rw [← h]
            have hdec : uintDec st2.d = st2.d - 1 := by
              unfold uintDec
              rw [if_neg h0]
            refine ⟨by simp [hinv2.lenA], by simp [hinv2.lenS], by simp [hdec]; have := hinv2.hd; omega,
              ?_, ?_⟩
            · intro v hv
              simp only [hdec] at hv ⊢
              rw [List.getElem?_set_ne (by omega)]
              exact hinv2.below v (by omega)
            · intro v hv hvn
              simp only [hdec] at hv ⊢
              by_cases hvd : v = st2.d
              · subst hvd
                simp [hb.2]
              · rw [List.getElem?_set_ne (Ne.symm hvd)]
                exact hinv2.above v (by omega) hvn
          · simp [hb] at h

theorem SearchInv_init (s : Solver) : SearchInv s.variableNames.length (solveInit s) := by
  refine ⟨by simp [solveInit], by simp [solveInit], Nat.zero_le _, ?_, ?_⟩
  · intro v hv
    simp [solveInit] at hv
  · intro v _ hvn
    simp [solveInit, List.getElem?_replicate, hvn]

theorem SearchInv_stateAt {n : Nat} (hn : 0 < n) : ∀ (k : Nat) (st st1 : SolveState),
    SearchInv n st → Sat.stateAt n k st = some st1 → SearchInv n st1 := by
  intro k
  induction k with
  | zero =>
    intro st st1 hinv h
    simp only [Sat.stateAt, Option.some.injEq] at h
    rw [← h]
    exact hinv
  | succ k ih =>
    intro st st1 hinv h
    simp only [Sat.stateAt] at h
    cases hs : solveStep n st with
    | next st2 =>
      simp only [hs] at h
      exact ih st2 st1 (SearchInv_step hn hinv hs) h
    | done b rs w => simp [hs] at h
    | panic => simp [hs] at h
    | outOfFuel => simp [hs] at h

/-- C18 as stated fails on the code: for the clause `{A, B}`, at the start of the
fourth iteration of the loop of `solve` (just after the first result is recorded)
the cursor is `1` and `assignment[1]` is still set. -/
theorem search_state_counterexample :
    ∃ s1 st, setUpWatchList (buildSolver callsOr) = Outcome.ok s1 ∧
      stateAt s1.variableNames.length 3 (solveInit s1) = some st ∧
      st.d = 1 ∧ st.results = [[some 0, some 1]] ∧
      ¬ (∀ v, st.d ≤ v → v < s1.variableNames.length → st.assignment[v]? = some none) := by
  refine ⟨_, _, rfl, rfl, rfl, rfl, ?_⟩
  intro h
  have := h 1 (by decide) (by decide)
  revert this
  decide

/-- C18, amended (search-state invariant).  On a solver built by one or more
`AddClause` calls, each with at least one literal, at the start of every iteration
of the loop of `solve` with cursor `d`, `assignment[v]` is set (to `0` or `1`) for
every variable `v < d` and unset for every variable `v > d`; the entry of the
cursor itself may still hold the polarity tried last. -/
theorem search_state_invariant (calls : List (List LiteralEncoder)) (h0 : calls ≠ [])
    (hne : ∀ c ∈ calls, c ≠ []) :
    ∃ s1, setUpWatchList (buildSolver calls) = Outcome.ok s1 ∧
      ∀ (k : Nat) (st : SolveState),
        stateAt s1.variableNames.length k (solveInit s1) = some st →
        st.d ≤ s1.variableNames.length ∧
        (∀ v, v < st.d → ∃ x, x < 2 ∧ st.assignment[v]? = some (some x)) ∧
        (∀ v, st.d < v → v < s1.variableNames.length → st.assignment[v]? = some none) := by
  have hinv := buildSolver_inv calls
  obtain ⟨w1, hset, _⟩ := setUpWatchList_spec (buildSolver calls) (hinv.nonempty hne)
  refine ⟨_, hset, ?_⟩
  intro k st hk
  have := SearchInv_stateAt (hinv.pos h0 hne) k _ st
    (SearchInv_init { buildSolver calls with watchList := w1 }) hk
  exact ⟨this.hd, this.below, this.above⟩

/-- Instance of `search_state_invariant` on the formula `{A, B}`. -/
theorem search_state_invariant_witness :
    callsOr ≠ [] ∧ (∀ c ∈ callsOr, c ≠ []) ∧
    ∃ s1, setUpWatchList (buildSolver callsOr) = Outcome.ok s1 ∧
      ∀ (k : Nat) (st : SolveState),
        stateAt s1.variableNames.length k (solveInit s1) = some st →
        st.d ≤ s1.variableNames.length ∧
        (∀ v, v < st.d → ∃ x, x < 2 ∧ st.assignment[v]? = some (some x)) ∧
        (∀ v, st.d < v → v < s1.variableNames.length → st.assignment[v]? = some none) :=
  ⟨by decide, by decide, search_state_invariant callsOr (by decide) (by decide)⟩

theorem count_filter_firstOk (A : List (Option Nat)) (T : List (List Nat)) (c : List Nat)
    (L : Nat) :
    (T.filter (fun c1 => decide (firstOk A c1 = some L))).count c =
      if firstOk A c = some L then T.count c else 0 := by
  by_cases h : firstOk A c = some L
  · rw [if_pos h, List.count_filter (by simpa using h)]
  · rw [if_neg h]
    apply List.count_eq_zero_of_not_mem
    intro hm
    have := (List.mem_filter.mp hm).2
    simp at this
    exact h this

theorem holdCount_update (n : Nat) (w w1 : WatchList) (fl : Nat) (A : List (Option Nat))
    (c : List Nat) (hflt : fl < 2 * n) (T D : List (List Nat)) (hw : w.get fl = T ++ D)
    (h2 : w1.get fl = D)
    (h3 : ∀ L, L ≠ fl →
      w1.get L = w.get L ++ T.filter (fun c1 => decide (firstOk A c1 = some L)))
    (halt : ∀ c1 ∈ T, ∃ alt, firstOk A c1 = some alt ∧ alt ≠ fl ∧ alt < 2 * n) :
    holdCount n w1 c = holdCount n w c := by
  unfold holdCount
  have hpt : ∀ L ∈ Finset.range (2 * n),
      (w1.get L).count c + (if L = fl then T.count c else 0) =
        (w.get L).count c + (if firstOk A c = some L then T.count c else 0) := by
    intro L _
    by_cases hL : L = fl
    · subst hL
      rw [h2, hw, List.count_append, if_pos rfl]
      by_cases hc : c ∈ T
      · obtain ⟨alt, ha, hne, _⟩ := halt c hc
        have : ¬ firstOk A c = some L := by
          rw [ha]
          intro h
          exact hne (Option.some.inj h)
        rw [if_neg this]
        omega
      · rw [List.count_eq_zero_of_not_mem hc]
        simp
    · rw [h3 L hL, List.count_append, count_filter_firstOk, if_neg hL]
      omega
  have hsum := Finset.sum_congr rfl hpt
  rw [Finset.sum_add_distrib, Finset.sum_add_distrib, Finset.sum_ite_eq',
    if_pos (Finset.mem_range.mpr hflt)] at hsum
  have hlast : Finset.sum (Finset.range (2 * n))
      (fun L => if firstOk A c = some L then T.count c else 0) = T.count c := by
    by_cases hc : c ∈ T
    · obtain ⟨alt, ha, _, hlt⟩ := halt c hc
      rw [ha]
      have : ∀ L ∈ Finset.range (2 * n),
          (if some alt = some L then T.count c else 0) =
            (if alt = L then T.count c else 0) := by
        intro L _
        by_cases h : alt = L
        · simp [h]
        · have : ¬ some alt = some L := fun h1 => h (Option.some.inj h1)
          simp [h]
      rw [Finset.sum_congr rfl this, Finset.sum_ite_eq, if_pos (Finset.mem_range.mpr hlt)]
    · rw [List.count_eq_zero_of_not_mem hc]
      simp
  rw [hlast] at hsum
  omega

theorem updateWatchList_all (clauses : List (List Nat)) (n : Nat) (w : WatchList)
    (A0 : List (Option Nat)) (d a : Nat) (hd : d < n) (hlen : A0.length = n) (ha : a < 2)
    (hr : InRange clauses n) (hall : WatchAll clauses n none w A0) :
    ∃ b w1, updateWatchList w (d <<< 1 ||| a) (A0.set d (some a)) = Outcome.ok (b, w1) ∧
      (b = true → WatchAll clauses n none w1 (A0.set d (some a))) ∧
      (b = false → WatchAll clauses n none w1 ((A0.set d (some a)).set d none)) := by
  rw [shiftLeft_one_or d a ha]
  have hdA : d < A0.length := by rw [hlen]; exact hd
  have hdiv : (2 * d + a) / 2 = d := by omega
  have hmod : (2 * d + a) % 2 = a := by omega
  have hfl : ¬ litOk (A0.set d (some a)) (2 * d + a) := by
    unfold litOk
    rw [hdiv, hmod]
    simp [hdA]
    omega
  have hkeep : ∀ L, litOk A0 L → L = 2 * d + a ∨ litOk (A0.set d (some a)) L := by
    intro L hok
    by_cases hLd : L / 2 = d
    · by_cases hLa : L % 2 = a
      · left; omega
      · right; right
        rw [hLd]
        have : 1 - L % 2 = a := by omega
        rw [this]
        simp [hdA]
    · right
      unfold litOk at *
      rw [List.getElem?_set_ne (Ne.symm hLd)]
      exact hok
  have hentry : ∀ L c, c ∈ w.get L → c ∈ clauses ∧ L ∈ c ∧
      (L = 2 * d + a ∨ litOk (A0.set d (some a)) L) := by
    intro L c hc
    obtain ⟨h1, h2, h3⟩ := hall.1 L c hc
    refine ⟨h1, h2, ?_⟩
    rcases h3 with h3 | h3
    · exact Option.noConfusion h3
    · exact hkeep L h3
  obtain ⟨w1, h1, h2, h3⟩ := updateWatchListLoop_exact (2 * d + a) (A0.set d (some a)) hfl
    (w.get (2 * d + a)).length w (Nat.le_refl _) (by
      intro c hc L hL
      rw [List.length_set, hlen]
      exact hr c (hentry _ c hc).1 L hL)
  have hT : ∀ c ∈ (w.get (2 * d + a)).takeWhile (hasOk (A0.set d (some a))),
      ∃ alt, firstOk (A0.set d (some a)) c = some alt ∧ alt ≠ 2 * d + a ∧ alt < 2 * n := by
    intro c hc
    have hyes : hasOk (A0.set d (some a)) c = true := List.mem_takeWhile_imp hc
    have hcm : c ∈ w.get (2 * d + a) := (List.takeWhile_sublist _).subset hc
    cases hfo : firstOk (A0.set d (some a)) c with
    | none => simp [hasOk, hfo] at hyes
    | some alt =>
      refine ⟨alt, rfl, fun h => hfl (h ▸ (firstOk_some hfo).2), ?_⟩
      have := hr c (hentry _ c hcm).1 alt (firstOk_some hfo).1
      omega
  have hcount : ∀ c, holdCount n w1 c = clauses.count c := by
    intro c
    rw [← hall.2 c]
    exact holdCount_update n w w1 (2 * d + a) (A0.set d (some a)) c (by omega) _ _
      (List.takeWhile_append_dropWhile _ _).symm h2 h3 hT
  have hnew : ∀ L c, c ∈ w1.get L → c ∈ clauses ∧ L ∈ c ∧
      (L = 2 * d + a ∨ litOk (A0.set d (some a)) L) := by
    intro L c hc
    by_cases hL : L = 2 * d + a
    · subst hL
      rw [h2] at hc
      exact hentry _ c ((List.dropWhile_sublist _).subset hc)
    · rw [h3 L hL, List.mem_append] at hc
      rcases hc with hc | hc
      · exact hentry L c hc
      · obtain ⟨hcT, hf⟩ := List.mem_filter.mp hc
        have hcm : c ∈ w.get (2 * d + a) := (List.takeWhile_sublist _).subset hcT
        have hfo : firstOk (A0.set d (some a)) c = some L := by simpa using hf
        exact ⟨(hentry _ c hcm).1, (firstOk_some hfo).1, Or.inr (firstOk_some hfo).2⟩
  refine ⟨_, w1, h1, ?_, ?_⟩
  · intro hb
    rw [decide_eq_true_eq] at hb
    refine ⟨?_, hcount⟩
    intro L c hc
    obtain ⟨g1, g2, g3⟩ := hnew L c hc
    refine ⟨g1, g2, Or.inr ?_⟩
    rcases g3 with rfl | g3
    · rw [h2, hb] at hc
      simp at hc
    · exact g3
  · intro _
    refine ⟨?_, hcount⟩
    intro L c hc
    obtain ⟨g1, g2, g3⟩ := hnew L c hc
    refine ⟨g1, g2, Or.inr ?_⟩
    rcases g3 with rfl | g3
    · left
      rw [hdiv]
      simp [hdA]
    · exact litOk_set_none _ d L (by rw [List.length_set]; exact hdA) g3

theorem WatchAll_set_none {clauses : List (List Nat)} {n : Nat} {w : WatchList}
    {A : List (Option Nat)} (h : WatchAll clauses n none w A) (d : Nat) (hd : d < A.length) :
    WatchAll clauses n none w (A.set d none) := by
  refine ⟨?_, h.2⟩
  intro L c hc
  obtain ⟨g1, g2, g3⟩ := h.1 L c hc
  refine ⟨g1, g2, ?_⟩
  rcases g3 with g3 | g3
  · exact Or.inl g3
  · exact Or.inr (litOk_set_none A d L hd g3)

theorem WatchAll_tryPolarities {clauses : List (List Nat)} {n : Nat}
    (hr : InRange clauses n) : ∀ (l : List Nat), (∀ a ∈ l, a < 2) →
    ∀ (t : Bool) (st : SolveState) (t1 : Bool) (st1 : SolveState),
      SearchInv n st → st.d < n → WatchAll clauses n none st.watchList st.assignment →
      tryPolarities l t st = Outcome.ok (t1, st1) →
      WatchAll clauses n none st1.watchList st1.assignment := by
  intro l
  induction l with
  | nil =>
    intro _ t st t1 st1 _ _ hall h
    simp only [Sat.tryPolarities, Outcome.ok.injEq, Prod.mk.injEq] at h
    rw [← h.2]
    exact hall
  | cons a rest ih =>
    intro ha t st t1 st1 hinv hd hall h
    have ha2 : a < 2 := ha a (List.mem_cons_self _ _)
    have hrest : ∀ a1 ∈ rest, a1 < 2 := fun a1 h1 => ha a1 (List.mem_cons_of_mem _ h1)
    rw [Sat.tryPolarities] at h
    cases hs : st.state[st.d]? with
    | none => simp [hs] at h
    | some sd =>
      simp only [hs] at h
      by_cases hb : (sd >>> a) &&& 1 = 0
      · simp only [hb, if_true] at h
        have hdA : st.d < st.assignment.length := by rw [hinv.lenA]; exact hd
        simp only [hdA, if_true] at h
        obtain ⟨b, w1, hu, ht, hf⟩ :=
          updateWatchList_all clauses n st.watchList st.assignment st.d a hd hinv.lenA ha2 hr hall
        simp only [hu] at h
        cases b with
        | true =>
          simp only [Outcome.ok.injEq, Prod.mk.injEq] at h
          rw [← h.2]
          exact ht rfl
        | false =>
          simp only at h
          refine ih hrest true (SolveState.mk w1 st.results
            ((st.assignment.set st.d (some a)).set st.d none)
            (st.state.set st.d (sd ||| 1 <<< a)) st.d) t1 st1 ?_ hd (hf rfl) h
          refine ⟨by simp [hinv.lenA], by simp [hinv.lenS], hinv.hd, ?_, ?_⟩
          · intro v hv
            simp only at hv ⊢
            rw [List.set_set, List.getElem?_set_ne (by omega)]
            exact hinv.below v hv
          · intro v hv hvn
            simp only at hv ⊢
            rw [List.set_set, List.getElem?_set_ne (by omega)]
            exact hinv.above v hv hvn
      · simp only [hb, if_false] at h
        exact ih hrest t st t1 st1 hinv hd hall h

theorem WatchAll_step {clauses : List (List Nat)} {n : Nat} (hr : InRange clauses n)
    {st st1 : SolveState} (hinv : SearchInv n st)
    (hall : WatchAll clauses n none st.watchList st.assignment)
    (h : solveStep n st = StepResult.next st1) :
    WatchAll clauses n none st1.watchList st1.assignment := by
  unfold solveStep at h
  by_cases hd : st.d = n
  · simp only [hd, if_true, StepResult.next.injEq] at h
    rw [← h]
    exact hall
  · simp only [hd, if_false] at h
    have hlt : st.d < n := lt_of_le_of_ne hinv.hd hd
    cases ht : Sat.tryPolarities [0, 1] false st with
    | panic => simp [ht, afterPolarities] at h
    | outOfFuel => simp [ht, afterPolarities] at h
    | ok r =>
      obtain ⟨tried, st2⟩ := r
      have hall2 : WatchAll clauses n none st2.watchList st2.assignment :=
        WatchAll_tryPolarities hr [0, 1] (by decide) false st tried st2 hinv hlt hall ht
      cases tried with
      | true =>
        simp only [ht, afterPolarities, if_true, StepResult.next.injEq] at h
        rw [← h]
        exact hall2
      | false =>
        simp only [ht, afterPolarities, Bool.false_eq_true, if_false] at h
        by_cases h0 : st2.d = 0
        · simp [h0] at h
        · simp only [h0, if_false] at h
          by_cases hb : st2.d < st2.state.length ∧ st2.d < st2.assignment.length
          · simp only [hb, and_self, if_true, StepResult.next.injEq] at h
            rw [← h]
            exact WatchAll_set_none hall2 st2.d hb.2
          · simp [hb] at h

theorem WatchAll_stateAt {clauses : List (List Nat)} {n : Nat} (hn : 0 < n)
    (hr : InRange clauses n) : ∀ (k : Nat) (st st1 : SolveState),
    SearchInv n st → WatchAll clauses n none st.watchList st.assignment →
    Sat.stateAt n k st = some st1 → WatchAll clauses n none st1.watchList st1.assignment := by
  intro k
  induction k with
  | zero =>
    intro st st1 _ hall h
    simp only [Sat.stateAt, Option.some.injEq] at h
    rw [← h]
    exact hall
  | succ k ih =>
    intro st st1 hinv hall h
    simp only [Sat.stateAt] at h
    cases hs : solveStep n st with
    | next st2 =>
      simp only [hs] at h
      exact ih st2 st1 (SearchInv_step hn hinv hs) (WatchAll_step hr hinv hall hs) h
    | done b rs w => simp [hs] at h
    | panic => simp [hs] at h
    | outOfFuel => simp [hs] at h

theorem WatchAll_init (clauses : List (List Nat)) (n : Nat) (w : WatchList)
    (hne : ∀ c ∈ clauses, c ≠ []) (hr : InRange clauses n)
    (hw : ∀ L, w.get L = clauses.filter (fun c => decide (c.head? = some L))) :
    WatchAll clauses n none w (List.replicate n none) := by
  constructor
  · intro L c hc
    rw [hw L, List.mem_filter] at hc
    obtain ⟨hcm, hh⟩ := hc
    have hhead : c.head? = some L := by simpa using hh
    have hLc : L ∈ c := by
      cases c with
      | nil => simp at hhead
      | cons c0 tl =>
        simp only [List.head?_cons, Option.some.injEq] at hhead
        rw [hhead]
        exact List.mem_cons_self _ _
    refine ⟨hcm, hLc, Or.inr (Or.inl ?_)⟩
    have := hr c hcm L hLc
    simp [List.getElem?_replicate, this]
  · intro c
    unfold holdCount
    have hpt : ∀ L ∈ Finset.range (2 * n),
        (w.get L).count c = if c.head? = some L then clauses.count c else 0 := by
      intro L _
      rw [hw L]
      by_cases h : c.head? = some L
      · rw [if_pos h, List.count_filter (by simpa using h)]
      · rw [if_neg h]
        apply List.count_eq_zero_of_not_mem
        intro hm
        have := (List.mem_filter.mp hm).2
        simp at this
        exact h this
    rw [Finset.sum_congr rfl hpt]
    by_cases hc : c ∈ clauses
    · cases hcl : c with
      | nil => exact absurd hcl (hne c hc)
      | cons c0 tl =>
        have hlt : c0 < 2 * n := by
          have := hr c hc c0 (by rw [hcl]; exact List.mem_cons_self _ _)
          omega
        have : ∀ L ∈ Finset.range (2 * n),
            (if (c0 :: tl).head? = some L then clauses.count (c0 :: tl) else 0) =
              (if c0 = L then clauses.count (c0 :: tl) else 0) := by
          intro L _
          simp
        rw [Finset.sum_congr rfl this, Finset.sum_ite_eq, if_pos (Finset.mem_range.mpr hlt)]
    · rw [List.count_eq_zero_of_not_mem hc]
      simp

/-- C16 (watch-list invariant during search).  On a solver built by one or more
`AddClause` calls, each with at least one literal, at the start of every iteration
of the loop of `solve`: every entry of a watch list is a clause of the formula,
kept under a literal that occurs in the clause and is not false under the current
assignment (unassigned, or assigned the value that makes it true); every clause
is held, over all watch lists, exactly as many times as it occurs in the formula;
so every clause is in some watch list, and a clause that occurs once in the
formula is in exactly one. -/
theorem watch_invariant (calls : List (List LiteralEncoder)) (h0 : calls ≠ [])
    (hne : ∀ c ∈ calls, c ≠ []) :
    ∃ s1, setUpWatchList (buildSolver calls) = Outcome.ok s1 ∧
      s1.clauses = (buildSolver calls).clauses ∧
      ∀ (k : Nat) (st : SolveState),
        stateAt s1.variableNames.length k (solveInit s1) = some st →
        (∀ L c, c ∈ st.watchList.get L →
          c ∈ s1.clauses ∧ L ∈ c ∧ litOk st.assignment L) ∧
        (∀ c, holdCount s1.variableNames.length st.watchList c = s1.clauses.count c) ∧
        (∀ c ∈ s1.clauses, ∃ L, c ∈ st.watchList.get L) ∧
        (∀ c, s1.clauses.count c = 1 →
          ∀ L1 L2, c ∈ st.watchList.get L1 → c ∈ st.watchList.get L2 → L1 = L2) := by
  have hinv := buildSolver_inv calls
  obtain ⟨w1, hset, hw1⟩ := setUpWatchList_spec (buildSolver calls) (hinv.nonempty hne)
  refine ⟨_, hset, rfl, ?_⟩
  intro k st hk
  have hall := WatchAll_stateAt (hinv.pos h0 hne) hinv.inRange k _ st
    (SearchInv_init { buildSolver calls with watchList := w1 })
    (WatchAll_init _ _ w1 (hinv.nonempty hne) hinv.inRange hw1) hk
  have hentry : ∀ L c, c ∈ st.watchList.get L →
      c ∈ (buildSolver calls).clauses ∧ L ∈ c ∧ litOk st.assignment L := by
    intro L c hc
    obtain ⟨g1, g2, g3⟩ := hall.1 L c hc
    refine ⟨g1, g2, ?_⟩
    rcases g3 with g3 | g3
    · exact Option.noConfusion g3
    · exact g3
  have hrange : ∀ L c, c ∈ st.watchList.get L →
      L ∈ Finset.range (2 * (buildSolver calls).variableNames.length) := by
    intro L c hc
    obtain ⟨g1, g2, _⟩ := hentry L c hc
    have := hinv.inRange c g1 L g2
    rw [Finset.mem_range]
    omega
  refine ⟨hentry, hall.2, ?_, ?_⟩
  · intro c hc
    have hpos : 0 < (buildSolver calls).clauses.count c := List.count_pos_iff.mpr hc
    have hsum := hall.2 c
    unfold holdCount at hsum
    have hne0 : Finset.sum (Finset.range (2 * (buildSolver calls).variableNames.length))
        (fun L => (st.watchList.get L).count c) ≠ 0 := by
      rw [hsum]; omega
    obtain ⟨L, _, hL⟩ := Finset.exists_ne_zero_of_sum_ne_zero hne0
    exact ⟨L, List.count_pos_iff.mp (Nat.pos_of_ne_zero hL)⟩
  · intro c hone L1 L2 h1 h2
    by_contra hneq
    have hsum := hall.2 c
    unfold holdCount at hsum
    have hsub : ({L1, L2} : Finset Nat) ⊆
        Finset.range (2 * (buildSolver calls).variableNames.length) := by
      intro L hL
      rw [Finset.mem_insert, Finset.mem_singleton] at hL
      rcases hL with rfl | rfl
      · exact hrange _ c h1
      · exact hrange _ c h2
    have hle := Finset.sum_le_sum_of_subset (f := fun L => (st.watchList.get L).count c) hsub
    rw [Finset.sum_pair hneq] at hle
    have p1 : 0 < (st.watchList.get L1).count c := List.count_pos_iff.mpr h1
    have p2 : 0 < (st.watchList.get L2).count c := List.count_pos_iff.mpr h2
    have hone1 : (buildSolver calls).clauses.count c = 1 := hone
    have hsum1 : Finset.sum (Finset.range (2 * (buildSolver calls).variableNames.length))
        (fun L => (st.watchList.get L).count c) = (buildSolver calls).clauses.count c := hsum
    simp only at hle
    omega

/-- Instance of `watch_invariant` on the formula of
`ExampleSimpleSatisfiableDependency`. -/
theorem watch_invariant_witness :
    callsDependency ≠ [] ∧ (∀ c ∈ callsDependency, c ≠ []) ∧
    ∃ s1, setUpWatchList (buildSolver callsDependency) = Outcome.ok s1 ∧
      s1.clauses = (buildSolver callsDependency).clauses ∧
      ∀ (k : Nat) (st : SolveState),
        stateAt s1.variableNames.length k (solveInit s1) = some st →
        (∀ L c, c ∈ st.watchList.get L →
          c ∈ s1.clauses ∧ L ∈ c ∧ litOk st.assignment L) ∧
        (∀ c, holdCount s1.variableNames.length st.watchList c = s1.clauses.count c) ∧
        (∀ c ∈ s1.clauses, ∃ L, c ∈ st.watchList.get L) ∧
        (∀ c, s1.clauses.count c = 1 →
          ∀ L1 L2, c ∈ st.watchList.get L1 → c ∈ st.watchList.get L2 → L1 = L2) :=
  ⟨by decide, by decide, watch_invariant callsDependency (by decide) (by decide)⟩

/-- C20 (formula rendering), evaluated on the code.  `String()` shows the literal
added from `NewVariable("A")` with the negation sign and the literal added from
`Not()` as the bare name: `printableLiteral` takes an even packed literal for the
negated one, while `AddClause` packs the positive handle as the even literal. -/
theorem rendering_inverts_polarity :
    (buildSolver [[pos "A"]]).clauses = [[0]] ∧
    printableLiteral (buildSolver [[pos "A"]]) 0 = Outcome.ok "¬A" ∧
    (buildSolver [[pos "A"]]).String = Outcome.ok "(¬A)" ∧
    (buildSolver [[neg "A"]]).clauses = [[1]] ∧
    printableLiteral (buildSolver [[neg "A"]]) 1 = Outcome.ok "A" ∧
    (buildSolver [[neg "A"]]).String = Outcome.ok "(A)" ∧
    (buildSolver [[pos "A", neg "B"], [neg "A"]]).String = Outcome.ok "(¬A ∨ B) ∧ (A)" :=
  ⟨rfl, rfl, rfl, rfl, rfl, rfl, rfl⟩

theorem stateAt_solveLoop (n : Nat) : ∀ (k : Nat) (st st1 : SolveState),
    stateAt n k st = some st1 →
    ∀ fuel, solveLoop n (k + fuel) st = solveLoop n fuel st1 := by
  intro k
  induction k with
  | zero =>
    intro st st1 h fuel
    simp only [stateAt, Option.some.injEq] at h
    rw [h, Nat.zero_add]
  | succ k ih =>
    intro st st1 h fuel
    simp only [stateAt] at h
    rw [show k + 1 + fuel = (k + fuel) + 1 by omega]
    cases hs : solveStep n st with
    | next st2 =>
      simp only [hs] at h
      simp only [solveLoop, hs]
      exact ih st2 st1 h fuel
    | done b rs w => simp [hs] at h
    | panic => simp [hs] at h
    | outOfFuel => simp [hs] at h

theorem stateAt_outOfFuel (n : Nat) : ∀ (k : Nat) (st st1 : SolveState),
    stateAt n k st = some st1 →
    ∀ fuel, fuel ≤ k → solveLoop n fuel st = Outcome.outOfFuel := by
  intro k
  induction k with
  | zero =>
    intro st st1 _ fuel hf
    have : fuel = 0 := by omega
    subst this
    rfl
  | succ k ih =>
    intro st st1 h fuel hf
    cases fuel with
    | zero => rfl
    | succ f =>
      simp only [stateAt] at h
      cases hs : solveStep n st with
      | next st2 =>
        simp only [hs] at h
        simp only [solveLoop, hs]
        exact ih st2 st1 h f (by omega)
      | done b rs w => simp [hs] at h
      | panic => simp [hs] at h
      | outOfFuel => simp [hs] at h

theorem solveLoop_ok_stateAt (n : Nat) : ∀ (fuel : Nat) (st : SolveState)
    (r : Bool × List (List (Option Nat)) × WatchList),
    solveLoop n fuel st = Outcome.ok r →
    ∃ k st1, k < fuel ∧ stateAt n k st = some st1 ∧
      solveStep n st1 = StepResult.done r.1 r.2.1 r.2.2 := by
  intro fuel
  induction fuel with
  | zero => intro st r h; simp [solveLoop] at h
  | succ fuel ih =>
    intro st r h
    cases hs : solveStep n st with
    | next st2 =>
      simp only [solveLoop, hs] at h
      obtain ⟨k, st1, hk, h1, h2⟩ := ih st2 r h
      refine ⟨k + 1, st1, by omega, ?_, h2⟩
      simp only [stateAt, hs]
      exact h1
    | done b rs w =>
      simp only [solveLoop, hs, Outcome.ok.injEq] at h
      refine ⟨0, st, by omega, rfl, ?_⟩
      rw [hs, ← h]
    | panic => simp [solveLoop, hs] at h
    | outOfFuel => simp [solveLoop, hs] at h

theorem stateAt_last (n : Nat) : ∀ (k : Nat) (st st1 : SolveState) (b : Bool)
    (rs : List (List (Option Nat))) (w : WatchList),
    stateAt n k st = some st1 → solveStep n st1 = StepResult.done b rs w →
    ∀ (j : Nat) (st2 : SolveState), stateAt n j st = some st2 → j ≤ k := by
  intro k
  induction k with
  | zero =>
    intro st st1 b rs w h hd j st2 hj
    simp only [stateAt, Option.some.injEq] at h
    subst h
    cases j with
    | zero => exact Nat.le_refl _
    | succ j => simp [stateAt, hd] at hj
  | succ k ih =>
    intro st st1 b rs w h hd j st2 hj
    cases j with
    | zero => omega
    | succ j =>
      simp only [stateAt] at h hj
      cases hs : solveStep n st with
      | next st3 =>
        simp only [hs] at h hj
        have := ih st3 st1 b rs w h hd j st2 hj
        omega
      | done b1 rs1 w1 => simp [hs] at h
      | panic => simp [hs] at h
      | outOfFuel => simp [hs] at h

theorem stateAt_continues (n : Nat) : ∀ (j k : Nat) (st st1 st2 : SolveState),
    j < k → stateAt n k st = some st1 → stateAt n j st = some st2 →
    ∃ st3, solveStep n st2 = StepResult.next st3 := by
  intro j
  induction j with
  | zero =>
    intro k st st1 st2 hjk hk hj
    simp only [stateAt, Option.some.injEq] at hj
    subst hj
    cases k with
    | zero => omega
    | succ k =>
      simp only [stateAt] at hk
      cases hs : solveStep n st with
      | next st3 => exact ⟨st3, rfl⟩
      | done b rs w => simp [hs] at hk
      | panic => simp [hs] at hk
      | outOfFuel => simp [hs] at hk
  | succ j ih =>
    intro k st st1 st2 hjk hk hj
    cases k with
    | zero => omega
    | succ k =>
      simp only [stateAt] at hk hj
      cases hs : solveStep n st with
      | next st3 =>
        simp only [hs] at hk hj
        exact ih k st3 st1 st2 (by omega) hk hj
      | done b rs w => simp [hs] at hk
      | panic => simp [hs] at hk
      | outOfFuel => simp [hs] at hk

/-- C5 (termination).  On a solver built by one or more `AddClause` calls, each with
at least one literal, the loop of `solve`, run from the initial state of `solve`,
returns: there is an iteration `k`, below `solveFuel n`, such that every earlier
iteration continues the loop, iteration `k` starts in a state with `d = 0` in which
both polarities of variable `0` are marked as tried and returns from there, and no
later iteration exists; the loop returns that result under every budget above `k`
(and nothing under a smaller one), so `solve` and `Satisfiable` return.  No
iteration, in any state, returns from another kind of state. -/
theorem solve_terminates (calls : List (List LiteralEncoder)) (h0 : calls ≠ [])
    (hne : ∀ c ∈ calls, c ≠ []) :
    ∃ s1, setUpWatchList (buildSolver calls) = Outcome.ok s1 ∧
      (∃ k result, k ≤ solveFuel s1.variableNames.length ∧
        (∀ fuel, k ≤ fuel →
          solveLoop s1.variableNames.length fuel (solveInit s1) = Outcome.ok result) ∧
        solve s1 = Outcome.ok result) ∧
      (∃ r, Satisfiable (buildSolver calls) = Outcome.ok r) ∧
      (∀ (st : SolveState) (b : Bool) (rs : List (List (Option Nat))) (w : WatchList),
        solveStep s1.variableNames.length st = StepResult.done b rs w →
        st.d = 0 ∧ ∃ sd, st.state[0]? = some sd ∧
          (sd >>> 0) &&& 1 ≠ 0 ∧ (sd >>> 1) &&& 1 ≠ 0) ∧
      (∃ (k : Nat) (st : SolveState) (b : Bool) (rs : List (List (Option Nat)))
          (w : WatchList),
        k < solveFuel s1.variableNames.length ∧
        stateAt s1.variableNames.length k (solveInit s1) = some st ∧
        solveStep s1.variableNames.length st = StepResult.done b rs w ∧
        st.d = 0 ∧
        (∃ sd, st.state[0]? = some sd ∧ (sd >>> 0) &&& 1 ≠ 0 ∧ (sd >>> 1) &&& 1 ≠ 0) ∧
        (∀ fuel, k < fuel →
          solveLoop s1.variableNames.length fuel (solveInit s1) = Outcome.ok (b, rs, w)) ∧
        (∀ fuel, fuel ≤ k →
          solveLoop s1.variableNames.length fuel (solveInit s1) = Outcome.outOfFuel) ∧
        solve s1 = Outcome.ok (b, rs, w) ∧
        (∀ (j : Nat) (st2 : SolveState),
          stateAt s1.variableNames.length j (solveInit s1) = some st2 → j ≤ k) ∧
        (∀ (j : Nat) (st2 : SolveState), j < k →
          stateAt s1.variableNames.length j (solveInit s1) = some st2 →
          ∃ st3, solveStep s1.variableNames.length st2 = StepResult.next st3)) := by
  have hinv := buildSolver_inv calls
  obtain ⟨w1, hset, hw1⟩ := setUpWatchList_spec (buildSolver calls) (hinv.nonempty hne)
  have hwi := watchInv_init (buildSolver calls).clauses (buildSolver calls).variableNames.length
    w1 (hinv.nonempty hne) hinv.inRange hw1
  obtain ⟨k0, w2, _, hk0, hrun⟩ := solveLoop_spec { buildSolver calls with watchList := w1 }
    (hinv.pos h0 hne) hinv.inRange hwi
  obtain ⟨w, hw⟩ := Satisfiable_closed calls h0 hne
  dsimp only at hk0 hrun
  obtain ⟨R, hR⟩ : ∃ R, ∀ fuel, solveLoop (buildSolver calls).variableNames.length (fuel + k0)
      (solveInit { buildSolver calls with watchList := w1 }) = Outcome.ok R := ⟨_, hrun⟩
  have hloop : ∀ fuel, k0 ≤ fuel → solveLoop (buildSolver calls).variableNames.length fuel
      (solveInit { buildSolver calls with watchList := w1 }) = Outcome.ok R := by
    intro fuel hf
    have := hR (fuel - k0)
    rw [Nat.sub_add_cancel hf] at this
    exact this
  obtain ⟨k, st, hk, hst, hdone⟩ :=
    solveLoop_ok_stateAt _ k0 _ R (hloop k0 (Nat.le_refl _))
  have hafter : ∀ fuel, k < fuel → solveLoop (buildSolver calls).variableNames.length fuel
      (solveInit { buildSolver calls with watchList := w1 }) =
        Outcome.ok (R.1, R.2.1, R.2.2) := by
    intro fuel hf
    have h1 := stateAt_solveLoop _ k _ st hst (fuel - k)
    rw [show k + (fuel - k) = fuel by omega] at h1
    rw [h1]
    obtain ⟨f, hf1⟩ : ∃ f, fuel - k = f + 1 := ⟨fuel - k - 1, by omega⟩
    rw [hf1]
    simp only [solveLoop, hdone]
  have hd := solveStep_done _ st _ _ _ hdone
  exact ⟨_, hset, ⟨k0, R, by dsimp only; omega, hloop,
      hloop (solveFuel (buildSolver calls).variableNames.length) (by omega)⟩, ⟨_, hw⟩,
    fun st b rs w h => solveStep_done _ st b rs w h,
    ⟨k, st, R.1, R.2.1, R.2.2, by dsimp only; omega, hst, hdone, hd.1, hd.2, hafter,
      stateAt_outOfFuel _ k _ st hst,
      hafter (solveFuel (buildSolver calls).variableNames.length) (by omega),
      stateAt_last _ k _ st _ _ _ hst hdone,
      fun j st2 hj h2 => stateAt_continues _ j k _ st st2 hj hst h2⟩⟩

/-- Instance of `solve_terminates` on the formula of
`ExampleSimpleSatisfiableDependency`. -/
theorem solve_terminates_witness :
    callsDependency ≠ [] ∧ (∀ c ∈ callsDependency, c ≠ []) ∧
    ∃ s1, setUpWatchList (buildSolver callsDependency) = Outcome.ok s1 ∧
      (∃ k result, k ≤ solveFuel s1.variableNames.length ∧
        (∀ fuel, k ≤ fuel →
          solveLoop s1.variableNames.length fuel (solveInit s1) = Outcome.ok result) ∧
        solve s1 = Outcome.ok result) ∧
      (∃ r, Satisfiable (buildSolver callsDependency) = Outcome.ok r) ∧
      (∀ (st : SolveState) (b : Bool) (rs : List (List (Option Nat))) (w : WatchList),
        solveStep s1.variableNames.length st = StepResult.done b rs w →
        st.d = 0 ∧ ∃ sd, st.state[0]? = some sd ∧
          (sd >>> 0) &&& 1 ≠ 0 ∧ (sd >>> 1) &&& 1 ≠ 0) ∧
      (∃ (k : Nat) (st : SolveState) (b : Bool) (rs : List (List (Option Nat)))
          (w : WatchList),
        k < solveFuel s1.variableNames.length ∧
        stateAt s1.variableNames.length k (solveInit s1) = some st ∧
        solveStep s1.variableNames.length st = StepResult.done b rs w ∧
        st.d = 0 ∧
        (∃ sd, st.state[0]? = some sd ∧ (sd >>> 0) &&& 1 ≠ 0 ∧ (sd >>> 1) &&& 1 ≠ 0) ∧
        (∀ fuel, k < fuel →
          solveLoop s1.variableNames.length fuel (solveInit s1) = Outcome.ok (b, rs, w)) ∧
        (∀ fuel, fuel ≤ k →
          solveLoop s1.variableNames.length fuel (solveInit s1) = Outcome.outOfFuel) ∧
        solve s1 = Outcome.ok (b, rs, w) ∧
        (∀ (j : Nat) (st2 : SolveState),
          stateAt s1.variableNames.length j (solveInit s1) = some st2 → j ≤ k) ∧
        (∀ (j : Nat) (st2 : SolveState), j < k →
          stateAt s1.variableNames.length j (solveInit s1) = some st2 →
          ∃ st3, solveStep s1.variableNames.length st2 = StepResult.next st3)) :=
  ⟨by decide, by decide, solve_terminates callsDependency (by decide) (by decide)⟩

theorem setUpWatchList_watchList (s : Solver) (w : WatchList) :
    setUpWatchList { s with watchList := w } = setUpWatchList s := rfl

/-- The second call of `Satisfiable`, stage by stage, on the solver that the first
call leaves. -/
theorem second_call (calls : List (List LiteralEncoder)) (h0 : calls ≠ [])
    (hne : ∀ c ∈ calls, c ≠ []) :
    ∃ w w0 raws w2,
      Satisfiable (buildSolver calls) =
        Outcome.ok ({ buildSolver calls with watchList := w },
          decide ((expectedSolutions (buildSolver calls).variableNames calls).length > 0),
          expectedSolutions (buildSolver calls).variableNames calls) ∧
      setUpWatchList (buildSolver calls) =
        Outcome.ok { buildSolver calls with watchList := w0 } ∧
      setUpWatchList { buildSolver calls with watchList := w } =
        Outcome.ok { buildSolver calls with watchList := w0 } ∧
      (∀ L, w0.get L =
        (buildSolver calls).clauses.filter (fun c => decide (c.head? = some L))) ∧
      solve { buildSolver calls with watchList := w0 } =
        Outcome.ok
          (decide ((expectedSolutions (buildSolver calls).variableNames calls).length > 0),
            raws, w2) ∧
      translateAll { buildSolver calls with watchList := w0 } raws =
        Outcome.ok (expectedSolutions (buildSolver calls).variableNames calls) ∧
      Satisfiable { buildSolver calls with watchList := w } =
        Outcome.ok ({ buildSolver calls with watchList := w },
          decide ((expectedSolutions (buildSolver calls).variableNames calls).length > 0),
          expectedSolutions (buildSolver calls).variableNames calls) := by
  obtain ⟨w, hw⟩ := Satisfiable_closed calls h0 hne
  obtain ⟨w0, w2, hset, hw0, hsolve, htr⟩ := Satisfiable_stages calls h0 hne
  have hinv := buildSolver_inv calls
  have hmap : ((satisfyingVectors (buildSolver calls).variableNames calls).map encode).map
      (decode { buildSolver calls with watchList := w0 }) =
      expectedSolutions (buildSolver calls).variableNames calls := by
    unfold expectedSolutions
    rw [List.map_map]
    apply List.map_congr_left
    intro v hv
    exact decode_encode { buildSolver calls with watchList := w0 }
      ⟨hinv.1.toNumber, hinv.1.toName⟩ v ((mem_satisfyingVectors _ _ v).mp hv).1
  rw [hmap] at htr
  have hlen : ((satisfyingVectors (buildSolver calls).variableNames calls).map encode).length =
      (expectedSolutions (buildSolver calls).variableNames calls).length := by
    simp [expectedSolutions]
  rw [hlen] at hsolve
  refine ⟨w, w0, _, w2, hw, hset, ?_, hw0, hsolve, htr, ?_⟩
  · rw [setUpWatchList_watchList]
    exact hset
  · rw [Satisfiable_watchList]
    exact hw

/-- C8 (repeatable queries).  On a solver built by one or more `AddClause` calls,
each with at least one literal, `Satisfiable` returns a solver `s1` with the same
clause list and the watch list the search left.  A second call on `s1` first
rebuilds the watch list with `setUpWatchList`: the list of each literal is again
the clauses whose first literal it is, whatever the search left there; `solve` and
the translation, run on the rebuilt list, give the verdict and the Solutions of the
first call, and so does `Satisfiable` on `s1`.  On the formula of
`ExampleSimpleSatisfiableDependency` the first search leaves the watch list of
literal `1` empty, the rebuilt one holds the clause `[1, 2, 4, 6]` again, and the
second call returns what the first returned. -/
theorem repeatable_queries (calls : List (List LiteralEncoder)) (h0 : calls ≠ [])
    (hne : ∀ c ∈ calls, c ≠ []) :
    (∃ s1 b sols w0,
      Satisfiable (buildSolver calls) = Outcome.ok (s1, b, sols) ∧
      s1.clauses = (buildSolver calls).clauses ∧
      setUpWatchList s1 = Outcome.ok { s1 with watchList := w0 } ∧
      (∀ L, w0.get L = s1.clauses.filter (fun c => decide (c.head? = some L))) ∧
      (∃ raws w2, solve { s1 with watchList := w0 } = Outcome.ok (b, raws, w2) ∧
        translateAll { s1 with watchList := w0 } raws = Outcome.ok sols) ∧
      ∃ s2, Satisfiable s1 = Outcome.ok (s2, b, sols)) ∧
    (∃ s1 b sols w0,
      Satisfiable (buildSolver callsDependency) = Outcome.ok (s1, b, sols) ∧
      s1.watchList.get 1 = [] ∧
      setUpWatchList s1 = Outcome.ok { s1 with watchList := w0 } ∧
      w0.get 1 = [[1, 2, 4, 6]] ∧
      ∃ s2, Satisfiable s1 = Outcome.ok (s2, b, sols)) := by
  constructor
  · obtain ⟨w, w0, raws, w2, hw, _, hset1, hw0, hsolve, htr, hsecond⟩ :=
      second_call calls h0 hne
    exact ⟨_, _, _, w0, hw, rfl, hset1, hw0, ⟨raws, w2, hsolve, htr⟩, _, hsecond⟩
  · obtain ⟨w, w0, raws, w2, hw, _, hset1, hw0, _, _, hsecond⟩ :=
      second_call callsDependency (by decide) (by decide)
    have hc : ∃ S B SOLS, Satisfiable (buildSolver callsDependency) = Outcome.ok (S, B, SOLS) ∧
        S.watchList.get 1 = [] := ⟨_, _, _, rfl, by decide⟩
    obtain ⟨S, B, SOLS, hS, hget⟩ := hc
    rw [hw] at hS
    have hSeq : S = { buildSolver callsDependency with watchList := w } := by
      have := Outcome.ok.inj hS
      exact (Prod.mk.inj this).1.symm
    rw [hSeq] at hget
    refine ⟨_, _, _, w0, hw, hget, hset1, ?_, _, hsecond⟩
    rw [hw0 1]
    decide

/-- Instance of `repeatable_queries` on the formula of
`ExampleSimpleSatisfiableDependency`, whose watch list the first search changes. -/
theorem repeatable_queries_witness :
    callsDependency ≠ [] ∧ (∀ c ∈ callsDependency, c ≠ []) ∧
    ∃ s1 b sols w0,
      Satisfiable (buildSolver callsDependency) = Outcome.ok (s1, b, sols) ∧
      s1.clauses = (buildSolver callsDependency).clauses ∧
      setUpWatchList s1 = Outcome.ok { s1 with watchList := w0 } ∧
      (∀ L, w0.get L = s1.clauses.filter (fun c => decide (c.head? = some L))) ∧
      (∃ raws w2, solve { s1 with watchList := w0 } = Outcome.ok (b, raws, w2) ∧
        translateAll { s1 with watchList := w0 } raws = Outcome.ok sols) ∧
      ∃ s2, Satisfiable s1 = Outcome.ok (s2, b, sols) :=
  ⟨by decide, by decide, (repeatable_queries callsDependency (by decide) (by decide)).1⟩

end Sat
